import Mathlib

/-!
The decoder `axml2xml`: a shallow embedding and its verified properties.

Source: `src/axml2xml.go` (package `axml2xml`).

Modelling conventions.

* The `bufio.Reader` is the list of bytes that are still unread (`Stream`).
  Every read either returns a value together with the remaining stream or
  fails; reads never block and the underlying reader only ever reports
  end of input.
* `uint32` and `uint16` values are natural numbers; `uint16` arithmetic that
  can wrap is reduced modulo `2^16` explicitly, `uint32` modulo `2^32`.
  `int` is the 64 bit Go `int`, which none of the sums below can overflow.
* A Go `string` that holds valid UTF-8 is the list of its code points
  (`GoString`); every string handled by the decoder is produced by
  `utf16BytesToString` and is valid UTF-8.
* A Go run-time fault (index out of range) is the outcome `Result.panic`,
  distinct from a returned `error` value (`Result.error`).
* Loops whose trip count depends on the data (`goto READ_AGAIN`, the loop and
  recursion of `readChildren`) are defined by recursion on a fuel argument;
  `Result.outOfFuel` is the outcome of a run that needs more fuel than given.
-/

namespace Axml2xml

/-! ## Basic types -/

abbrev Byte := Fin 256

/-- The unread bytes of the reader. -/
abbrev Stream := List Byte

/-- Code point of a Go rune. -/
abbrev Rune := Nat

/-- Go string holding valid UTF-8, as the list of its code points. -/
abbrev GoString := List Rune

/-- Code points of a string literal. -/
def str (s : String) : GoString := s.data.map Char.toNat

/-- The `error` values the decoder can return. -/
inductive GoError where
  /-- Value `io.EOF`: no byte was available. -/
  | EOF : GoError
  /-- Value `io.ErrUnexpectedEOF`: the input ended inside a fixed-size read. -/
  | ErrUnexpectedEOF : GoError
  /-- Value `fmt.Errorf("Invaild string offset=%#v", offs)`. -/
  | InvalidStringOffset (offs : Nat) : GoError
  deriving DecidableEq, Repr

/-- Outcome of running a piece of the decoder. -/
inductive Result (α : Type) where
  /-- Normal return with `err == nil`. -/
  | ok (a : α) : Result α
  /-- Normal return with a non-nil `error`. -/
  | error (e : GoError) : Result α
  /-- Run-time fault: index out of range. -/
  | panic : Result α
  /-- The fuel given to a fuelled loop was not enough. -/
  | outOfFuel : Result α
  deriving DecidableEq, Repr

namespace Result

/-- Sequencing: the first outcome that is not `ok` ends the run. -/
def bind {α β : Type} (r : Result α) (f : α → Result β) : Result β :=
  match r with
  | .ok a => f a
  | .error e => .error e
  | .panic => .panic
  | .outOfFuel => .outOfFuel

/-- Apply a function to the value of a normal return. -/
def map {α β : Type} (f : α → β) (r : Result α) : Result β :=
  r.bind (fun a => .ok (f a))

/-- Whether the outcome is a normal return without error. -/
def isOk {α : Type} : Result α → Bool
  | .ok _ => true
  | _ => false

/-- Whether the outcome is a returned `error` value. -/
def isError {α : Type} : Result α → Bool
  | .error _ => true
  | _ => false

end Result

instance : Monad Result where
  pure := Result.ok
  bind := Result.bind

/-! ## Constants (lines 15-19) -/

def TAG_OPEN : Nat := 0x10
def TAG_SUPPORTS_CHILDREN : Nat := 0x100000
def TAG_TEXT : Nat := 0x08

/-- Sentinel word `0xFFFFFFFF`. -/
def SENTINEL : Nat := 0xFFFFFFFF

/-- Test `flags & mask != 0` on 32 bit words. -/
def hasFlag (flags mask : Nat) : Bool := (flags &&& mask) != 0

/-! ## Primitive reads -/

/-- Little-endian value of four bytes. -/
def u32 (b0 b1 b2 b3 : Byte) : Nat :=
  b0.val + 256 * b1.val + 65536 * b2.val + 16777216 * b3.val

/-- Little-endian value of two bytes. -/
def u16 (b0 b1 : Byte) : Nat := b0.val + 256 * b1.val

/-- Call `binary.Read(br, binary.LittleEndian, &v)` for a `uint32`: four bytes
through `io.ReadFull`; `io.EOF` when no byte is left, `io.ErrUnexpectedEOF`
when one to three are. -/
def readU32 : Stream → Result (Nat × Stream)
  | b0 :: b1 :: b2 :: b3 :: rest => .ok (u32 b0 b1 b2 b3, rest)
  | [] => .error .EOF
  | _ => .error .ErrUnexpectedEOF

/-- Call `binary.Read(br, binary.LittleEndian, &l)` for a `uint16`. -/
def readU16 : Stream → Result (Nat × Stream)
  | b0 :: b1 :: rest => .ok (u16 b0 b1, rest)
  | [] => .error .EOF
  | _ => .error .ErrUnexpectedEOF

/-- Call `io.ReadFull(br, buf)` for a buffer of `n` bytes: no read at all for
an empty buffer, `io.EOF` when no byte is left, `io.ErrUnexpectedEOF` when the
input ends inside the buffer. -/
def readFull (n : Nat) (s : Stream) : Result (List Byte × Stream) :=
  if n ≤ s.length then .ok (s.take n, s.drop n)
  else if s.length = 0 then .error .EOF
  else .error .ErrUnexpectedEOF

/-- Call `br.ReadByte()`. -/
def readByte : Stream → Result (Byte × Stream)
  | b :: rest => .ok (b, rest)
  | [] => .error .EOF

/-- Read `n` consecutive `uint32` words, as `n` successive `binary.Read` calls. -/
def readWords : Nat → Stream → Result (List Nat × Stream)
  | 0, s => .ok ([], s)
  | n + 1, s =>
    match readU32 s with
    | .ok (v, s1) =>
      match readWords n s1 with
      | .ok (vs, s2) => .ok (v :: vs, s2)
      | .error e => .error e
      | .panic => .panic
      | .outOfFuel => .outOfFuel
    | .error e => .error e
    | .panic => .panic
    | .outOfFuel => .outOfFuel

/-! ## readPastSentinel (lines 334-368) -/

/-- First loop of `readPastSentinel`: read words until one is `0xFFFFFFFF`.
Returns the error, if any, and the stream left behind; a failing
`binary.Read` has consumed whatever bytes were left. -/
def scanToSentinel : Stream → Option GoError × Stream
  | b0 :: b1 :: b2 :: b3 :: rest =>
    if u32 b0 b1 b2 b3 = SENTINEL then (none, rest) else scanToSentinel rest
  | [] => (some .EOF, [])
  | _ => (some .ErrUnexpectedEOF, [])

/-- Second loop of `readPastSentinel` (entered when `count == 0`), with `n`
the number of sentinels passed so far: `Peek(4)` fails with `io.EOF`, without
consuming anything, when fewer than four bytes are left; four `FF` bytes are
read as one more sentinel, after which the loop ends if `count >= n`. -/
def skipSentinels (count : Int) : Nat → Stream → Option GoError × Stream
  | n, b0 :: b1 :: b2 :: b3 :: rest =>
    if b0.val = 0xFF ∧ b1.val = 0xFF ∧ b2.val = 0xFF ∧ b3.val = 0xFF then
      if count ≥ ((n + 1 : Nat) : Int) then (none, rest)
      else skipSentinels count (n + 1) rest
    else (none, b0 :: b1 :: b2 :: b3 :: rest)
  | _, s => (some .EOF, s)

/-- Function `readPastSentinel(r, count)`: the returned error (`none` for nil)
and the stream left behind. -/
def readPastSentinel (r : Stream) (count : Int) : Option GoError × Stream :=
  match scanToSentinel r with
  | (some e, s) => (some e, s)
  | (none, s) => if count = 0 then skipSentinels count 1 s else (none, s)

/-! ## utf16BytesToString (lines 370-379) -/

/-- The `uint16` slice built by `utf16BytesToString` for little-endian order:
one unit per byte pair, and `utf8.RuneError` in the last slot when the number
of bytes is odd. -/
def utf16Units : List Byte → List Nat
  | b0 :: b1 :: rest => u16 b0 b1 :: utf16Units rest
  | [_] => [0xFFFD]
  | [] => []

/-- Function `utf16.DecodeRune` on a valid surrogate pair. -/
def decodeSurrogates (r1 r2 : Nat) : Rune :=
  (r1 - 0xd800) * 1024 + (r2 - 0xdc00) + 0x10000

/-- Function `utf16.Decode`: a unit outside the surrogate range is itself, a
high surrogate directly followed by a low surrogate is the code point of the pair,
any other surrogate is U+FFFD. -/
def utf16Decode : List Nat → List Rune
  | [] => []
  | r :: rest =>
    if r < 0xd800 ∨ 0xe000 ≤ r then r :: utf16Decode rest
    else
      match rest with
      | [] => [0xFFFD]
      | r2 :: rest2 =>
        if r < 0xdc00 ∧ 0xdc00 ≤ r2 ∧ r2 < 0xe000 then
          decodeSurrogates r r2 :: utf16Decode rest2
        else 0xFFFD :: utf16Decode (r2 :: rest2)

/-- Whether a rune is a Unicode scalar value. -/
def isScalar (r : Rune) : Bool := r < 0xd800 || (0xe000 ≤ r && r < 0x110000)

/-- Conversion `string(runes)`: a rune that is no scalar value becomes U+FFFD. -/
def runesToString (rs : List Rune) : GoString :=
  rs.map (fun r => if isScalar r then r else 0xFFFD)

/-- Function `utf16BytesToString(b, binary.LittleEndian)`. -/
def utf16BytesToString (b : List Byte) : GoString :=
  runesToString (utf16Decode (utf16Units b))

/-! ## The string pool (DecompressXML, lines 36-113) -/

/-- Insertion of a key into a Go map kept as an association list: an existing
entry for the key is replaced. -/
def mapInsert {β : Type} (m : List (Nat × β)) (k : Nat) (v : β) : List (Nat × β) :=
  (k, v) :: m.filter (fun p => p.1 != k)

/-- Lookup in a Go map kept as an association list. -/
def mapLookup {β : Type} (m : List (Nat × β)) (k : Nat) : Option β :=
  (m.find? (fun p => p.1 == k)).map (fun p => p.2)

/-- Lines 36-73: nine `uint32` words are read; the fifth is `strnum`. -/
def readPreamble (s : Stream) : Result (Nat × Stream) :=
  match readWords 9 s with
  | .ok (ws, s1) => .ok (ws.getD 4 0, s1)
  | .error e => .error e
  | .panic => .panic
  | .outOfFuel => .outOfFuel

/-- Call `sort.Ints(stroffs)`: the slice is sorted in place, ascending. -/
def sortInts (stroffs : List Nat) : List Nat :=
  stroffs.insertionSort (fun a b => a ≤ b)

/-- Number of bytes of the buffer `make([]byte, l*2)`: the product is taken in
`uint16`. -/
def bufLen (l : Nat) : Nat := (l * 2) % 65536

/-- Lines 88-106: the loop over the (sorted) offsets, from the running offset
`curroffs` and the map `strs` built so far. Returns the map, the final
`curroffs` and the stream left. -/
def readStrs : List Nat → Nat → List (Nat × GoString) → Stream →
    Result (List (Nat × GoString) × Nat × Stream)
  | [], curroffs, strs, s => .ok (strs, curroffs, s)
  | offs :: rest, curroffs, strs, s =>
    if offs ≠ curroffs then .error (.InvalidStringOffset offs)
    else
      match readU16 s with
      | .ok (l, s1) =>
        match readFull (bufLen l) s1 with
        | .ok (buf, s2) =>
          match readU16 s2 with
          | .ok (_, s3) =>
            readStrs rest (curroffs + ((l + 1) * 2 + 2))
              (mapInsert strs offs (utf16BytesToString buf)) s3
          | .error e => .error e
          | .panic => .panic
          | .outOfFuel => .outOfFuel
        | .error e => .error e
        | .panic => .panic
        | .outOfFuel => .outOfFuel
      | .error e => .error e
      | .panic => .panic
      | .outOfFuel => .outOfFuel

/-- Lines 108-113: `strings` has `len(strs)` slots, all empty at first; slot
`idx` receives `strs[offs]` for the `idx`-th element of `stroffs` as that
slice stands at this point. Writing past the last slot is a run-time fault. -/
def buildStrings (stroffs : List Nat) (strs : List (Nat × GoString)) :
    Result (List GoString) :=
  if strs.length < stroffs.length then .panic
  else .ok (stroffs.map (fun offs => (mapLookup strs offs).getD []) ++
            List.replicate (strs.length - stroffs.length) [])

/-- Lines 136-140: `n` calls of `br.ReadByte()`. -/
def skipBytes : Nat → Stream → Result Stream
  | 0, s => .ok s
  | n + 1, s =>
    match readByte s with
    | .ok (_, s1) => skipBytes n s1
    | .error e => .error e
    | .panic => .panic
    | .outOfFuel => .outOfFuel

/-- Lines 36-113 of `DecompressXML`: preamble, offset table, sort, string
data. Returns the slice `strings`, the value of `pos` and the stream left. -/
def readStringPool (r : Stream) : Result (List GoString × Nat × Stream) :=
  match readPreamble r with
  | .ok (strnum, s1) =>
    match readWords strnum s1 with
    | .ok (stroffs, s2) =>
      let sorted := sortInts stroffs
      match readStrs sorted 0 [] s2 with
      | .ok (strs, curroffs, s3) =>
        match buildStrings sorted strs with
        | .ok strings => .ok (strings, 9 * 4 + 4 * strnum + curroffs, s3)
        | .error e => .error e
        | .panic => .panic
        | .outOfFuel => .outOfFuel
      | .error e => .error e
      | .panic => .panic
      | .outOfFuel => .outOfFuel
    | .error e => .error e
    | .panic => .panic
    | .outOfFuel => .outOfFuel
  | .error e => .error e
  | .panic => .panic
  | .outOfFuel => .outOfFuel

/-! ## Tags (lines 21-26) -/

/-- One element of `Tag.attrs`, a Go map with the keys `"name"`, `"value"` and,
optionally, `"ns"`. -/
structure Attr where
  ns : Option GoString
  name : GoString
  value : GoString
  deriving DecidableEq, Repr

/-- The struct `Tag`. -/
inductive Tag where
  | mk (name : GoString) (flags : Nat) (attrs : List Attr) (children : List Tag) : Tag
  deriving Repr

namespace Tag

def name : Tag → GoString
  | .mk n _ _ _ => n

def flags : Tag → Nat
  | .mk _ f _ _ => f

def attrs : Tag → List Attr
  | .mk _ _ a _ => a

def children : Tag → List Tag
  | .mk _ _ _ c => c

/-- Assignment `tag.children = cs`. -/
def setChildren : Tag → List Tag → Tag
  | .mk n f a _, cs => .mk n f a cs

end Tag

/-- The namespace map `nsmap`, from URI index to prefix index. -/
abbrev NsMap := List (Nat × Nat)

/-- Read `nsmap[k]`: a missing key reads as 0. -/
def nsLookup (nsmap : NsMap) (k : Nat) : Nat := (mapLookup nsmap k).getD 0

/-- Indexing `strings[i]`: a run-time fault when `i` is out of range. -/
def index (strings : List GoString) (i : Nat) : Result GoString :=
  match strings.get? i with
  | some x => .ok x
  | none => .panic

/-! ## The two patterns of readTag (lines 238-239)

`regexp.MustCompile` and `MatchString` belong to the Go standard library. The
two patterns are modelled by the sets of strings they match.

* `(?i)^[a-z]+$`: without the `m` flag `^` and `$` match only at the two ends
  of the text, so the whole string has to be a non-empty run of class members.
  Under `(?i)` the parser closes the class `[a-z]` under Unicode simple case
  folding (`unicode.SimpleFold`): besides `A-Z` and `a-z` the folded class
  holds U+017F (long s, which folds to `s`) and U+212A (Kelvin sign, which
  folds to `k`).
* `^http://`: the string begins with the seven characters `http://`.
-/

/-- Member of the class `[a-z]` under `(?i)`. -/
def foldAZ (c : Rune) : Bool :=
  (0x41 ≤ c && c ≤ 0x5A) || (0x61 ≤ c && c ≤ 0x7A) || c == 0x17F || c == 0x212A

/-- Call `ns_pattern.MatchString(ns)` for the pattern `(?i)^[a-z]+$`. -/
def nsPatternMatch (ns : GoString) : Bool := !ns.isEmpty && ns.all foldAZ

/-- Call `url_pattern.MatchString(url)` for the pattern `^http://`. -/
def urlPatternMatch (url : GoString) : Bool := (str "http://").isPrefixOf url

/-- Lines 252-259: whether the pair `(name, flags)` is taken as a namespace
declaration. -/
def isNsDecl (strings : List GoString) (name flags : Nat) : Bool :=
  if name < strings.length ∧ flags < strings.length then
    nsPatternMatch (strings.getD name []) && urlPatternMatch (strings.getD flags [])
  else false

/-! ## readTag (lines 234-332) -/

/-- Lines 293-295: the value index after `value = uint32(slen) - 1` for the
word `0xffffffff`. -/
def remapValue (slen value : Nat) : Nat :=
  if value = 0xffffffff then (slen % 4294967296 + 4294967296 - 1) % 4294967296 else value

/-- Lines 279-311: the attribute loop, `attrs` iterations appending to `xmlns`. -/
def readAttrs (strings : List GoString) (nsmap : NsMap) :
    Nat → List Attr → Stream → Result (List Attr × Stream)
  | 0, xmlns, s => .ok (xmlns, s)
  | attrs + 1, xmlns, s =>
    match readU32 s with
    | .ok (ns, s1) =>
      match readU32 s1 with
      | .ok (attr, s2) =>
        match readU32 s2 with
        | .ok (value, s3) =>
          match readU32 s3 with
          | .ok (_, s4) =>
            match index strings attr with
            | .ok nameStr =>
              match index strings (remapValue strings.length value) with
              | .ok valueStr =>
                match (if ns ≠ 0xffffffff then
                         (index strings (nsLookup nsmap ns)).map some
                       else .ok none) with
                | .ok nsStr =>
                  match readU32 s4 with
                  | .ok (_, s5) =>
                    readAttrs strings nsmap attrs
                      (xmlns ++ [{ ns := nsStr, name := nameStr, value := valueStr }]) s5
                  | .error e => .error e
                  | .panic => .panic
                  | .outOfFuel => .outOfFuel
                | .error e => .error e
                | .panic => .panic
                | .outOfFuel => .outOfFuel
              | .error e => .error e
              | .panic => .panic
              | .outOfFuel => .outOfFuel
            | .error e => .error e
            | .panic => .panic
            | .outOfFuel => .outOfFuel
          | .error e => .error e
          | .panic => .panic
          | .outOfFuel => .outOfFuel
        | .error e => .error e
        | .panic => .panic
        | .outOfFuel => .outOfFuel
      | .error e => .error e
      | .panic => .panic
      | .outOfFuel => .outOfFuel
    | .error e => .error e
    | .panic => .panic
    | .outOfFuel => .outOfFuel

/-- Lines 269-325 without the closing `readPastSentinel`: the words of the
record that follow its header, for a header that is no namespace declaration. -/
def readFixed (strings : List GoString) (nsmap : NsMap) (xmlns : List Attr)
    (flags : Nat) (s : Stream) : Result (List Attr × Stream) :=
  if hasFlag flags TAG_SUPPORTS_CHILDREN && hasFlag flags TAG_OPEN then
    match readU32 s with
    | .ok (attrs, s1) =>
      match readU32 s1 with
      | .ok (_, s2) => readAttrs strings nsmap attrs xmlns s2
      | .error e => .error e
      | .panic => .panic
      | .outOfFuel => .outOfFuel
    | .error e => .error e
    | .panic => .panic
    | .outOfFuel => .outOfFuel
  else
    match readU32 s with
    | .ok (_, s1) =>
      match readU32 s1 with
      | .ok (_, s2) => .ok (xmlns, s2)
      | .error e => .error e
      | .panic => .panic
      | .outOfFuel => .outOfFuel
    | .error e => .error e
    | .panic => .panic
    | .outOfFuel => .outOfFuel

/-- Lines 313, 324 and 327-331: the closing `readPastSentinel(br, 0)`, whose
error is not looked at, and the assignment of the fields of the tag. -/
def finishTag (strings : List GoString) (name flags : Nat) (xmlns : List Attr)
    (s : Stream) : Result (Tag × Stream) :=
  let s1 := (readPastSentinel s 0).2
  match index strings name with
  | .ok nameStr => .ok (Tag.mk nameStr flags xmlns [], s1)
  | .error e => .error e
  | .panic => .panic
  | .outOfFuel => .outOfFuel

/-- Lines 269-331: the record after a header `(name, flags)` that is no
namespace declaration. -/
def readRecord (strings : List GoString) (nsmap : NsMap) (xmlns : List Attr)
    (name flags : Nat) (s : Stream) : Result (Tag × NsMap × Stream) :=
  match readFixed strings nsmap xmlns flags s with
  | .ok (attrs, s1) =>
    match finishTag strings name flags attrs s1 with
    | .ok (tag, s2) => .ok (tag, nsmap, s2)
    | .error e => .error e
    | .panic => .panic
    | .outOfFuel => .outOfFuel
  | .error e => .error e
  | .panic => .panic
  | .outOfFuel => .outOfFuel

/-- The attribute appended for a namespace declaration (lines 261-264). -/
def xmlnsAttr (strings : List GoString) (name flags : Nat) : Attr :=
  { ns := none
    name := str "xmlns:" ++ strings.getD name []
    value := strings.getD flags [] }

/-- Body of `readTag` from the label `READ_AGAIN`, with one unit of fuel per
pass through the label. Returns the tag, the namespace map and the stream. -/
def readTagLoop (strings : List GoString) :
    Nat → NsMap → List Attr → Stream → Result (Tag × NsMap × Stream)
  | 0, _, _, _ => .outOfFuel
  | fuel + 1, nsmap, xmlns, s =>
    match readU32 s with
    | .ok (name, s1) =>
      match readU32 s1 with
      | .ok (flags, s2) =>
        if isNsDecl strings name flags then
          readTagLoop strings fuel (mapInsert nsmap flags name)
            (xmlns ++ [xmlnsAttr strings name flags]) (readPastSentinel s2 0).2
        else readRecord strings nsmap xmlns name flags s2
      | .error e => .error e
      | .panic => .panic
      | .outOfFuel => .outOfFuel
    | .error e => .error e
    | .panic => .panic
    | .outOfFuel => .outOfFuel

/-- Function `readTag(br, strings, nsmap, tag)` on a fresh `tag`: every pass
through `READ_AGAIN` consumes at least eight bytes, so the length of the
stream is fuel enough. -/
def readTag (strings : List GoString) (nsmap : NsMap) (s : Stream) :
    Result (Tag × NsMap × Stream) :=
  readTagLoop strings (s.length + 1) nsmap [] s

/-! ## readChildren (lines 212-232) -/

/-- Function `readChildren(br, strings, nsmap, stoptag)`, one unit of fuel per
record read. Returns the children, the namespace map and the stream. -/
def readChildren (strings : List GoString) :
    Nat → NsMap → GoString → Stream → Result (List Tag × NsMap × Stream)
  | 0, _, _, _ => .outOfFuel
  | fuel + 1, nsmap, stoptag, s =>
    match readTag strings nsmap s with
    | .ok (tag, nsmap1, s1) =>
      if hasFlag tag.flags TAG_SUPPORTS_CHILDREN then
        if hasFlag tag.flags TAG_OPEN then
          match readChildren strings fuel nsmap1 tag.name s1 with
          | .ok (kids, nsmap2, s2) =>
            match readChildren strings fuel nsmap2 stoptag s2 with
            | .ok (rest, nsmap3, s3) => .ok (tag.setChildren kids :: rest, nsmap3, s3)
            | .error e => .error e
            | .panic => .panic
            | .outOfFuel => .outOfFuel
          | .error e => .error e
          | .panic => .panic
          | .outOfFuel => .outOfFuel
        else if tag.name = stoptag then .ok ([], nsmap1, s1)
        else
          match readChildren strings fuel nsmap1 stoptag s1 with
          | .ok (rest, nsmap3, s3) => .ok (tag :: rest, nsmap3, s3)
          | .error e => .error e
          | .panic => .panic
          | .outOfFuel => .outOfFuel
      else
        match readChildren strings fuel nsmap1 stoptag s1 with
        | .ok (rest, nsmap3, s3) => .ok (tag :: rest, nsmap3, s3)
        | .error e => .error e
        | .panic => .panic
        | .outOfFuel => .outOfFuel
    | .error e => .error e
    | .panic => .panic
    | .outOfFuel => .outOfFuel

/-! ## printTree (lines 163-198) -/

/-- Run of `depth` tab characters. -/
def tabs (depth : Nat) : GoString := List.replicate depth 9

/-- Text written for one attribute (lines 178-182). -/
def printAttr (a : Attr) : GoString :=
  str " " ++
  (match a.ns with
   | some ns => ns ++ str ":"
   | none => []) ++
  a.name ++ str "=\"" ++ a.value ++ str "\""

/-- Text written by the loop over `node.attrs` (lines 177-183). -/
def printAttrs : List Attr → GoString
  | [] => []
  | a :: rest => printAttr a ++ printAttrs rest

mutual
/-- Method `(node *Tag) printTree(depth)`. -/
def printTree : Tag → Nat → GoString
  | .mk name flags attrs children, depth =>
    if hasFlag flags TAG_TEXT then tabs depth ++ name
    else
      tabs depth ++ str "<" ++ (if hasFlag flags TAG_OPEN then [] else str "/") ++ name ++
      printAttrs attrs ++
      (if children.length = 0 then str " /" else []) ++ str ">\n" ++
      (if children.length > 0 then
         printChildren children (depth + 1) ++ tabs depth ++ str "</" ++ name ++ str ">\n"
       else [])
/-- The loop over `node.children` (lines 189-191). -/
def printChildren : List Tag → Nat → GoString
  | [], _ => []
  | c :: cs, depth => printTree c depth ++ printChildren cs depth
end

/-! ## readMeat (lines 200-210) and DecompressXML (lines 28-161) -/

/-- Lines 201-208 of `readMeat`: the root tag with its children attached. -/
def readRoot (strings : List GoString) (s : Stream) : Result Tag :=
  match readTag strings [] s with
  | .ok (root, nsmap, s1) =>
    match readChildren strings (s1.length + 1) nsmap root.name s1 with
    | .ok (children, _, _) => .ok (root.setChildren children)
    | .error e => .error e
    | .panic => .panic
    | .outOfFuel => .outOfFuel
  | .error e => .error e
  | .panic => .panic
  | .outOfFuel => .outOfFuel

/-- Function `readMeat(br, strings)`. -/
def readMeat (strings : List GoString) (s : Stream) : Result GoString :=
  match readRoot strings s with
  | .ok root => .ok (printTree root 0)
  | .error e => .error e
  | .panic => .panic
  | .outOfFuel => .outOfFuel

/-- Lines 136-146 of `DecompressXML`: `pos % 4` bytes are dropped, then
`readPastSentinel(br, 0)` runs and its error is returned. -/
def skipToMeat (pos : Nat) (s : Stream) : Result Stream :=
  match skipBytes (pos % 4) s with
  | .ok s1 =>
    match readPastSentinel s1 0 with
    | (some e, _) => .error e
    | (none, s2) => .ok s2
  | .error e => .error e
  | .panic => .panic
  | .outOfFuel => .outOfFuel

/-- Function `DecompressXML(r)`. -/
def DecompressXML (r : Stream) : Result GoString :=
  match readStringPool r with
  | .ok (strings, pos, s1) =>
    match skipToMeat pos s1 with
    | .ok s2 => readMeat strings s2
    | .error e => .error e
    | .panic => .panic
    | .outOfFuel => .outOfFuel
  | .error e => .error e
  | .panic => .panic
  | .outOfFuel => .outOfFuel

/-! ## Encoders used to write inputs down -/

/-- Four bytes of a `uint32`, little-endian. -/
def le32 (n : Nat) : List Byte :=
  [Fin.ofNat n, Fin.ofNat (n / 256), Fin.ofNat (n / 65536), Fin.ofNat (n / 16777216)]

/-- Two bytes of a `uint16`, little-endian. -/
def le16 (n : Nat) : List Byte := [Fin.ofNat n, Fin.ofNat (n / 256)]

/-- UTF-16LE bytes of a string of code points below `0x10000`. -/
def utf16le (t : GoString) : List Byte := (t.map le16).flatten

/-- One entry of the string data: unit count, units, terminator. -/
def poolEntry (t : GoString) : List Byte := le16 t.length ++ utf16le t ++ le16 0

/-- The nine words of the preamble for a pool of `strnum` strings. -/
def preamble (strnum : Nat) : List Byte :=
  le32 0x00080003 ++ le32 0 ++ le32 0x001c0001 ++ le32 0 ++ le32 strnum ++
  le32 0 ++ le32 1 ++ le32 0 ++ le32 0

/-! ## Specification-side definitions -/

/-- The string data is fully present for `n` entries: the loop of lines 88-106
with the offset test left out, returning the unit counts `l` that were read
and the stream left. -/
def readEntries : Nat → Stream → Option (List Nat × Stream)
  | 0, s => some ([], s)
  | n + 1, s =>
    match readU16 s with
    | .ok (l, s1) =>
      match readFull (bufLen l) s1 with
      | .ok (_, s2) =>
        match readU16 s2 with
        | .ok (_, s3) =>
          match readEntries n s3 with
          | some (ls, rest) => some (l :: ls, rest)
          | none => none
        | _ => none
      | _ => none
    | _ => none

/-- The run `cur, cur + s0, cur + s0 + s1, ...` with `s_k = 2 * l_k + 4`. -/
def offsetRun : List Nat → Nat → List Nat
  | [], _ => []
  | l :: ls, cur => cur :: offsetRun ls (cur + (2 * l + 4))

/-- Letter a-z in either case. -/
def isLetterAZ (c : Rune) : Bool := (0x41 ≤ c && c ≤ 0x5A) || (0x61 ≤ c && c ≤ 0x7A)

/-- The test for a namespace declaration in the words of the specification:
both indices are valid, `pool[a]` is a non-empty purely alphabetic token
(letters a-z in either case) and `pool[b]` begins with `http://`. -/
def claimNsDecl (strings : List GoString) (a b : Nat) : Bool :=
  decide (a < strings.length) && decide (b < strings.length) &&
  (!(strings.getD a []).isEmpty && (strings.getD a []).all isLetterAZ) &&
  (str "http://").isPrefixOf (strings.getD b [])

/-! ## Concrete inputs -/

/-- A record without attributes: name, flags, two further words, one sentinel. -/
def record (name flags : Nat) : List Byte :=
  le32 name ++ le32 flags ++ le32 0 ++ le32 0 ++ le32 0xFFFFFFFF

/-- Pool of two strings whose offset table is `[8, 0]`: `"ab"` is stored at
offset 0 and `"c"` at offset 8; the document is one childless element whose
name index is 0. -/
def c1Input : Stream :=
  preamble 2 ++ le32 8 ++ le32 0 ++ poolEntry (str "ab") ++ poolEntry (str "c") ++
  [0, 0] ++ le32 0xFFFFFFFF ++ record 0 0x100010 ++ record 0 0x100000

/-- Pool of two strings with the offset table `[0, 9]`: the second offset is
one byte off, the string data is that of `c1Input`. -/
def c2Input : Stream :=
  preamble 2 ++ le32 0 ++ le32 9 ++ poolEntry (str "ab") ++ poolEntry (str "c") ++
  [0, 0] ++ le32 0xFFFFFFFF ++ record 0 0x100010 ++ record 0 0x100000

/-- Pool whose first entry declares `l = 32768` units and is followed at once
by its terminator; the second entry, `"a"`, has the offset `2 * 32768 + 4`. -/
def c3Input : Stream :=
  preamble 2 ++ le32 0 ++ le32 65540 ++ (le16 32768 ++ le16 0) ++ poolEntry (str "a")

/-- The records of one nesting level, in the words of the specification:
`LevelRecords strings stoptag nsmap s children nsmap1 s1` holds when reading
tag records from `s` meets, as the first close record (SUPPORTS_CHILDREN set,
OPEN clear) named `stoptag`, a record after which the stream is `s1`, and
`children` are the records read before it, in order: a container-open record
(SUPPORTS_CHILDREN and OPEN set) carries as children the records of the level
that it opens under its own name, every other record is taken as read. -/
inductive LevelRecords (strings : List GoString) :
    GoString → NsMap → Stream → List Tag → NsMap → Stream → Prop where
  /-- The close record that ends the level; it is not part of the list. -/
  | close {stoptag : GoString} {nsmap : NsMap} {s : Stream} {tag : Tag} {nsmap1 : NsMap}
      {s1 : Stream} :
      readTag strings nsmap s = .ok (tag, nsmap1, s1) →
      hasFlag tag.flags TAG_SUPPORTS_CHILDREN = true →
      hasFlag tag.flags TAG_OPEN = false →
      tag.name = stoptag →
      LevelRecords strings stoptag nsmap s [] nsmap1 s1
  /-- A container-open record, followed by its own level and then by the
  rest of this level. -/
  | container {stoptag : GoString} {nsmap : NsMap} {s : Stream} {tag : Tag}
      {nsmap1 : NsMap} {s1 : Stream} {kids : List Tag} {nsmap2 : NsMap} {s2 : Stream}
      {rest : List Tag} {nsmap3 : NsMap} {s3 : Stream} :
      readTag strings nsmap s = .ok (tag, nsmap1, s1) →
      hasFlag tag.flags TAG_SUPPORTS_CHILDREN = true →
      hasFlag tag.flags TAG_OPEN = true →
      LevelRecords strings tag.name nsmap1 s1 kids nsmap2 s2 →
      LevelRecords strings stoptag nsmap2 s2 rest nsmap3 s3 →
      LevelRecords strings stoptag nsmap s (tag.setChildren kids :: rest) nsmap3 s3
  /-- A record without SUPPORTS_CHILDREN, or a close record with another name. -/
  | leaf {stoptag : GoString} {nsmap : NsMap} {s : Stream} {tag : Tag}
      {nsmap1 : NsMap} {s1 : Stream} {rest : List Tag} {nsmap3 : NsMap} {s3 : Stream} :
      readTag strings nsmap s = .ok (tag, nsmap1, s1) →
      (hasFlag tag.flags TAG_SUPPORTS_CHILDREN = false ∨
        (hasFlag tag.flags TAG_OPEN = false ∧ tag.name ≠ stoptag)) →
      LevelRecords strings stoptag nsmap1 s1 rest nsmap3 s3 →
      LevelRecords strings stoptag nsmap s (tag :: rest) nsmap3 s3

/-- Pool and stream for a level that holds a text leaf, an element with one
leaf inside, and a close record with a foreign name, before its own close
record named `"a"`. -/
def c5Pool : List GoString := [str "a", str "b", str "t"]

def c5Stream : Stream :=
  record 2 0x08 ++ record 1 0x100010 ++ record 2 0x08 ++ record 1 0x100000 ++
  record 1 0x100000 ++ record 0 0x100000

def c5Children : List Tag :=
  [Tag.mk (str "t") 0x08 [] [],
   Tag.mk (str "b") 0x100010 [] [Tag.mk (str "t") 0x08 [] []],
   Tag.mk (str "b") 0x100000 [] []]

/-- Function `unicode.IsSpace`: the Latin-1 spaces and the code points with
the White_Space property. -/
def isSpace (r : Rune) : Bool :=
  r == 0x09 || r == 0x0A || r == 0x0B || r == 0x0C || r == 0x0D || r == 0x20 ||
  r == 0x85 || r == 0xA0 || r == 0x1680 || (0x2000 ≤ r && r ≤ 0x200A) ||
  r == 0x2028 || r == 0x2029 || r == 0x202F || r == 0x205F || r == 0x3000

/-- Function `strings.TrimSpace`. -/
def TrimSpace (s : GoString) : GoString :=
  ((s.dropWhile isSpace).reverse.dropWhile isSpace).reverse

/-- Function `strings.ToLower`: a string of ASCII characters only has its
letters `A-Z` lowered; any other string is mapped rune by rune through
`unicode.ToLower`, which is the parameter `lower`. -/
def ToLower (lower : Rune → Rune) (s : GoString) : GoString :=
  if s.all (fun c => decide (c < 0x80)) then
    s.map (fun c => if 0x41 ≤ c ∧ c ≤ 0x5A then c + 0x20 else c)
  else s.map lower

/-- The check of the end-to-end scenario in the words of the specification:
after trimming whitespace and lowering the case, the text begins with
`<manifest` and ends with `</manifest>`. -/
def manifestCheck (lower : Rune → Rune) (xml : GoString) : Bool :=
  (str "<manifest").isPrefixOf (ToLower lower (TrimSpace xml)) &&
  (str "</manifest>").isSuffixOf (ToLower lower (TrimSpace xml))

/-- Minimal document: the pool is `["manifest"]`, the root record has OPEN and
SUPPORTS_CHILDREN set and no attributes, and its close record follows. -/
def c6Input : Stream :=
  preamble 1 ++ le32 0 ++ poolEntry (str "manifest") ++ le32 0xFFFFFFFF ++
  record 0 0x100010 ++ record 0 0x100000

/-- The document of `c6Input` with the TEXT bit set as well in the flags of
the root record. -/
def c6TextInput : Stream :=
  preamble 1 ++ le32 0 ++ poolEntry (str "manifest") ++ le32 0xFFFFFFFF ++
  record 0 0x100018 ++ record 0 0x100000

/-- Lines 28-156 and 201-208: the tree that `DecompressXML` hands to
`printTree`. -/
def decodeTree (r : Stream) : Result Tag :=
  match readStringPool r with
  | .ok (strings, pos, s1) =>
    match skipToMeat pos s1 with
    | .ok s2 => readRoot strings s2
    | .error e => .error e
    | .panic => .panic
    | .outOfFuel => .outOfFuel
  | .error e => .error e
  | .panic => .panic
  | .outOfFuel => .outOfFuel

/-- One tag as `printTree` writes it: `<`, a `/` when `closing`, the name, the
attributes, a blank and `/` when `selfClosing`, `>` and a newline. -/
structure Markup where
  closing : Bool
  name : GoString
  attrs : List Attr
  selfClosing : Bool
  deriving DecidableEq, Repr

/-- Text of a tag. -/
def Markup.render (m : Markup) : GoString :=
  str "<" ++ (if m.closing then str "/" else []) ++ m.name ++ printAttrs m.attrs ++
  (if m.selfClosing then str " /" else []) ++ str ">\n"

/-- A piece of the output of `printTree`: indentation, the name of a text
node, or a tag. -/
inductive Piece where
  | indent (depth : Nat) : Piece
  | text (s : GoString) : Piece
  | markup (m : Markup) : Piece
  deriving DecidableEq, Repr

/-- Text of a piece. -/
def Piece.render : Piece → GoString
  | .indent depth => tabs depth
  | .text s => s
  | .markup m => m.render

mutual
/-- The pieces that `printTree` writes for a node, in order (lines 165-196). -/
def emit : Tag → Nat → List Piece
  | .mk name flags attrs children, depth =>
    if hasFlag flags TAG_TEXT then [.indent depth, .text name]
    else
      [.indent depth,
       .markup { closing := !hasFlag flags TAG_OPEN, name := name, attrs := attrs,
                 selfClosing := decide (children.length = 0) }] ++
      (if children.length > 0 then
         emitChildren children (depth + 1) ++
         [.indent depth,
          .markup { closing := true, name := name, attrs := [], selfClosing := false }]
       else [])
/-- The pieces written by the loop over the children. -/
def emitChildren : List Tag → Nat → List Piece
  | [], _ => []
  | c :: cs, depth => emit c depth ++ emitChildren cs depth
end

/-- Text of a list of pieces. -/
def renderPieces (ps : List Piece) : GoString := (ps.map Piece.render).flatten

/-- The tags among the pieces, in order. -/
def markups : List Piece → List Markup
  | [] => []
  | .markup m :: ps => m :: markups ps
  | _ :: ps => markups ps

/-- Stack-based reading of a sequence of tags, from the stack of the names of
the tags that are open: a tag that starts with `</` has to carry the name on
top of the stack and closes it, a tag `<name ... />` leaves the stack as it
is, a tag `<name ...>` is pushed. The result is the stack at the end, or
`none` when a closing tag does not close the tag opened last. -/
def nestRun : List GoString → List Markup → Option (List GoString)
  | stack, [] => some stack
  | stack, m :: ms =>
    if m.closing then
      match stack with
      | top :: rest => if top = m.name then nestRun rest ms else none
      | [] => none
    else if m.selfClosing then nestRun stack ms
    else nestRun (m.name :: stack) ms

/-- Number of opening tags, a self-closing tag counting as one. -/
def openCount (ms : List Markup) : Nat := (ms.filter (fun m => !m.closing)).length

/-- Number of closing tags, a self-closing tag counting as one. -/
def closeCount (ms : List Markup) : Nat :=
  (ms.filter (fun m => m.closing || m.selfClosing)).length

mutual
/-- Every node that `printTree` writes as a tag has OPEN set. -/
def allOpen : Tag → Bool
  | .mk _ flags _ children =>
    hasFlag flags TAG_TEXT || (hasFlag flags TAG_OPEN && allOpenList children)
/-- The nodes of a list satisfy `allOpen`. -/
def allOpenList : List Tag → Bool
  | [] => true
  | c :: cs => allOpen c && allOpenList cs
end

/-- Pool `["a", "b"]`; the root `a` is followed by a close record named `b`
and then by its own close record. -/
def c7Input : Stream :=
  preamble 2 ++ le32 0 ++ le32 6 ++ poolEntry (str "a") ++ poolEntry (str "b") ++
  le32 0xFFFFFFFF ++ record 0 0x100010 ++ record 1 0x100000 ++ record 0 0x100000

/-- Pool `["a", "b"]`; the root `a` holds the element `b`, which holds a
childless element `a`. -/
def c7Nested : Stream :=
  preamble 2 ++ le32 0 ++ le32 6 ++ poolEntry (str "a") ++ poolEntry (str "b") ++
  le32 0xFFFFFFFF ++ record 0 0x100010 ++ record 1 0x100010 ++ record 0 0x100010 ++
  record 0 0x100000 ++ record 1 0x100000 ++ record 0 0x100000

/-- The stream left when the fixed words of the record read by `readTag` are
complete, right before the closing `readPastSentinel` of lines 313 and 324:
the run of `readTagLoop` cut at that point. -/
def readTagFixed (strings : List GoString) :
    Nat → NsMap → List Attr → Stream → Result Stream
  | 0, _, _, _ => .outOfFuel
  | fuel + 1, nsmap, xmlns, s =>
    match readU32 s with
    | .ok (name, s1) =>
      match readU32 s1 with
      | .ok (flags, s2) =>
        if isNsDecl strings name flags then
          readTagFixed strings fuel (mapInsert nsmap flags name)
            (xmlns ++ [xmlnsAttr strings name flags]) (readPastSentinel s2 0).2
        else
          match readFixed strings nsmap xmlns flags s2 with
          | .ok (_, s3) => .ok s3
          | .error e => .error e
          | .panic => .panic
          | .outOfFuel => .outOfFuel
      | .error e => .error e
      | .panic => .panic
      | .outOfFuel => .outOfFuel
    | .error e => .error e
    | .panic => .panic
    | .outOfFuel => .outOfFuel

/-- End-of-stream errors of the reads: `io.EOF` and `io.ErrUnexpectedEOF`. -/
def isEOF (e : GoError) : Prop := e = .EOF ∨ e = .ErrUnexpectedEOF

/-- Pool `["a"]`, a childless root `a`, and a close record that ends after its
fixed words: the sentinel is missing. -/
def c8Input : Stream :=
  preamble 1 ++ le32 0 ++ poolEntry (str "a") ++ [0, 0] ++ le32 0xFFFFFFFF ++
  record 0 0x100010 ++ (le32 0 ++ le32 0x100000 ++ le32 0 ++ le32 0)

/-- Pool `["a"]` and a childless root record whose name index is 5. -/
def c9Input : Stream :=
  preamble 1 ++ le32 0 ++ poolEntry (str "a") ++ [0, 0] ++ le32 0xFFFFFFFF ++
  record 5 0x100010 ++ record 0 0x100000

/-- A container-open record named by index 0 with one attribute, given by its
namespace, name and value words. -/
def attrRecord (ns attr value : Nat) : List Byte :=
  le32 0 ++ le32 0x100010 ++ le32 1 ++ le32 0 ++
  le32 ns ++ le32 attr ++ le32 value ++ le32 0 ++ le32 0 ++ le32 0xFFFFFFFF

/-- The value index that an attribute value word stands for: the last index of
the pool for the word `0xFFFFFFFF`, the word itself otherwise. -/
def valueIndex (strings : List GoString) (w : Nat) : Nat :=
  if w = 0xFFFFFFFF then strings.length - 1 else w

/-- The four bytes of the word `0xFFFFFFFF`. -/
def sentinelWord : List Byte := [255, 255, 255, 255]

/-- A run of `m` words `0xFFFFFFFF`. -/
def sentinelRun : Nat → List Byte
  | 0 => []
  | m + 1 => sentinelWord ++ sentinelRun m

/-- The stream is a sequence of whole 32-bit words none of which is
`0xFFFFFFFF`. -/
def noSentinel : Stream → Bool
  | [] => true
  | b0 :: b1 :: b2 :: b3 :: rest => decide (u32 b0 b1 b2 b3 ≠ SENTINEL) && noSentinel rest
  | _ => false

/-- The stream holds at least four bytes and its first four bytes are not
`FF FF FF FF`. -/
def startsWithOther : Stream → Bool
  | b0 :: b1 :: b2 :: b3 :: _ =>
    !decide (b0.val = 0xFF ∧ b1.val = 0xFF ∧ b2.val = 0xFF ∧ b3.val = 0xFF)
  | _ => false

/-- Pool `["a"]` followed by the filler bytes and one sentinel word, where the
input ends. -/
def c20Input : Stream :=
  preamble 1 ++ le32 0 ++ poolEntry (str "a") ++ [0, 0] ++ le32 0xFFFFFFFF

/-- The namespace declarations recognised from the label `READ_AGAIN` on, as
pairs `(name, flags)` of prefix index and URI index in the order in which they
are read, and the stream at the header of the record itself. -/
def readDecls (strings : List GoString) : Nat → Stream → List (Nat × Nat) × Stream
  | 0, s => ([], s)
  | fuel + 1, s =>
    match readU32 s with
    | .ok (name, s1) =>
      match readU32 s1 with
      | .ok (flags, s2) =>
        if isNsDecl strings name flags then
          ((name, flags) :: (readDecls strings fuel (readPastSentinel s2 0).2).1,
           (readDecls strings fuel (readPastSentinel s2 0).2).2)
        else ([], s)
      | _ => ([], s)
    | _ => ([], s)

/-- The namespace map after the declarations `ds`, given as pairs of prefix
index and URI index, are registered in order. -/
def register (nsmap : NsMap) : List (Nat × Nat) → NsMap
  | [] => nsmap
  | d :: ds => register (mapInsert nsmap d.2 d.1) ds

/-- The prefix index of the most recent declaration for the URI index `u`
among `ds`, if there is one. -/
def lastDecl : List (Nat × Nat) → Nat → Option Nat
  | [], _ => none
  | d :: ds, u =>
    match lastDecl ds u with
    | some p => some p
    | none => if d.2 = u then some d.1 else none

/-- The attribute decoded from the namespace, name and value words of an
attribute record (lines 293-303). -/
def decodeAttr (strings : List GoString) (nsmap : NsMap) (wns wname wvalue : Nat) : Attr :=
  { ns := if wns = 0xFFFFFFFF then none else some (strings.getD (nsLookup nsmap wns) [])
    name := strings.getD wname []
    value := strings.getD (remapValue strings.length wvalue) [] }

/-- Pool for the examples with namespaces: a prefix, its URI, an element name,
an attribute name and a value. -/
def nsPool : List GoString :=
  [str "android", str "http://schemas.android.com/apk/res/android", str "manifest",
   str "versionCode", str "1"]

/-- A record that starts with the declaration `(0, 1)` and its sentinel, and
goes on as a container-open record named by index 2 with two attributes: one
in the namespace 1, one without namespace. -/
def c11Stream : Stream :=
  le32 0 ++ le32 1 ++ le32 0xFFFFFFFF ++
  le32 2 ++ le32 0x100010 ++ le32 2 ++ le32 0 ++
  (le32 1 ++ le32 3 ++ le32 4 ++ le32 0 ++ le32 0) ++
  (le32 0xFFFFFFFF ++ le32 3 ++ le32 0xFFFFFFFF ++ le32 0 ++ le32 0) ++
  le32 0xFFFFFFFF

/-- Pool `nsPool` with the element name `"b"` added at index 5. -/
def c12Pool : List GoString := nsPool ++ [str "b"]

/-- A document in which the declaration `(0, 1)` stands in front of the child
`b` of the root, and a later sibling of `b`, outside of it, carries an
attribute in the namespace 1. -/
def c12Stream : Stream :=
  record 2 0x100010 ++
  (le32 0 ++ le32 1 ++ le32 0xFFFFFFFF ++ record 5 0x100010) ++ record 5 0x100000 ++
  (le32 5 ++ le32 0x100010 ++ le32 1 ++ le32 0 ++
    (le32 1 ++ le32 3 ++ le32 4 ++ le32 0 ++ le32 0) ++ le32 0xFFFFFFFF) ++
  record 5 0x100000 ++ record 2 0x100000

/-- Reference rendering of one attribute, in the words of the specification:
a space, `prefix:` when the attribute has a namespace, then `name="value"`
with the value copied as it is. -/
def refAttr (a : Attr) : GoString :=
  match a.ns with
  | some p => str " " ++ p ++ str ":" ++ a.name ++ str "=\"" ++ a.value ++ str "\""
  | none => str " " ++ a.name ++ str "=\"" ++ a.value ++ str "\""

/-- Reference rendering of the attributes of a node, in order. -/
def refAttrs (attrs : List Attr) : GoString := (attrs.map refAttr).flatten

mutual
/-- Reference rendering of a node at depth `d`, in the words of the
specification: a node with the TEXT flag is `d` tabs and its name; an element
node (OPEN set, TEXT clear) without children is `d` tabs, `<`, name,
attributes, ` />` and a newline; an element node with children is `d` tabs,
`<name attributes>`, a newline, the children at depth `d + 1`, `d` tabs,
`</name>` and a newline. A node with neither TEXT nor OPEN has no reference
rendering. -/
def refRender : Tag → Nat → Option GoString
  | .mk name flags attrs children, d =>
    if hasFlag flags TAG_TEXT then some (tabs d ++ name)
    else if hasFlag flags TAG_OPEN then
      if children.isEmpty then
        some (tabs d ++ str "<" ++ name ++ refAttrs attrs ++ str " />" ++ str "\n")
      else
        match refRenderList children (d + 1) with
        | some body =>
          some (tabs d ++ str "<" ++ name ++ refAttrs attrs ++ str ">" ++ str "\n" ++ body ++
                tabs d ++ str "</" ++ name ++ str ">" ++ str "\n")
        | none => none
    else none
/-- Reference rendering of a list of nodes, one after the other. -/
def refRenderList : List Tag → Nat → Option GoString
  | [], _ => some []
  | c :: cs, d =>
    match refRender c d, refRenderList cs d with
    | some a, some b => some (a ++ b)
    | _, _ => none
end

/-- A tree with a text node, a childless element with a prefixed attribute
whose value holds markup characters, and an element with a child. -/
def c16Tree : Tag :=
  Tag.mk (str "manifest") 0x100010
    [{ ns := none, name := str "xmlns:android", value := str "http://x" }]
    [Tag.mk (str "hello") 0x08 [] [],
     Tag.mk (str "b") 0x100010
       [{ ns := some (str "android"), name := str "label", value := str "a<b&\"c\"" }] [],
     Tag.mk (str "c") 0x100010 [] [Tag.mk (str "d") 0x10 [] []]]

/-- UTF-16 code units of a Unicode scalar value: the value itself below
`0x10000`, a high and a low surrogate otherwise. -/
def encodeRune (c : Nat) : List Nat :=
  if c < 0x10000 then [c]
  else [0xD800 + (c - 0x10000) / 1024, 0xDC00 + (c - 0x10000) % 1024]

/-- UTF-16 code units of a string. -/
def encodeUTF16 (s : List Nat) : List Nat := (s.map encodeRune).flatten

/-- Little-endian bytes of a sequence of 16-bit units. -/
def unitsLE (us : List Nat) : List Byte := (us.map le16).flatten

/-- The run ends (the fuel was enough), and if it ends in a returned error,
that error is an end-of-stream error. -/
def Result.endsEOF {α : Type} : Result α → Prop
  | .ok _ => True
  | .error e => isEOF e
  | .panic => True
  | .outOfFuel => False

/-- A document whose root `a` is never closed: the only close record is named
`b`. -/
def c17Input : Stream :=
  preamble 2 ++ le32 0 ++ le32 6 ++ poolEntry (str "a") ++ poolEntry (str "b") ++
  le32 0xFFFFFFFF ++ record 0 0x100010 ++ record 1 0x100000

/-- A tag as it stands in a text: whether it starts with `</`, its name, and
whether it ends with `/>`. -/
structure TextTag where
  closing : Bool
  name : GoString
  selfClosing : Bool
  deriving DecidableEq, Repr

/-- Characters that end the name of a tag in a text: blank, tab, newline,
carriage return and `/`. -/
def isNameEnd (c : Rune) : Bool := c == 32 || c == 9 || c == 10 || c == 13 || c == 47

/-- The tag whose characters between `<` and `>` are `body`: it is a closing
tag when `body` starts with `/`, its name is what follows up to the first
character that ends a name, and it is self-closing when its last character
after the name part is `/`. -/
def tagOfBody (body : GoString) : TextTag :=
  let closing := body.head? == some 47
  let rest := if closing then body.tail else body
  { closing := closing,
    name := rest.takeWhile (fun c => !isNameEnd c),
    selfClosing := rest.getLast? == some 47 }

/-- Scan of a text for its tags, from left to right: outside a tag (`none`)
every character up to the next `<` is skipped; inside a tag (`some body`, the
characters read since `<`) the next `>` ends the tag. -/
def scanTags : Option GoString → GoString → List TextTag
  | _, [] => []
  | none, c :: cs => if c = 60 then scanTags (some []) cs else scanTags none cs
  | some body, c :: cs =>
    if c = 62 then tagOfBody body :: scanTags none cs
    else scanTags (some (body ++ [c])) cs

/-- The tags of a text, in order. -/
def textTags (xml : GoString) : List TextTag := scanTags none xml

/-- Stack-based reading of the tags of a text, from the stack of the names of
the tags that are open: a closing tag has to carry the name on top of the
stack and closes it, a self-closing tag leaves the stack as it is, an opening
tag is pushed. The result is the stack at the end, or `none` when a closing
tag does not close the tag opened last. -/
def nestTags : List GoString → List TextTag → Option (List GoString)
  | stack, [] => some stack
  | stack, t :: ts =>
    if t.closing then
      match stack with
      | top :: rest => if top = t.name then nestTags rest ts else none
      | [] => none
    else if t.selfClosing then nestTags stack ts
    else nestTags (t.name :: stack) ts

/-- Number of opening tags of a text, a self-closing tag counting as one. -/
def openTags (ts : List TextTag) : Nat := (ts.filter (fun t => !t.closing)).length

/-- Number of closing tags of a text, a self-closing tag counting as one. -/
def closeTags (ts : List TextTag) : Nat :=
  (ts.filter (fun t => t.closing || t.selfClosing)).length

/-- The tag that a text scan reads from the text of `m`. -/
def Markup.tag (m : Markup) : TextTag :=
  { closing := m.closing, name := m.name, selfClosing := m.selfClosing }

/-- The string holds neither `<` nor `>`. -/
def noAngle (s : GoString) : Bool := s.all (fun c => c != 60 && c != 62)

/-- The string holds neither `<` nor `>` nor a character that ends a name. -/
def cleanName (s : GoString) : Bool := s.all (fun c => c != 60 && c != 62 && !isNameEnd c)

/-- Prefix, name and value of the attribute hold neither `<` nor `>`. -/
def cleanAttr (a : Attr) : Bool :=
  (match a.ns with
   | some ns => noAngle ns
   | none => true) && noAngle a.name && noAngle a.value

mutual
/-- No string that `printTree` writes for the node holds `<` or `>`, and the
name of every node written as a tag holds no `/` and no white space. -/
def cleanTree : Tag → Bool
  | .mk name flags attrs children =>
    if hasFlag flags TAG_TEXT then noAngle name
    else cleanName name && attrs.all cleanAttr && cleanList children
/-- The nodes of a list satisfy `cleanTree`. -/
def cleanList : List Tag → Bool
  | [] => true
  | c :: cs => cleanTree c && cleanList cs
end

/-- The condition of `cleanTree` on one piece of the output. -/
def Piece.clean : Piece → Bool
  | .indent _ => true
  | .text s => noAngle s
  | .markup m => cleanName m.name && m.attrs.all cleanAttr

/-- Pool `["a", "<b>"]`; the root `a` holds one text node, whose name is the
string `<b>`. -/
def c7TextName : Stream :=
  preamble 2 ++ le32 0 ++ le32 6 ++ poolEntry (str "a") ++ poolEntry (str "<b>") ++
  le32 0xFFFFFFFF ++ record 0 0x100010 ++ record 1 0x08 ++ record 0 0x100000

/-- Pool `["a", "b", "v", "t"]`; the root `a` carries the attribute `b="v"`
and holds the text node `t` and a childless element `b`. -/
def c7Mixed : Stream :=
  preamble 4 ++ le32 0 ++ le32 6 ++ le32 12 ++ le32 18 ++
  poolEntry (str "a") ++ poolEntry (str "b") ++ poolEntry (str "v") ++ poolEntry (str "t") ++
  le32 0xFFFFFFFF ++ attrRecord 0xFFFFFFFF 1 2 ++
  record 3 0x08 ++ record 1 0x100010 ++ record 1 0x100000 ++ record 0 0x100000

/-! # Theorems -/

set_option maxRecDepth 100000

/-! ## The string pool -/

theorem readWords_length : ∀ (n : Nat) (s : Stream) (ws : List Nat) (rest : Stream),
    readWords n s = .ok (ws, rest) → ws.length = n := by
  intro n
  induction n with
  | zero =>
    intro s ws rest h
    simp only [readWords, Result.ok.injEq, Prod.mk.injEq] at h
    rw [← h.1]; rfl
  | succ n ih =>
    intro s ws rest h
    simp only [readWords] at h
    cases h1 : readU32 s with
    | ok p =>
      obtain ⟨v, s1⟩ := p
      rw [h1] at h
      simp only at h
      cases h2 : readWords n s1 with
      | ok q =>
        obtain ⟨vs, s2⟩ := q
        rw [h2] at h
        simp only [Result.ok.injEq, Prod.mk.injEq] at h
        rw [← h.1, List.length_cons, ih s1 vs s2 h2]
      | error e => rw [h2] at h; simp at h
      | panic => rw [h2] at h; simp at h
      | outOfFuel => rw [h2] at h; simp at h
    | error e => rw [h1] at h; simp at h
    | panic => rw [h1] at h; simp at h
    | outOfFuel => rw [h1] at h; simp at h

theorem mapInsert_fresh {β : Type} (m : List (Nat × β)) (k : Nat) (v : β)
    (h : ∀ p ∈ m, p.1 < k) : (mapInsert m k v).length = m.length + 1 := by
  have hf : m.filter (fun p => p.1 != k) = m := by
    apply List.filter_eq_self.mpr
    intro p hp
    have := h p hp
    simp only [bne_iff_ne, ne_eq]
    omega
  simp [mapInsert, hf]

theorem mapInsert_keys_lt {β : Type} (m : List (Nat × β)) (k : Nat) (v : β) (b : Nat)
    (h : ∀ p ∈ m, p.1 < k) (hk : k < b) : ∀ p ∈ mapInsert m k v, p.1 < b := by
  intro p hp
  simp only [mapInsert, List.mem_cons, List.mem_filter] at hp
  rcases hp with rfl | ⟨hp, _⟩
  · exact hk
  · exact Nat.lt_trans (h p hp) hk

/-- With the string data present, the loop of lines 88-106 succeeds exactly on
the run of entry sizes and otherwise fails on the offset test. -/
theorem readStrs_spec : ∀ (offs : List Nat) (cur : Nat) (strs : List (Nat × GoString))
    (s : Stream) (ls : List Nat) (rest : Stream),
    readEntries offs.length s = some (ls, rest) → (∀ p ∈ strs, p.1 < cur) →
    (offs = offsetRun ls cur →
      ∃ strs1 cur1, readStrs offs cur strs s = .ok (strs1, cur1, rest) ∧
        strs1.length = strs.length + offs.length) ∧
    (offs ≠ offsetRun ls cur →
      ∃ o ∈ offs, readStrs offs cur strs s = .error (.InvalidStringOffset o)) := by
  intro offs
  induction offs with
  | nil =>
    intro cur strs s ls rest h _
    simp only [List.length_nil, readEntries, Option.some.injEq, Prod.mk.injEq] at h
    obtain ⟨h1, h2⟩ := h
    subst h1; subst h2
    refine ⟨fun _ => ⟨strs, cur, rfl, rfl⟩, fun hne => ?_⟩
    exact absurd rfl hne
  | cons o offs ih =>
    intro cur strs s ls rest h hk
    simp only [List.length_cons, readEntries] at h
    cases h1 : readU16 s with
    | ok p1 =>
      obtain ⟨l, s1⟩ := p1
      rw [h1] at h
      simp only at h
      cases h2 : readFull (bufLen l) s1 with
      | ok p2 =>
        obtain ⟨buf, s2⟩ := p2
        rw [h2] at h
        simp only at h
        cases h3 : readU16 s2 with
        | ok p3 =>
          obtain ⟨t, s3⟩ := p3
          rw [h3] at h
          simp only at h
          cases h4 : readEntries offs.length s3 with
          | some p4 =>
            obtain ⟨ls1, rest1⟩ := p4
            rw [h4] at h
            simp only [Option.some.injEq, Prod.mk.injEq] at h
            obtain ⟨hl, hr⟩ := h
            subst hl; subst hr
            by_cases hoc : o = cur
            · subst hoc
              have hstep : readStrs (o :: offs) o strs s =
                  readStrs offs (o + ((l + 1) * 2 + 2))
                    (mapInsert strs o (utf16BytesToString buf)) s3 := by
                simp [readStrs, h1, h2, h3]
              have hsz : o + ((l + 1) * 2 + 2) = o + (2 * l + 4) := by omega
              have hk1 : ∀ p ∈ mapInsert strs o (utf16BytesToString buf),
                  p.1 < o + (2 * l + 4) :=
                mapInsert_keys_lt strs o _ _ hk (by omega)
              have ih1 := ih (o + (2 * l + 4)) (mapInsert strs o (utf16BytesToString buf))
                s3 ls1 rest1 h4 hk1
              rw [hstep, hsz]
              constructor
              · intro heq
                simp only [offsetRun, List.cons.injEq, true_and] at heq
                obtain ⟨strs1, cur1, hr1, hlen⟩ := ih1.1 heq
                refine ⟨strs1, cur1, hr1, ?_⟩
                rw [hlen, mapInsert_fresh strs o _ hk, List.length_cons]
                omega
              · intro hne
                have hne1 : offs ≠ offsetRun ls1 (o + (2 * l + 4)) := by
                  intro heq
                  apply hne
                  simp only [offsetRun, List.cons.injEq, true_and]
                  exact heq
                obtain ⟨o1, ho1, hr1⟩ := ih1.2 hne1
                exact ⟨o1, List.mem_cons_of_mem _ ho1, hr1⟩
            · constructor
              · intro heq
                simp only [offsetRun, List.cons.injEq] at heq
                exact absurd heq.1 hoc
              · intro _
                refine ⟨o, List.mem_cons_self _ _, ?_⟩
                simp [readStrs, hoc]
          | none => rw [h4] at h; simp at h
        | error e => rw [h3] at h; simp at h
        | panic => rw [h3] at h; simp at h
        | outOfFuel => rw [h3] at h; simp at h
      | error e => rw [h2] at h; simp at h
      | panic => rw [h2] at h; simp at h
      | outOfFuel => rw [h2] at h; simp at h
    | error e => rw [h1] at h; simp at h
    | panic => rw [h1] at h; simp at h
    | outOfFuel => rw [h1] at h; simp at h

/-- C1 (evaluation of the code at the failing input): the offset table of
`c1Input` is `[8, 0]`, `"ab"` is stored at offset 0 and `"c"` at offset 8; the
decoded string list is `["ab", "c"]`, so index 0 resolves to the string at the
smallest offset, `"ab"`, not to the string at offset 8, and the element whose
name index is 0 is rendered as `<ab />`. -/
theorem C1_pool_index_follows_sorted_offsets :
    (readStringPool c1Input).map (fun p => p.1) = .ok [str "ab", str "c"] ∧
    DecompressXML c1Input = .ok (str "<ab />\n") := by
  constructor <;> decide

/-- C2: when the preamble, the offset table and the string data of all entries
are present, the string pool is decoded successfully exactly when the sorted
offset table is the run `0, s0, s0 + s1, ...` with `s_k = 2 * l_k + 4`; when
the sorted table is anything else, the pool phase and `DecompressXML` fail with
the `Invaild string offset` error for one of the offsets of the table, not
with an end-of-stream error. -/
theorem C2_sorted_offsets_contiguous (r : Stream) (strnum : Nat) (s1 : Stream)
    (stroffs : List Nat) (s2 : Stream) (ls : List Nat) (rest : Stream)
    (hpre : readPreamble r = .ok (strnum, s1))
    (hoffs : readWords strnum s1 = .ok (stroffs, s2))
    (hdata : readEntries strnum s2 = some (ls, rest)) :
    ((readStringPool r).isOk = true ↔ sortInts stroffs = offsetRun ls 0) ∧
    (sortInts stroffs ≠ offsetRun ls 0 →
      ∃ offs ∈ stroffs, readStringPool r = .error (.InvalidStringOffset offs) ∧
        DecompressXML r = .error (.InvalidStringOffset offs)) := by
  have hlen : (sortInts stroffs).length = strnum := by
    rw [sortInts, List.length_insertionSort]
    exact readWords_length strnum s1 stroffs s2 hoffs
  have hdata1 : readEntries (sortInts stroffs).length s2 = some (ls, rest) := by
    rw [hlen]; exact hdata
  have hspec := readStrs_spec (sortInts stroffs) 0 [] s2 ls rest hdata1
    (by intro p hp; simp at hp)
  have hbad : sortInts stroffs ≠ offsetRun ls 0 →
      ∃ offs ∈ stroffs, readStringPool r = .error (.InvalidStringOffset offs) := by
    intro hne
    obtain ⟨o, ho, hr⟩ := hspec.2 hne
    refine ⟨o, ?_, ?_⟩
    · exact (List.perm_insertionSort (fun a b => a ≤ b) stroffs).mem_iff.mp ho
    · simp [readStringPool, hpre, hoffs, hr]
  refine ⟨⟨?_, ?_⟩, ?_⟩
  · intro hok
    by_contra hne
    obtain ⟨o, _, hr⟩ := hbad hne
    rw [hr] at hok
    simp [Result.isOk] at hok
  · intro heq
    obtain ⟨strs1, cur1, hr, hl⟩ := hspec.1 heq
    have hb : ¬ strs1.length < (sortInts stroffs).length := by
      rw [hl]; simp
    simp [readStringPool, hpre, hoffs, hr, buildStrings, hb, Result.isOk]
  · intro hne
    obtain ⟨o, ho, hr⟩ := hbad hne
    exact ⟨o, ho, hr, by simp [DecompressXML, hr]⟩

/-- Witness for C2 at `c2Input`, whose offset table `[0, 9]` is one byte off. -/
theorem C2_sorted_offsets_contiguous_witness :
    ∃ offs ∈ [0, 9], readStringPool c2Input = .error (.InvalidStringOffset offs) ∧
      DecompressXML c2Input = .error (.InvalidStringOffset offs) :=
  (C2_sorted_offsets_contiguous c2Input 2
    (le32 0 ++ le32 9 ++ poolEntry (str "ab") ++ poolEntry (str "c") ++
      [0, 0] ++ le32 0xFFFFFFFF ++ record 0 0x100010 ++ record 0 0x100000)
    [0, 9]
    (poolEntry (str "ab") ++ poolEntry (str "c") ++
      [0, 0] ++ le32 0xFFFFFFFF ++ record 0 0x100010 ++ record 0 0x100000)
    [2, 1]
    ([0, 0] ++ le32 0xFFFFFFFF ++ record 0 0x100010 ++ record 0 0x100000)
    (by decide) (by decide) (by decide)).2 (by decide)

/-- C3 (evaluation of the code at the failing input): in `c3Input` the first
entry declares `l = 32768` units and carries no string data at all; the buffer
length `l*2` wraps to 0 in `uint16`, the decoder consumes 0 bytes of string
data where the claim has `2 * l = 65536`, while the tracked offset advances by
`2 * l + 4 = 65540`; the pool is accepted and the whole input of 54 bytes is
consumed with `pos = 65590`. -/
theorem C3_buffer_length_wraps :
    bufLen 32768 = 0 ∧ c3Input.length = 54 ∧
    readStringPool c3Input = .ok ([[], str "a"], 65590, []) := by
  refine ⟨by decide, by decide, by decide⟩

/-- C4 (counterexample): with `pool[0]` the single character U+017F (long s),
which is no letter a-z in either case, and `pool[1] = "http://x"`, the pair
`(0, 1)` is taken as a namespace declaration: `readTag` registers `1 -> 0`,
appends the `xmlns:` attribute and reads the next pair as the header. -/
theorem C4_counterexample_folded_letter :
    claimNsDecl [[0x17F], str "http://x"] 0 1 = false ∧
    isNsDecl [[0x17F], str "http://x"] 0 1 = true ∧
    readTag [[0x17F], str "http://x"] []
        (le32 0 ++ le32 1 ++ le32 0xFFFFFFFF ++ record 0 0x100010) =
      .ok (Tag.mk [0x17F] 0x100010
            [{ ns := none, name := str "xmlns:" ++ [0x17F], value := str "http://x" }] [],
           [(1, 0)], []) := by
  refine ⟨by decide, by decide, by rfl⟩

theorem foldAZ_iff (c : Rune) :
    foldAZ c = true ↔ (isLetterAZ c = true ∨ c = 0x17F ∨ c = 0x212A) := by
  simp only [foldAZ, isLetterAZ, Bool.or_eq_true, Bool.and_eq_true, decide_eq_true_eq,
    beq_iff_eq]
  tauto

theorem nsPatternMatch_iff (t : GoString) :
    nsPatternMatch t = true ↔
      t ≠ [] ∧ ∀ c ∈ t, isLetterAZ c = true ∨ c = 0x17F ∨ c = 0x212A := by
  simp only [nsPatternMatch, Bool.and_eq_true, Bool.not_eq_true', List.isEmpty_eq_false,
    List.all_eq_true, foldAZ_iff, ne_eq]

theorem urlPatternMatch_iff (t : GoString) :
    urlPatternMatch t = true ↔ ∃ u, t = str "http://" ++ u := by
  simp only [urlPatternMatch, List.isPrefixOf_iff_prefix]
  constructor
  · rintro ⟨u, hu⟩; exact ⟨u, hu.symm⟩
  · rintro ⟨u, hu⟩; exact ⟨u, hu.symm⟩

theorem isNsDecl_iff (strings : List GoString) (a b : Nat) :
    isNsDecl strings a b = true ↔
      (a < strings.length ∧ b < strings.length ∧ strings.getD a [] ≠ [] ∧
        (∀ c ∈ strings.getD a [], isLetterAZ c = true ∨ c = 0x17F ∨ c = 0x212A) ∧
        ∃ u, strings.getD b [] = str "http://" ++ u) := by
  unfold isNsDecl
  by_cases h : a < strings.length ∧ b < strings.length
  · rw [if_pos h, Bool.and_eq_true, nsPatternMatch_iff, urlPatternMatch_iff]
    constructor
    · rintro ⟨⟨h1, h2⟩, h3⟩; exact ⟨h.1, h.2, h1, h2, h3⟩
    · rintro ⟨_, _, h1, h2, h3⟩; exact ⟨⟨h1, h2⟩, h3⟩
  · rw [if_neg h]
    constructor
    · intro hf; simp at hf
    · rintro ⟨h1, h2, _⟩; exact absurd ⟨h1, h2⟩ h

theorem nsLookup_mapInsert (nsmap : NsMap) (k v : Nat) :
    nsLookup (mapInsert nsmap k v) k = v := by
  simp [nsLookup, mapLookup, mapInsert]

/-- C4 (amended): the pair of words `(a, b)` read where a header is expected is
taken as a namespace declaration if and only if `a` and `b` are valid pool
indices, `pool[a]` is a non-empty string of characters that are letters a-z in
either case or one of U+017F and U+212A (the two characters that case folding
joins to `s` and `k`), and `pool[b]` begins with `http://`; a declaration
records `b -> a`, appends the attribute `xmlns:` + `pool[a]` with value
`pool[b]`, runs `readPastSentinel` and reads the next pair as the header; any
other pair is the name and flags of the record. The pair `"android"`,
`"http://schemas.android.com/apk/res/android"` is a declaration and
`"xmlns"`, `"not-a-url"` is none. -/
theorem C4_namespace_declaration (strings : List GoString) (fuel : Nat) (nsmap : NsMap)
    (xmlns : List Attr) (a0 a1 a2 a3 b0 b1 b2 b3 : Byte) (rest : Stream) :
    (isNsDecl strings (u32 a0 a1 a2 a3) (u32 b0 b1 b2 b3) = true ↔
      (u32 a0 a1 a2 a3 < strings.length ∧ u32 b0 b1 b2 b3 < strings.length ∧
        strings.getD (u32 a0 a1 a2 a3) [] ≠ [] ∧
        (∀ c ∈ strings.getD (u32 a0 a1 a2 a3) [],
          isLetterAZ c = true ∨ c = 0x17F ∨ c = 0x212A) ∧
        ∃ u, strings.getD (u32 b0 b1 b2 b3) [] = str "http://" ++ u)) ∧
    (isNsDecl strings (u32 a0 a1 a2 a3) (u32 b0 b1 b2 b3) = true →
      readTagLoop strings (fuel + 1) nsmap xmlns
          (a0 :: a1 :: a2 :: a3 :: b0 :: b1 :: b2 :: b3 :: rest) =
        readTagLoop strings fuel (mapInsert nsmap (u32 b0 b1 b2 b3) (u32 a0 a1 a2 a3))
          (xmlns ++ [{ ns := none
                       name := str "xmlns:" ++ strings.getD (u32 a0 a1 a2 a3) []
                       value := strings.getD (u32 b0 b1 b2 b3) [] }])
          (readPastSentinel rest 0).2 ∧
      nsLookup (mapInsert nsmap (u32 b0 b1 b2 b3) (u32 a0 a1 a2 a3)) (u32 b0 b1 b2 b3) =
        u32 a0 a1 a2 a3) ∧
    (isNsDecl strings (u32 a0 a1 a2 a3) (u32 b0 b1 b2 b3) = false →
      readTagLoop strings (fuel + 1) nsmap xmlns
          (a0 :: a1 :: a2 :: a3 :: b0 :: b1 :: b2 :: b3 :: rest) =
        readRecord strings nsmap xmlns (u32 a0 a1 a2 a3) (u32 b0 b1 b2 b3) rest) ∧
    isNsDecl [str "android", str "http://schemas.android.com/apk/res/android"] 0 1 = true ∧
    isNsDecl [str "xmlns", str "not-a-url"] 0 1 = false := by
  refine ⟨isNsDecl_iff strings _ _, ?_, ?_, by decide, by decide⟩
  · intro h
    refine ⟨?_, nsLookup_mapInsert _ _ _⟩
    simp [readTagLoop, readU32, h, xmlnsAttr]
  · intro h
    simp [readTagLoop, readU32, h]

/-- Witness for C4: the declaration `android` in front of a record. -/
theorem C4_namespace_declaration_witness :
    readTagLoop [str "android", str "http://schemas.android.com/apk/res/android"] 2 [] []
        (0 :: 0 :: 0 :: 0 :: 1 :: 0 :: 0 :: 0 :: (le32 0xFFFFFFFF ++ record 0 0x100010)) =
      readTagLoop [str "android", str "http://schemas.android.com/apk/res/android"] 1
        (mapInsert [] 1 0)
        ([] ++ [{ ns := none
                  name := str "xmlns:" ++ str "android"
                  value := str "http://schemas.android.com/apk/res/android" }])
        (readPastSentinel (le32 0xFFFFFFFF ++ record 0 0x100010) 0).2 :=
  ((C4_namespace_declaration
    [str "android", str "http://schemas.android.com/apk/res/android"] 1 [] []
    0 0 0 0 1 0 0 0 (le32 0xFFFFFFFF ++ record 0 0x100010)).2.1 (by decide)).1

/-! ## Stream consumption of the readers -/

theorem readU32_ok {s : Stream} {v : Nat} {rest : Stream} (h : readU32 s = .ok (v, rest)) :
    ∃ b0 b1 b2 b3, s = b0 :: b1 :: b2 :: b3 :: rest ∧ v = u32 b0 b1 b2 b3 := by
  match s, h with
  | b0 :: b1 :: b2 :: b3 :: r, h =>
    simp only [readU32, Result.ok.injEq, Prod.mk.injEq] at h
    exact ⟨b0, b1, b2, b3, by rw [h.2], h.1.symm⟩

theorem readU32_length {s : Stream} {v : Nat} {rest : Stream} (h : readU32 s = .ok (v, rest)) :
    s.length = rest.length + 4 := by
  obtain ⟨b0, b1, b2, b3, hs, _⟩ := readU32_ok h
  rw [hs]; simp

theorem scanToSentinel_length : ∀ (n : Nat) (s : Stream), s.length ≤ n →
    (scanToSentinel s).2.length ≤ s.length := by
  intro n
  induction n with
  | zero =>
    intro s hs
    match s, hs with
    | [], _ => simp [scanToSentinel]
  | succ n ih =>
    intro s hs
    match s, hs with
    | [], _ => simp [scanToSentinel]
    | [_], _ => simp [scanToSentinel]
    | [_, _], _ => simp [scanToSentinel]
    | [_, _, _], _ => simp [scanToSentinel]
    | b0 :: b1 :: b2 :: b3 :: rest, hs =>
      simp only [scanToSentinel]
      split
      · simp only [List.length_cons]; omega
      · have := ih rest (by simp at hs; omega)
        simp only [List.length_cons]
        omega

theorem skipSentinels_length (count : Int) : ∀ (k : Nat) (n : Nat) (s : Stream), s.length ≤ k →
    (skipSentinels count n s).2.length ≤ s.length := by
  intro k
  induction k with
  | zero =>
    intro n s hs
    match s, hs with
    | [], _ => simp [skipSentinels]
  | succ k ih =>
    intro n s hs
    match s, hs with
    | [], _ => simp [skipSentinels]
    | [_], _ => simp [skipSentinels]
    | [_, _], _ => simp [skipSentinels]
    | [_, _, _], _ => simp [skipSentinels]
    | b0 :: b1 :: b2 :: b3 :: rest, hs =>
      simp only [skipSentinels]
      split
      · split
        · simp only [List.length_cons]; omega
        · have := ih (n + 1) rest (by simp at hs; omega)
          simp only [List.length_cons]
          omega
      · simp

theorem readPastSentinel_length (s : Stream) (count : Int) :
    (readPastSentinel s count).2.length ≤ s.length := by
  have h1 := scanToSentinel_length s.length s (Nat.le_refl _)
  unfold readPastSentinel
  split
  · next e s1 heq => rw [heq] at h1; exact h1
  · next s1 heq =>
    rw [heq] at h1
    split
    · have h2 := skipSentinels_length count s1.length 1 s1 (Nat.le_refl _)
      exact Nat.le_trans h2 h1
    · exact h1


theorem readAttrs_length (strings : List GoString) (nsmap : NsMap) :
    ∀ (k : Nat) (xmlns : List Attr) (s : Stream) (out : List Attr) (rest : Stream),
    readAttrs strings nsmap k xmlns s = .ok (out, rest) →
    s.length = rest.length + 20 * k ∧ out.length = xmlns.length + k := by
  intro k
  induction k with
  | zero =>
    intro xmlns s out rest h
    simp only [readAttrs, Result.ok.injEq, Prod.mk.injEq] at h
    rw [h.1, h.2]; simp
  | succ k ih =>
    intro xmlns s out rest h
    simp only [readAttrs] at h
    split at h <;> try (exact Result.noConfusion h)
    next ns s1 h1 =>
    split at h <;> try (exact Result.noConfusion h)
    next attr s2 h2 =>
    split at h <;> try (exact Result.noConfusion h)
    next value s3 h3 =>
    split at h <;> try (exact Result.noConfusion h)
    next fl s4 h4 =>
    split at h <;> try (exact Result.noConfusion h)
    next nameStr _ =>
    split at h <;> try (exact Result.noConfusion h)
    next valueStr _ =>
    split at h <;> try (exact Result.noConfusion h)
    next nsStr _ =>
    split at h <;> try (exact Result.noConfusion h)
    next pad s5 h5 =>
    have := ih _ _ _ _ h
    have l1 := readU32_length h1
    have l2 := readU32_length h2
    have l3 := readU32_length h3
    have l4 := readU32_length h4
    have l5 := readU32_length h5
    simp only [List.length_append, List.length_singleton] at this
    omega

theorem readFixed_length {strings : List GoString} {nsmap : NsMap} {xmlns : List Attr}
    {flags : Nat} {s : Stream} {out : List Attr} {rest : Stream}
    (h : readFixed strings nsmap xmlns flags s = .ok (out, rest)) :
    rest.length + 8 ≤ s.length := by
  unfold readFixed at h
  split at h
  · split at h <;> try (exact Result.noConfusion h)
    next k s1 h1 =>
    split at h <;> try (exact Result.noConfusion h)
    next u s2 h2 =>
    have := (readAttrs_length strings nsmap k xmlns s2 out rest h).1
    have l1 := readU32_length h1
    have l2 := readU32_length h2
    omega
  · split at h <;> try (exact Result.noConfusion h)
    next k s1 h1 =>
    split at h <;> try (exact Result.noConfusion h)
    next u s2 h2 =>
    simp only [Result.ok.injEq, Prod.mk.injEq] at h
    have l1 := readU32_length h1
    have l2 := readU32_length h2
    rw [← h.2]
    omega

theorem finishTag_ok {strings : List GoString} {name flags : Nat} {xmlns : List Attr}
    {s : Stream} {tag : Tag} {rest : Stream}
    (h : finishTag strings name flags xmlns s = .ok (tag, rest)) :
    rest = (readPastSentinel s 0).2 ∧ tag.flags = flags ∧ tag.attrs = xmlns ∧
      tag.children = [] ∧ index strings name = .ok tag.name := by
  unfold finishTag at h
  simp only at h
  split at h <;> try (exact Result.noConfusion h)
  next nameStr hn =>
  simp only [Result.ok.injEq, Prod.mk.injEq] at h
  obtain ⟨h1, h2⟩ := h
  subst h1; subst h2
  exact ⟨rfl, rfl, rfl, rfl, hn⟩

theorem readRecord_ok {strings : List GoString} {nsmap : NsMap} {xmlns : List Attr}
    {name flags : Nat} {s : Stream} {tag : Tag} {nsmap1 : NsMap} {rest : Stream}
    (h : readRecord strings nsmap xmlns name flags s = .ok (tag, nsmap1, rest)) :
    rest.length + 8 ≤ s.length ∧ tag.children = [] ∧ tag.flags = flags ∧ nsmap1 = nsmap := by
  unfold readRecord at h
  split at h <;> try (exact Result.noConfusion h)
  next attrs s1 h1 =>
  split at h <;> try (exact Result.noConfusion h)
  next tag1 s2 h2 =>
  simp only [Result.ok.injEq, Prod.mk.injEq] at h
  obtain ⟨ht, hm, hs⟩ := h
  subst ht; subst hm; subst hs
  obtain ⟨hr, hf, _, hc, _⟩ := finishTag_ok h2
  have l1 := readFixed_length h1
  have l2 := readPastSentinel_length s1 0
  rw [← hr] at l2
  exact ⟨by omega, hc, hf, rfl⟩

theorem readTagLoop_ok (strings : List GoString) :
    ∀ (fuel : Nat) (nsmap : NsMap) (xmlns : List Attr) (s : Stream)
      (tag : Tag) (nsmap1 : NsMap) (rest : Stream),
    readTagLoop strings fuel nsmap xmlns s = .ok (tag, nsmap1, rest) →
    rest.length + 16 ≤ s.length ∧ tag.children = [] := by
  intro fuel
  induction fuel with
  | zero =>
    intro nsmap xmlns s tag nsmap1 rest h
    simp [readTagLoop] at h
  | succ fuel ih =>
    intro nsmap xmlns s tag nsmap1 rest h
    simp only [readTagLoop] at h
    split at h <;> try (exact Result.noConfusion h)
    next name s1 h1 =>
    split at h <;> try (exact Result.noConfusion h)
    next flags s2 h2 =>
    have l1 := readU32_length h1
    have l2 := readU32_length h2
    split at h
    · have := ih _ _ _ _ _ _ h
      have l3 := readPastSentinel_length s2 0
      exact ⟨by omega, this.2⟩
    · have := readRecord_ok h
      exact ⟨by omega, this.2.1⟩

theorem readTag_ok {strings : List GoString} {nsmap : NsMap} {s : Stream}
    {tag : Tag} {nsmap1 : NsMap} {rest : Stream}
    (h : readTag strings nsmap s = .ok (tag, nsmap1, rest)) :
    rest.length + 16 ≤ s.length ∧ tag.children = [] :=
  readTagLoop_ok strings _ _ _ _ _ _ _ h

/-! ## readChildren -/

theorem Tag.flags_setChildren (t : Tag) (cs : List Tag) : (t.setChildren cs).flags = t.flags := by
  cases t; rfl

theorem Tag.name_setChildren (t : Tag) (cs : List Tag) : (t.setChildren cs).name = t.name := by
  cases t; rfl

theorem Tag.children_setChildren (t : Tag) (cs : List Tag) :
    (t.setChildren cs).children = cs := by
  cases t; rfl

theorem readChildren_sound (strings : List GoString) :
    ∀ (fuel : Nat) (nsmap : NsMap) (stoptag : GoString) (s : Stream)
      (children : List Tag) (nsmap1 : NsMap) (s1 : Stream),
    readChildren strings fuel nsmap stoptag s = .ok (children, nsmap1, s1) →
    LevelRecords strings stoptag nsmap s children nsmap1 s1 := by
  intro fuel
  induction fuel with
  | zero =>
    intro nsmap stoptag s children nsmap1 s1 h
    simp [readChildren] at h
  | succ fuel ih =>
    intro nsmap stoptag s children nsmap1 s1 h
    simp only [readChildren] at h
    split at h <;> try (exact Result.noConfusion h)
    next tag m1 t1 htag =>
    split at h
    · next hsup =>
      split at h
      · next hopen =>
        split at h <;> try (exact Result.noConfusion h)
        next kids m2 t2 hkids =>
        split at h <;> try (exact Result.noConfusion h)
        next rest m3 t3 hrest =>
        simp only [Result.ok.injEq, Prod.mk.injEq] at h
        obtain ⟨hc, hm, hs⟩ := h
        subst hc; subst hm; subst hs
        exact .container htag hsup hopen (ih _ _ _ _ _ _ hkids) (ih _ _ _ _ _ _ hrest)
      · next hopen =>
        split at h
        · next hname =>
          simp only [Result.ok.injEq, Prod.mk.injEq] at h
          obtain ⟨hc, hm, hs⟩ := h
          subst hc; subst hm; subst hs
          exact .close htag hsup (by simpa using hopen) hname
        · next hname =>
          split at h <;> try (exact Result.noConfusion h)
          next rest m3 t3 hrest =>
          simp only [Result.ok.injEq, Prod.mk.injEq] at h
          obtain ⟨hc, hm, hs⟩ := h
          subst hc; subst hm; subst hs
          exact .leaf htag (Or.inr ⟨by simpa using hopen, hname⟩) (ih _ _ _ _ _ _ hrest)
    · next hsup =>
      split at h <;> try (exact Result.noConfusion h)
      next rest m3 t3 hrest =>
      simp only [Result.ok.injEq, Prod.mk.injEq] at h
      obtain ⟨hc, hm, hs⟩ := h
      subst hc; subst hm; subst hs
      exact .leaf htag (Or.inl (by simpa using hsup)) (ih _ _ _ _ _ _ hrest)

theorem LevelRecords.length_le {strings : List GoString} {stoptag : GoString} {nsmap : NsMap}
    {s : Stream} {children : List Tag} {nsmap1 : NsMap} {s1 : Stream}
    (h : LevelRecords strings stoptag nsmap s children nsmap1 s1) :
    s1.length + 16 ≤ s.length := by
  induction h with
  | close htag _ _ _ => exact (readTag_ok htag).1
  | container htag _ _ _ _ ih1 ih2 => have := (readTag_ok htag).1; omega
  | leaf htag _ _ ih => have := (readTag_ok htag).1; omega

theorem readChildren_complete {strings : List GoString} {stoptag : GoString} {nsmap : NsMap}
    {s : Stream} {children : List Tag} {nsmap1 : NsMap} {s1 : Stream}
    (h : LevelRecords strings stoptag nsmap s children nsmap1 s1) :
    ∀ fuel, s.length < 16 * fuel →
      readChildren strings fuel nsmap stoptag s = .ok (children, nsmap1, s1) := by
  induction h with
  | close htag hsup hopen hname =>
    intro fuel hf
    have := (readTag_ok htag).1
    obtain ⟨f, rfl⟩ : ∃ f, fuel = f + 1 := ⟨fuel - 1, by omega⟩
    simp [readChildren, htag, hsup, hopen, hname]
  | container htag hsup hopen hk hr ih1 ih2 =>
    intro fuel hf
    have l1 := (readTag_ok htag).1
    have l2 := hk.length_le
    obtain ⟨f, rfl⟩ : ∃ f, fuel = f + 1 := ⟨fuel - 1, by omega⟩
    simp [readChildren, htag, hsup, hopen, ih1 f (by omega), ih2 f (by omega)]
  | @leaf stoptag nsmap s tag nsmap1 s1 rest nsmap3 s3 htag hcase hr ih =>
    intro fuel hf
    have l1 := (readTag_ok htag).1
    obtain ⟨f, rfl⟩ : ∃ f, fuel = f + 1 := ⟨fuel - 1, by omega⟩
    rcases hcase with hsup | ⟨hopen, hname⟩
    · simp [readChildren, htag, hsup, ih f (by omega)]
    · by_cases hsup : hasFlag tag.flags TAG_SUPPORTS_CHILDREN = true
      · simp [readChildren, htag, hsup, hopen, hname, ih f (by omega)]
      · simp [readChildren, htag, hsup, ih f (by omega)]

theorem LevelRecords.no_stop_record {strings : List GoString} {stoptag : GoString}
    {nsmap : NsMap} {s : Stream} {children : List Tag} {nsmap1 : NsMap} {s1 : Stream}
    (h : LevelRecords strings stoptag nsmap s children nsmap1 s1) :
    ∀ t ∈ children, ¬ (hasFlag t.flags TAG_SUPPORTS_CHILDREN = true ∧
      hasFlag t.flags TAG_OPEN = false ∧ t.name = stoptag) := by
  induction h with
  | close _ _ _ _ => intro t ht; simp at ht
  | container htag hsup hopen _ _ _ ih2 =>
    intro t ht
    rcases List.mem_cons.mp ht with rfl | ht
    · rintro ⟨_, h2, _⟩
      rw [Tag.flags_setChildren, hopen] at h2
      exact Bool.noConfusion h2
    · exact ih2 t ht
  | leaf htag hcase _ ih =>
    intro t ht
    rcases List.mem_cons.mp ht with rfl | ht
    · rintro ⟨h1, h2, h3⟩
      rcases hcase with hsup | ⟨_, hname⟩
      · rw [hsup] at h1; exact Bool.noConfusion h1
      · exact hname h3
    · exact ih t ht

theorem LevelRecords.leaf_children {strings : List GoString} {stoptag : GoString}
    {nsmap : NsMap} {s : Stream} {children : List Tag} {nsmap1 : NsMap} {s1 : Stream}
    (h : LevelRecords strings stoptag nsmap s children nsmap1 s1) :
    ∀ t ∈ children, ¬ (hasFlag t.flags TAG_SUPPORTS_CHILDREN = true ∧
      hasFlag t.flags TAG_OPEN = true) → t.children = [] := by
  induction h with
  | close _ _ _ _ => intro t ht; simp at ht
  | container htag hsup hopen _ _ _ ih2 =>
    intro t ht
    rcases List.mem_cons.mp ht with rfl | ht
    · intro hn
      rw [Tag.flags_setChildren] at hn
      exact absurd ⟨hsup, hopen⟩ hn
    · exact ih2 t ht
  | leaf htag hcase _ ih =>
    intro t ht
    rcases List.mem_cons.mp ht with rfl | ht
    · intro _
      exact (readTag_ok htag).2
    · exact ih t ht

/-- C5: `readChildren` succeeds with a list of children exactly when that list
is the records of this nesting level read before the first close record
(SUPPORTS_CHILDREN set, OPEN clear) whose name is the stop name, each
container-open record carrying as children the level read under its own name
(`LevelRecords`); the result does not depend on the fuel, the stream length
being fuel enough; no record of the returned list is a close record named as
the stop name, and every returned record that is not a container-open record
has no children. -/
theorem C5_readChildren_level (strings : List GoString) (nsmap : NsMap)
    (stoptag : GoString) (s : Stream) (children : List Tag) (nsmap1 : NsMap) (s1 : Stream) :
    ((∃ fuel, readChildren strings fuel nsmap stoptag s = .ok (children, nsmap1, s1)) ↔
      LevelRecords strings stoptag nsmap s children nsmap1 s1) ∧
    (LevelRecords strings stoptag nsmap s children nsmap1 s1 →
      readChildren strings (s.length + 1) nsmap stoptag s = .ok (children, nsmap1, s1) ∧
      (∀ t ∈ children, ¬ (hasFlag t.flags TAG_SUPPORTS_CHILDREN = true ∧
        hasFlag t.flags TAG_OPEN = false ∧ t.name = stoptag)) ∧
      (∀ t ∈ children, ¬ (hasFlag t.flags TAG_SUPPORTS_CHILDREN = true ∧
        hasFlag t.flags TAG_OPEN = true) → t.children = [])) := by
  refine ⟨⟨?_, ?_⟩, ?_⟩
  · rintro ⟨fuel, h⟩
    exact readChildren_sound strings fuel _ _ _ _ _ _ h
  · intro h
    exact ⟨s.length + 1, readChildren_complete h _ (by omega)⟩
  · intro h
    exact ⟨readChildren_complete h _ (by omega), h.no_stop_record, h.leaf_children⟩

/-- Witness for C5: a level with a text leaf, an element holding one leaf, and
a close record with a foreign name. -/
theorem C5_readChildren_level_witness :
    LevelRecords c5Pool (str "a") [] c5Stream c5Children [] [] :=
  (C5_readChildren_level c5Pool [] (str "a") c5Stream c5Children [] []).1.mp ⟨6, by rfl⟩

/-! ## The minimal document -/

/-- C6 (counterexample): the minimal document `c6Input`, a root `manifest`
with OPEN and SUPPORTS_CHILDREN set followed directly by its close record, is
decoded to `<manifest />` and a newline, which does not end with
`</manifest>`; with the TEXT bit set as well (`c6TextInput`) the output is the
bare name `manifest`, which does not begin with `<manifest`. Both outputs fail
the check. -/
theorem C6_counterexample_childless_root :
    DecompressXML c6Input = .ok (str "<manifest />\n") ∧
    (∀ lower, manifestCheck lower (str "<manifest />\n") = false) ∧
    DecompressXML c6TextInput = .ok (str "manifest") ∧
    (∀ lower, manifestCheck lower (str "manifest") = false) := by
  refine ⟨by decide, fun lower => ?_, by decide, fun lower => ?_⟩
  · have h : ToLower lower (TrimSpace (str "<manifest />\n")) = str "<manifest />" := by rfl
    simp only [manifestCheck, h]
    decide
  · have h : ToLower lower (TrimSpace (str "manifest")) = str "manifest" := by rfl
    simp only [manifestCheck, h]
    decide

theorem printTree_childless (name : GoString) (flags : Nat) (attrs : List Attr)
    (hopen : hasFlag flags TAG_OPEN = true) (htext : hasFlag flags TAG_TEXT = false) :
    printTree (Tag.mk name flags attrs []) 0 =
      str "<" ++ name ++ printAttrs attrs ++ str " />\n" := by
  have h1 : str " /" ++ str ">\n" = str " />\n" := by decide
  simp [printTree, hopen, htext, tabs, List.append_assoc, h1]

/-- C6 (amended): when the string pool and the sentinel run after it are read
and the document is a root record named `manifest` with OPEN set and TEXT
clear, followed directly by its matching close record (SUPPORTS_CHILDREN set,
OPEN clear, same name), `DecompressXML` succeeds and its output is exactly
`<manifest`, the attributes of the root, ` />` and a newline: it begins with
`<manifest` and ends with the self-closing ` />`. -/
theorem C6_childless_manifest (r : Stream) (strings : List GoString) (pos : Nat)
    (s0 s : Stream) (root : Tag) (nsmap1 : NsMap) (s1 : Stream)
    (close : Tag) (nsmap2 : NsMap) (s2 : Stream)
    (hpool : readStringPool r = .ok (strings, pos, s0))
    (hskip : skipToMeat pos s0 = .ok s)
    (hroot : readTag strings [] s = .ok (root, nsmap1, s1))
    (hname : root.name = str "manifest")
    (hopen : hasFlag root.flags TAG_OPEN = true)
    (htext : hasFlag root.flags TAG_TEXT = false)
    (hclose : readTag strings nsmap1 s1 = .ok (close, nsmap2, s2))
    (hcsup : hasFlag close.flags TAG_SUPPORTS_CHILDREN = true)
    (hcopen : hasFlag close.flags TAG_OPEN = false)
    (hcname : close.name = root.name) :
    DecompressXML r = .ok (str "<manifest" ++ printAttrs root.attrs ++ str " />\n") ∧
    str "<manifest" <+: str "<manifest" ++ printAttrs root.attrs ++ str " />\n" ∧
    str " />\n" <:+ str "<manifest" ++ printAttrs root.attrs ++ str " />\n" := by
  refine ⟨?_, ⟨_, rfl⟩, ?_⟩
  · have hkids : readChildren strings (s1.length + 1) nsmap1 root.name s1 =
        .ok ([], nsmap2, s2) := by
      simp [readChildren, hclose, hcsup, hcopen, hcname]
    obtain ⟨name, flags, attrs, children⟩ := root
    simp only [Tag.name] at hname hkids
    simp only [Tag.flags] at hopen htext
    subst hname
    have hp := printTree_childless (str "manifest") flags attrs hopen htext
    have h2 : str "<" ++ str "manifest" = str "<manifest" := by decide
    rw [h2] at hp
    simp [DecompressXML, hpool, hskip, readMeat, readRoot, hroot, hkids, Tag.setChildren,
      Tag.name, Tag.attrs, hp]
  · exact ⟨str "<manifest" ++ printAttrs root.attrs, by simp [List.append_assoc]⟩

/-- Witness for C6 at the minimal document `c6Input`. -/
theorem C6_childless_manifest_witness :
    DecompressXML c6Input = .ok (str "<manifest" ++ printAttrs [] ++ str " />\n") :=
  (C6_childless_manifest c6Input [str "manifest"] 60
    (le32 0xFFFFFFFF ++ record 0 0x100010 ++ record 0 0x100000)
    (record 0 0x100010 ++ record 0 0x100000)
    (Tag.mk (str "manifest") 0x100010 [] []) [] (record 0 0x100000)
    (Tag.mk (str "manifest") 0x100000 [] []) [] []
    (by decide) (by decide) (by rfl) (by rfl) (by decide) (by decide) (by rfl)
    (by decide) (by decide) (by rfl)).1

/-! ## The tags written by printTree -/

theorem DecompressXML_eq_decodeTree (r : Stream) :
    DecompressXML r = (decodeTree r).map (fun t => printTree t 0) := by
  unfold DecompressXML decodeTree
  cases h1 : readStringPool r with
  | ok p =>
    obtain ⟨strings, pos, s1⟩ := p
    simp only
    cases h2 : skipToMeat pos s1 with
    | ok s2 =>
      simp only [readMeat]
      cases h3 : readRoot strings s2 <;> simp [Result.map, Result.bind]
    | error e => simp [Result.map, Result.bind]
    | panic => simp [Result.map, Result.bind]
    | outOfFuel => simp [Result.map, Result.bind]
  | error e => simp [Result.map, Result.bind]
  | panic => simp [Result.map, Result.bind]
  | outOfFuel => simp [Result.map, Result.bind]

theorem renderPieces_append (a b : List Piece) :
    renderPieces (a ++ b) = renderPieces a ++ renderPieces b := by
  simp [renderPieces]

theorem markups_append (a b : List Piece) : markups (a ++ b) = markups a ++ markups b := by
  induction a with
  | nil => rfl
  | cons p ps ih => cases p <;> simp [markups, ih]

mutual
theorem printTree_eq_emit : ∀ (t : Tag) (depth : Nat),
    printTree t depth = renderPieces (emit t depth)
  | .mk name flags attrs children, depth => by
    by_cases htext : hasFlag flags TAG_TEXT = true
    · simp [printTree, emit, htext, renderPieces, Piece.render]
    · have hk := printChildren_eq_emit children (depth + 1)
      by_cases hc : children.length = 0
      · simp [printTree, emit, htext, hc, renderPieces, Piece.render, Markup.render]
        cases hasFlag flags TAG_OPEN <;> simp
      · have hc1 : children.length > 0 := Nat.pos_of_ne_zero hc
        have hc2 : children ≠ [] := by intro h; simp [h] at hc
        simp only [printTree, emit, htext, hc, hc1, hk, renderPieces_append]
        have e : str "</" = str "<" ++ str "/" := by decide
        simp [renderPieces, Piece.render, Markup.render, printAttrs, hc2, e]
        cases hasFlag flags TAG_OPEN <;> simp
theorem printChildren_eq_emit : ∀ (cs : List Tag) (depth : Nat),
    printChildren cs depth = renderPieces (emitChildren cs depth)
  | [], depth => by simp [printChildren, emitChildren, renderPieces]
  | c :: cs, depth => by
    simp only [printChildren, emitChildren, renderPieces_append]
    rw [printTree_eq_emit c depth, printChildren_eq_emit cs depth]
end

mutual
theorem nestRun_emit : ∀ (t : Tag) (depth : Nat) (stack : List GoString) (ms : List Markup),
    allOpen t = true → nestRun stack (markups (emit t depth) ++ ms) = nestRun stack ms
  | .mk name flags attrs children, depth, stack, ms, h => by
    by_cases htext : hasFlag flags TAG_TEXT = true
    · simp [emit, htext, markups]
    · have h : hasFlag flags TAG_OPEN = true ∧ allOpenList children = true := by
        simpa [allOpen, htext] using h
      have hopen : hasFlag flags TAG_OPEN = true := h.1
      have hkids : allOpenList children = true := h.2
      by_cases hc : children.length = 0
      · simp [emit, htext, hc, markups, nestRun, hopen]
      · have hc1 : children.length > 0 := Nat.pos_of_ne_zero hc
        have ih := nestRun_emitChildren children (depth + 1) (name :: stack)
          ({ closing := true, name := name, attrs := [], selfClosing := false } :: ms) hkids
        simp only [emit, htext, hc, hc1, markups_append, markups, hopen, if_true, if_false,
          Bool.false_eq_true, decide_False, Bool.not_true, List.cons_append, List.nil_append,
          List.append_assoc, nestRun]
        rw [ih]
        simp [nestRun]
theorem nestRun_emitChildren : ∀ (cs : List Tag) (depth : Nat) (stack : List GoString)
    (ms : List Markup),
    allOpenList cs = true →
    nestRun stack (markups (emitChildren cs depth) ++ ms) = nestRun stack ms
  | [], depth, stack, ms, _ => by simp [emitChildren, markups]
  | c :: cs, depth, stack, ms, h => by
    simp only [allOpenList, Bool.and_eq_true] at h
    simp only [emitChildren, markups_append, List.append_assoc]
    rw [nestRun_emit c depth stack _ h.1, nestRun_emitChildren cs depth stack ms h.2]
end

theorem openCount_append (a b : List Markup) :
    openCount (a ++ b) = openCount a + openCount b := by
  simp [openCount]

theorem closeCount_append (a b : List Markup) :
    closeCount (a ++ b) = closeCount a + closeCount b := by
  simp [closeCount]

mutual
theorem count_emit : ∀ (t : Tag) (depth : Nat),
    allOpen t = true →
    openCount (markups (emit t depth)) = closeCount (markups (emit t depth))
  | .mk name flags attrs children, depth, h => by
    by_cases htext : hasFlag flags TAG_TEXT = true
    · simp [emit, htext, markups, openCount, closeCount]
    · have h : hasFlag flags TAG_OPEN = true ∧ allOpenList children = true := by
        simpa [allOpen, htext] using h
      have hopen : hasFlag flags TAG_OPEN = true := h.1
      have hkids : allOpenList children = true := h.2
      by_cases hc : children.length = 0
      · simp [emit, htext, hc, markups, openCount, closeCount, hopen]
      · have hc1 : children.length > 0 := Nat.pos_of_ne_zero hc
        have ih := count_emitChildren children (depth + 1) hkids
        simp only [emit, htext, hc, hc1, markups_append, markups, hopen, if_true, if_false,
          Bool.false_eq_true, decide_False, Bool.not_true, List.cons_append, List.nil_append]
        rw [show ∀ (m : Markup) (l : List Markup), m :: l = [m] ++ l from fun _ _ => rfl]
        rw [openCount_append, closeCount_append, openCount_append, closeCount_append, ih]
        simp [openCount, closeCount]
        omega
theorem count_emitChildren : ∀ (cs : List Tag) (depth : Nat),
    allOpenList cs = true →
    openCount (markups (emitChildren cs depth)) = closeCount (markups (emitChildren cs depth))
  | [], depth, _ => by simp [emitChildren, markups, openCount, closeCount]
  | c :: cs, depth, h => by
    simp only [allOpenList, Bool.and_eq_true] at h
    simp only [emitChildren, markups_append, openCount_append, closeCount_append]
    rw [count_emit c depth h.1, count_emitChildren cs depth h.2]
end

theorem scanTags_text (t rest : GoString) (h : ∀ c ∈ t, c ≠ 60) :
    scanTags none (t ++ rest) = scanTags none rest := by
  induction t with
  | nil => rfl
  | cons c cs ih =>
    have hc : c ≠ 60 := h c (List.mem_cons_self _ _)
    simp only [List.cons_append, scanTags, hc, if_false]
    exact ih (fun x hx => h x (List.mem_cons_of_mem _ hx))

theorem scanTags_body (t : GoString) : ∀ (body rest : GoString), (∀ c ∈ t, c ≠ 62) →
    scanTags (some body) (t ++ 62 :: rest) = tagOfBody (body ++ t) :: scanTags none rest := by
  induction t with
  | nil => intro body rest _; simp [scanTags]
  | cons c cs ih =>
    intro body rest h
    have hc : c ≠ 62 := h c (List.mem_cons_self _ _)
    simp only [List.cons_append, scanTags, hc, if_false, List.append_eq]
    rw [ih (body ++ [c]) rest (fun x hx => h x (List.mem_cons_of_mem _ hx))]
    simp

theorem noAngle_mem {s : GoString} (h : noAngle s = true) : ∀ c ∈ s, c ≠ 60 ∧ c ≠ 62 := by
  intro c hc
  have := List.all_eq_true.mp h c hc
  simpa using this

theorem cleanName_mem {s : GoString} (h : cleanName s = true) :
    ∀ c ∈ s, c ≠ 60 ∧ c ≠ 62 ∧ isNameEnd c = false := by
  intro c hc
  have := List.all_eq_true.mp h c hc
  simpa [and_assoc] using this

theorem printAttr_clean {a : Attr} (h : cleanAttr a = true) : ∀ c ∈ printAttr a, c ≠ 62 := by
  simp only [cleanAttr, Bool.and_eq_true] at h
  obtain ⟨⟨hns, hname⟩, hvalue⟩ := h
  intro c hc
  have e1 : str " " = [32] := by decide
  have e2 : str ":" = [58] := by decide
  have e3 : str "=\"" = [61, 34] := by decide
  have e4 : str "\"" = [34] := by decide
  simp only [printAttr, e1, e2, e3, e4, List.mem_append, List.mem_cons, List.mem_singleton,
    List.not_mem_nil, or_false] at hc
  rcases hc with (((((hc | hc) | hc) | hc) | hc) | hc)
  · subst hc; decide
  · cases hn : a.ns with
    | none => rw [hn] at hc; simp at hc
    | some ns =>
      rw [hn] at hc hns
      simp only [List.mem_append, List.mem_singleton] at hc
      rcases hc with hc | hc
      · exact (noAngle_mem hns c hc).2
      · subst hc; decide
  · exact (noAngle_mem hname c hc).2
  · rcases hc with hc | hc <;> (subst hc; decide)
  · exact (noAngle_mem hvalue c hc).2
  · subst hc; decide

theorem printAttrs_clean : ∀ (attrs : List Attr), attrs.all cleanAttr = true →
    ∀ c ∈ printAttrs attrs, c ≠ 62
  | [], _ => by simp [printAttrs]
  | a :: rest, h => by
    simp only [List.all_cons, Bool.and_eq_true] at h
    intro c hc
    simp only [printAttrs, List.mem_append] at hc
    rcases hc with hc | hc
    · exact printAttr_clean h.1 c hc
    · exact printAttrs_clean rest h.2 c hc

theorem printAttr_shape (a : Attr) : ∃ w, printAttr a = 32 :: (w ++ [34]) := by
  have e1 : str " " = [32] := by decide
  have e4 : str "\"" = [34] := by decide
  cases hn : a.ns with
  | none => exact ⟨a.name ++ str "=\"" ++ a.value, by simp [printAttr, e1, e4, hn]⟩
  | some ns =>
    exact ⟨ns ++ str ":" ++ a.name ++ str "=\"" ++ a.value, by simp [printAttr, e1, e4, hn]⟩

theorem printAttrs_shape : ∀ (attrs : List Attr),
    printAttrs attrs = [] ∨ ∃ w, printAttrs attrs = 32 :: (w ++ [34])
  | [] => Or.inl rfl
  | a :: rest => by
    right
    obtain ⟨w, hw⟩ := printAttr_shape a
    rcases printAttrs_shape rest with h | ⟨w1, h⟩
    · exact ⟨w, by simp [printAttrs, hw, h]⟩
    · exact ⟨w ++ [34] ++ 32 :: w1, by simp [printAttrs, hw, h]⟩

/-- What follows the name inside a tag is empty, or starts with a blank and
ends with `/` exactly when the tag is self-closing. -/
theorem tagTail_shape (attrs : List Attr) (sc : Bool) :
    (printAttrs attrs ++ (if sc then str " /" else []) = [] ∧ sc = false) ∨
    ∃ w q, printAttrs attrs ++ (if sc then str " /" else []) = 32 :: (w ++ [q]) ∧
      (q == 47) = sc := by
  have e : str " /" = [32, 47] := by decide
  rcases printAttrs_shape attrs with h | ⟨w, h⟩
  · cases sc
    · left; simp [h]
    · right; exact ⟨[], 47, by simp [h, e], by decide⟩
  · right
    cases sc
    · exact ⟨w, 34, by simp [h], by decide⟩
    · exact ⟨w ++ [34, 32], 47, by simp [h, e], by decide⟩

theorem tagOfBody_parts (name X : GoString) (sc : Bool) (hn : cleanName name = true)
    (hX : (X = [] ∧ sc = false) ∨ ∃ w q, X = 32 :: (w ++ [q]) ∧ (q == 47) = sc) :
    (name ++ X).head? ≠ some 47 ∧
    (name ++ X).takeWhile (fun c => !isNameEnd c) = name ∧
    ((name ++ X).getLast? == some 47) = sc := by
  have hmem := cleanName_mem hn
  have h47 : (47 : Nat) ∉ name := fun h => by
    have := (hmem 47 h).2.2
    revert this; decide
  have htw : ∀ Y : GoString, (Y = [] ∨ ∃ Z, Y = 32 :: Z) →
      (name ++ Y).takeWhile (fun c => !isNameEnd c) = name := by
    intro Y hY
    rw [List.takeWhile_append_of_pos (fun a ha => by simp [(hmem a ha).2.2])]
    rcases hY with h | ⟨Z, h⟩
    · simp [h]
    · subst h
      have : isNameEnd 32 = true := by decide
      simp [List.takeWhile, this]
  rcases hX with ⟨hX, hsc⟩ | ⟨w, q, hX, hq⟩
  · subst hX; subst hsc
    refine ⟨?_, htw [] (Or.inl rfl), ?_⟩
    · rw [List.append_nil]
      intro h
      exact h47 (List.mem_of_mem_head? h)
    · rw [List.append_nil]
      cases hl : name.getLast? with
      | none => rfl
      | some x =>
        have hx : x ∈ name := List.mem_of_getLast?_eq_some hl
        have : x ≠ 47 := fun e => h47 (e ▸ hx)
        simp [this]
  · subst hX
    refine ⟨?_, htw _ (Or.inr ⟨_, rfl⟩), ?_⟩
    · cases name with
      | nil => simp
      | cons x xs =>
        have : x ≠ 47 := fun e => h47 (e ▸ List.mem_cons_self _ _)
        simp [this]
    · have : name ++ 32 :: (w ++ [q]) = (name ++ 32 :: w) ++ [q] := by simp
      rw [this, List.getLast?_append, ← hq]
      simp

theorem tagOfBody_markup (m : Markup) (hn : cleanName m.name = true) :
    tagOfBody ((if m.closing then str "/" else []) ++ m.name ++ printAttrs m.attrs ++
      (if m.selfClosing then str " /" else [])) = m.tag := by
  obtain ⟨h1, h2, h3⟩ := tagOfBody_parts m.name
    (printAttrs m.attrs ++ (if m.selfClosing then str " /" else [])) m.selfClosing hn
    (tagTail_shape m.attrs m.selfClosing)
  have e : str "/" = [47] := by decide
  cases hc : m.closing
  · have h0 : ((m.name ++ (printAttrs m.attrs ++
        (if m.selfClosing then str " /" else []))).head? == some 47) = false := by
      cases hh : (m.name ++ (printAttrs m.attrs ++
        (if m.selfClosing then str " /" else []))).head? with
      | none => rfl
      | some x =>
        have : x ≠ 47 := fun e => h1 (by rw [hh, e])
        simp [this]
    simp only [Bool.false_eq_true, if_false, List.nil_append, List.append_assoc, tagOfBody,
      h0, h2, h3, Markup.tag, hc]
  · simp only [if_true, e, List.cons_append, List.nil_append, List.append_assoc, tagOfBody,
      List.head?_cons, beq_self_eq_true, List.tail_cons, h2, h3, Markup.tag, hc]

theorem scanTags_markup (m : Markup) (rest : GoString) (hn : cleanName m.name = true)
    (ha : m.attrs.all cleanAttr = true) :
    scanTags none (m.render ++ rest) = m.tag :: scanTags none rest := by
  have e1 : str "<" = [60] := by decide
  have e2 : str ">\n" = [62, 10] := by decide
  have hb : ∀ c ∈ (if m.closing then str "/" else []) ++ m.name ++ printAttrs m.attrs ++
      (if m.selfClosing then str " /" else []), c ≠ 62 := by
    intro c hc
    simp only [List.mem_append] at hc
    rcases hc with ((hc | hc) | hc) | hc
    · by_cases hcl : m.closing = true
      · have e : str "/" = [47] := by decide
        simp only [hcl, if_true, e, List.mem_singleton] at hc
        subst hc; decide
      · simp [hcl] at hc
    · exact (cleanName_mem hn c hc).2.1
    · exact printAttrs_clean m.attrs ha c hc
    · by_cases hcl : m.selfClosing = true
      · have e : str " /" = [32, 47] := by decide
        simp only [hcl, if_true, e, List.mem_cons, List.mem_singleton, List.not_mem_nil,
          or_false] at hc
        rcases hc with hc | hc <;> (subst hc; decide)
      · simp [hcl] at hc
  have h := scanTags_body _ [] (10 :: rest) hb
  rw [List.nil_append, tagOfBody_markup m hn] at h
  have hr : m.render ++ rest = 60 :: (((if m.closing then str "/" else []) ++ m.name ++
      printAttrs m.attrs ++ (if m.selfClosing then str " /" else [])) ++ 62 :: 10 :: rest) := by
    simp [Markup.render, e1, e2]
  rw [hr]
  simp only [scanTags, if_true]
  rw [h]
  simp [scanTags]

theorem scanTags_pieces : ∀ (ps : List Piece) (rest : GoString),
    ps.all Piece.clean = true →
    scanTags none (renderPieces ps ++ rest) =
      (markups ps).map Markup.tag ++ scanTags none rest
  | [], rest, _ => by simp [renderPieces, markups]
  | p :: ps, rest, h => by
    simp only [List.all_cons, Bool.and_eq_true] at h
    have ih := scanTags_pieces ps rest h.2
    have hr : renderPieces (p :: ps) ++ rest = p.render ++ (renderPieces ps ++ rest) := by
      simp [renderPieces]
    rw [hr]
    cases p with
    | indent d =>
      simp only [Piece.render]
      rw [scanTags_text _ _ (by
        intro c hc
        simp only [tabs, List.mem_replicate] at hc
        obtain ⟨_, hc⟩ := hc
        subst hc; decide)]
      simpa [markups] using ih
    | text s =>
      simp only [Piece.render]
      rw [scanTags_text _ _ (fun c hc => (noAngle_mem h.1 c hc).1)]
      simpa [markups] using ih
    | markup m =>
      have hm : cleanName m.name = true ∧ m.attrs.all cleanAttr = true := by
        simpa [Piece.clean] using h.1
      simp only [Piece.render]
      rw [scanTags_markup m _ hm.1 hm.2, ih]
      simp [markups]

mutual
theorem emit_clean : ∀ (t : Tag) (depth : Nat), cleanTree t = true →
    (emit t depth).all Piece.clean = true
  | .mk name flags attrs children, depth, h => by
    by_cases htext : hasFlag flags TAG_TEXT = true
    · simp only [cleanTree, htext, if_true] at h
      simp [emit, htext, Piece.clean, h]
    · simp only [cleanTree, htext, Bool.false_eq_true, if_false, Bool.and_eq_true] at h
      have hk := emitChildren_clean children (depth + 1) h.2
      by_cases hc : children.length = 0
      · simp [emit, htext, hc, Piece.clean, h.1.1, h.1.2]
      · have hc1 : children.length > 0 := Nat.pos_of_ne_zero hc
        have hnil : cleanName name = true := h.1.1
        simp only [emit, htext, hc, hc1, Bool.false_eq_true, if_false, if_true,
          List.all_append, List.all_cons, List.all_nil, Piece.clean, hk, h.1.1, h.1.2,
          Bool.and_true, Bool.true_and, Bool.and_self]
theorem emitChildren_clean : ∀ (cs : List Tag) (depth : Nat), cleanList cs = true →
    (emitChildren cs depth).all Piece.clean = true
  | [], depth, _ => by simp [emitChildren]
  | c :: cs, depth, h => by
    simp only [cleanList, Bool.and_eq_true] at h
    simp only [emitChildren, List.all_append, Bool.and_eq_true]
    exact ⟨emit_clean c depth h.1, emitChildren_clean cs depth h.2⟩
end

theorem textTags_printTree (t : Tag) (depth : Nat) (h : cleanTree t = true) :
    textTags (printTree t depth) = (markups (emit t depth)).map Markup.tag := by
  have := scanTags_pieces (emit t depth) [] (emit_clean t depth h)
  rw [List.append_nil] at this
  rw [textTags, printTree_eq_emit, this]
  simp [scanTags]

theorem nestTags_map : ∀ (ms : List Markup) (stack : List GoString),
    nestTags stack (ms.map Markup.tag) = nestRun stack ms
  | [], stack => rfl
  | m :: ms, stack => by
    simp only [List.map_cons, nestTags, nestRun, Markup.tag]
    cases m.closing
    · cases m.selfClosing
      · simpa using nestTags_map ms (m.name :: stack)
      · simpa using nestTags_map ms stack
    · cases stack with
      | nil => rfl
      | cons top rest =>
        by_cases ht : top = m.name
        · simpa [ht] using nestTags_map ms rest
        · simp [ht]

theorem openTags_map (ms : List Markup) : openTags (ms.map Markup.tag) = openCount ms := by
  induction ms with
  | nil => rfl
  | cons m ms ih =>
    simp only [openTags, openCount, List.map_cons, List.filter_cons, Markup.tag] at ih ⊢
    cases m.closing <;> simp [ih]

theorem closeTags_map (ms : List Markup) : closeTags (ms.map Markup.tag) = closeCount ms := by
  induction ms with
  | nil => rfl
  | cons m ms ih =>
    simp only [closeTags, closeCount, List.map_cons, List.filter_cons, Markup.tag] at ih ⊢
    cases m.closing <;> cases m.selfClosing <;> simp [ih]

/-- C7 (counterexample): in `c7Input` the root `a` is followed by a close
record named `b`, which `readChildren` keeps as a child because its name is
not the stop name, and which `printTree` writes as `</b />`. The text holds
one opening tag and two closing tags, and `</b />` closes no open tag: the
tag opened last is `a`. In `c7TextName` every node written as a tag has OPEN
set, but the name of the text node is the string `<b>`, written as it is: the
text holds two opening tags and one closing tag, and `</a>` does not close the
tag opened last. -/
theorem C7_counterexample_stray_close :
    DecompressXML c7Input = .ok (str "<a>\n\t</b />\n</a>\n") ∧
    decodeTree c7Input =
      .ok (Tag.mk (str "a") 0x100010 [] [Tag.mk (str "b") 0x100000 [] []]) ∧
    textTags (str "<a>\n\t</b />\n</a>\n") =
      [{ closing := false, name := str "a", selfClosing := false },
       { closing := true, name := str "b", selfClosing := true },
       { closing := true, name := str "a", selfClosing := false }] ∧
    nestTags [] (textTags (str "<a>\n\t</b />\n</a>\n")) = none ∧
    openTags (textTags (str "<a>\n\t</b />\n</a>\n")) = 1 ∧
    closeTags (textTags (str "<a>\n\t</b />\n</a>\n")) = 2 ∧
    DecompressXML c7TextName = .ok (str "<a>\n\t<b></a>\n") ∧
    decodeTree c7TextName =
      .ok (Tag.mk (str "a") 0x100010 [] [Tag.mk (str "<b>") 0x08 [] []]) ∧
    allOpen (Tag.mk (str "a") 0x100010 [] [Tag.mk (str "<b>") 0x08 [] []]) = true ∧
    textTags (str "<a>\n\t<b></a>\n") =
      [{ closing := false, name := str "a", selfClosing := false },
       { closing := false, name := str "b", selfClosing := false },
       { closing := true, name := str "a", selfClosing := false }] ∧
    nestTags [] (textTags (str "<a>\n\t<b></a>\n")) = none ∧
    openTags (textTags (str "<a>\n\t<b></a>\n")) = 2 ∧
    closeTags (textTags (str "<a>\n\t<b></a>\n")) = 1 := by
  refine ⟨by decide, by rfl, by decide, by decide, by decide, by decide,
    by decide, by rfl, by decide, by decide, by decide, by decide, by decide⟩

/-- C7 (amended): on every input on which `DecompressXML` succeeds, the text
is what `printTree` writes for the decoded tree, and when every node of that
tree that is written as a tag has OPEN set, no string written for the tree
holds `<` or `>`, and no name of a node written as a tag holds `/` or white
space, then the tags read from the rendered text nest in LIFO order, every
closing tag closing the tag opened last under the same name with no tag left
open at the end, and the number of opening tags of the text equals the number
of its closing tags (a self-closing tag counting as one of each). -/
theorem C7_tags_balanced (r : Stream) (xml : GoString)
    (h : DecompressXML r = .ok xml) :
    ∃ tree, decodeTree r = .ok tree ∧ xml = printTree tree 0 ∧
      (allOpen tree = true → cleanTree tree = true →
        nestTags [] (textTags xml) = some [] ∧
        openTags (textTags xml) = closeTags (textTags xml)) := by
  rw [DecompressXML_eq_decodeTree] at h
  cases ht : decodeTree r with
  | ok tree =>
    rw [ht] at h
    simp only [Result.map, Result.bind, Result.ok.injEq] at h
    refine ⟨tree, rfl, h.symm, ?_⟩
    intro hopen hclean
    have h1 := nestRun_emit tree 0 [] [] hopen
    simp only [List.append_nil, nestRun] at h1
    rw [← h, textTags_printTree tree 0 hclean, nestTags_map, openTags_map, closeTags_map]
    exact ⟨h1, count_emit tree 0 hopen⟩
  | error e => rw [ht] at h; simp [Result.map, Result.bind] at h
  | panic => rw [ht] at h; simp [Result.map, Result.bind] at h
  | outOfFuel => rw [ht] at h; simp [Result.map, Result.bind] at h

/-- Witness for C7 at `c7Mixed`: the root `a` carries an attribute and holds
a text node and a childless element; the decoded tree meets both conditions
and the text has two opening and two closing tags. In the text of `c7Nested`
an element `a` lies inside `b` inside the root `a`, and the tags nest. -/
theorem C7_tags_balanced_witness :
    DecompressXML c7Mixed = .ok (str "<a b=\"v\">\n\tt\t<b />\n</a>\n") ∧
    decodeTree c7Mixed =
      .ok (Tag.mk (str "a") 0x100010 [{ ns := none, name := str "b", value := str "v" }]
        [Tag.mk (str "t") 0x08 [] [], Tag.mk (str "b") 0x100010 [] []]) ∧
    allOpen (Tag.mk (str "a") 0x100010 [{ ns := none, name := str "b", value := str "v" }]
        [Tag.mk (str "t") 0x08 [] [], Tag.mk (str "b") 0x100010 [] []]) = true ∧
    cleanTree (Tag.mk (str "a") 0x100010 [{ ns := none, name := str "b", value := str "v" }]
        [Tag.mk (str "t") 0x08 [] [], Tag.mk (str "b") 0x100010 [] []]) = true ∧
    openTags (textTags (str "<a b=\"v\">\n\tt\t<b />\n</a>\n")) = 2 ∧
    DecompressXML c7Nested = .ok (str "<a>\n\t<b>\n\t\t<a />\n\t</b>\n</a>\n") ∧
    nestTags [] (textTags (str "<a>\n\t<b>\n\t\t<a />\n\t</b>\n</a>\n")) = some [] ∧
    ∃ tree, decodeTree c7Mixed = .ok tree ∧
      str "<a b=\"v\">\n\tt\t<b />\n</a>\n" = printTree tree 0 ∧
      (allOpen tree = true → cleanTree tree = true →
        nestTags [] (textTags (str "<a b=\"v\">\n\tt\t<b />\n</a>\n")) = some [] ∧
        openTags (textTags (str "<a b=\"v\">\n\tt\t<b />\n</a>\n")) =
          closeTags (textTags (str "<a b=\"v\">\n\tt\t<b />\n</a>\n"))) :=
  ⟨by decide, by rfl, by decide, by decide, by decide, by decide, by decide,
    C7_tags_balanced c7Mixed (str "<a b=\"v\">\n\tt\t<b />\n</a>\n") (by decide)⟩

/-! ## Truncated records -/

theorem prefix_four {p s1 : Stream} {b0 b1 b2 b3 : Byte}
    (hp : p <+: b0 :: b1 :: b2 :: b3 :: s1) :
    p.length < 4 ∨ ∃ p1, p = b0 :: b1 :: b2 :: b3 :: p1 ∧ p1 <+: s1 := by
  rcases p with _ | ⟨x0, _ | ⟨x1, _ | ⟨x2, _ | ⟨x3, p1⟩⟩⟩⟩
  · left; simp
  · left; simp
  · left; simp
  · left; simp
  · right
    rw [List.cons_prefix_cons] at hp
    obtain ⟨h0, hp⟩ := hp
    rw [List.cons_prefix_cons] at hp
    obtain ⟨h1, hp⟩ := hp
    rw [List.cons_prefix_cons] at hp
    obtain ⟨h2, hp⟩ := hp
    rw [List.cons_prefix_cons] at hp
    obtain ⟨h3, hp⟩ := hp
    subst h0; subst h1; subst h2; subst h3
    exact ⟨p1, rfl, hp⟩

theorem readU32_short {p : Stream} (h : p.length < 4) :
    ∃ e, isEOF e ∧ readU32 p = .error e := by
  rcases p with _ | ⟨x0, _ | ⟨x1, _ | ⟨x2, _ | ⟨x3, p1⟩⟩⟩⟩
  · exact ⟨.EOF, Or.inl rfl, rfl⟩
  · exact ⟨.ErrUnexpectedEOF, Or.inr rfl, rfl⟩
  · exact ⟨.ErrUnexpectedEOF, Or.inr rfl, rfl⟩
  · exact ⟨.ErrUnexpectedEOF, Or.inr rfl, rfl⟩
  · simp only [List.length_cons] at h; omega

theorem readU32_prefix {s p : Stream} {v : Nat} {s1 : Stream}
    (h : readU32 s = .ok (v, s1)) (hp : p <+: s) :
    (∃ p1, readU32 p = .ok (v, p1) ∧ p1 <+: s1 ∧ p.length = p1.length + 4) ∨
    (p.length < 4 ∧ ∃ e, isEOF e ∧ readU32 p = .error e) := by
  obtain ⟨b0, b1, b2, b3, hs, hv⟩ := readU32_ok h
  subst hs
  rcases prefix_four hp with hshort | ⟨p1, hp1, hpre⟩
  · exact Or.inr ⟨hshort, readU32_short hshort⟩
  · left
    subst hp1
    exact ⟨p1, by simp [readU32, hv], hpre, by simp⟩

theorem scanToSentinel_error_nil : ∀ (n : Nat) (p : Stream), p.length ≤ n →
    (scanToSentinel p).1 ≠ none → (scanToSentinel p).2 = [] := by
  intro n
  induction n with
  | zero =>
    intro p hp _
    match p, hp with
    | [], _ => simp [scanToSentinel]
  | succ n ih =>
    intro p hp
    match p, hp with
    | [], _ => simp [scanToSentinel]
    | [_], _ => simp [scanToSentinel]
    | [_, _], _ => simp [scanToSentinel]
    | [_, _, _], _ => simp [scanToSentinel]
    | b0 :: b1 :: b2 :: b3 :: rest, hp =>
      simp only [scanToSentinel]
      split
      · intro h; simp at h
      · exact ih rest (by simp at hp; omega)

theorem scanToSentinel_prefix : ∀ (n : Nat) (s p : Stream), p.length ≤ n → p <+: s →
    (scanToSentinel p).1 = none →
    (scanToSentinel s).1 = none ∧ (scanToSentinel p).2 <+: (scanToSentinel s).2 ∧
      s.length + (scanToSentinel p).2.length = p.length + (scanToSentinel s).2.length := by
  intro n
  induction n with
  | zero =>
    intro s p hp _ h
    match p, hp with
    | [], _ => simp [scanToSentinel] at h
  | succ n ih =>
    intro s p hp hpre h
    match p, hp with
    | [], _ => simp [scanToSentinel] at h
    | [_], _ => simp [scanToSentinel] at h
    | [_, _], _ => simp [scanToSentinel] at h
    | [_, _, _], _ => simp [scanToSentinel] at h
    | b0 :: b1 :: b2 :: b3 :: p1, hp =>
      obtain ⟨t, ht⟩ := hpre
      subst ht
      have hp1 : p1.length ≤ n := by simp only [List.length_cons] at hp; omega
      simp only [scanToSentinel, List.cons_append, List.append_eq] at h ⊢
      by_cases hs : u32 b0 b1 b2 b3 = SENTINEL
      · simp only [hs, if_true] at h ⊢
        refine ⟨trivial, ⟨t, rfl⟩, ?_⟩
        simp only [List.length_cons, List.length_append, List.append_eq]
        omega
      · simp only [hs, if_false] at h ⊢
        have := ih (p1 ++ t) p1 hp1 ⟨t, rfl⟩ h
        refine ⟨this.1, this.2.1, ?_⟩
        have h3 := this.2.2
        simp only [List.length_cons, List.length_append, List.append_eq] at h3 ⊢
        omega

theorem skipSentinels_prefix : ∀ (k : Nat) (n : Nat) (s p : Stream), p.length ≤ k → p <+: s →
    ((skipSentinels 0 n p).2 <+: (skipSentinels 0 n s).2 ∧
      s.length + (skipSentinels 0 n p).2.length = p.length + (skipSentinels 0 n s).2.length) ∨
    (skipSentinels 0 n p).2.length < 4 := by
  intro k
  induction k with
  | zero =>
    intro n s p hp _
    match p, hp with
    | [], _ => right; simp [skipSentinels]
  | succ k ih =>
    intro n s p hp hpre
    match p, hp with
    | [], _ => right; simp [skipSentinels]
    | [_], _ => right; simp [skipSentinels]
    | [_, _], _ => right; simp [skipSentinels]
    | [_, _, _], _ => right; simp [skipSentinels]
    | b0 :: b1 :: b2 :: b3 :: p1, hp =>
      obtain ⟨t, ht⟩ := hpre
      subst ht
      have hn : ¬ ((0 : Int) ≥ ((n + 1 : Nat) : Int)) := by omega
      have hp1 : p1.length ≤ k := by simp only [List.length_cons] at hp; omega
      simp only [skipSentinels, List.cons_append, List.append_eq, hn, if_false]
      by_cases hff : b0.val = 0xFF ∧ b1.val = 0xFF ∧ b2.val = 0xFF ∧ b3.val = 0xFF
      · simp only [hff, and_self, if_true]
        rcases ih (n + 1) (p1 ++ t) p1 hp1 ⟨t, rfl⟩ with ⟨h1, h2⟩ | h
        · left
          refine ⟨h1, ?_⟩
          simp only [List.length_cons, List.length_append, List.append_eq] at h2 ⊢
          omega
        · right; exact h
      · simp only [hff, if_false]
        left
        exact ⟨⟨t, rfl⟩, by simp only [List.length_cons, List.length_append, List.append_eq]; omega⟩

theorem readPastSentinel_prefix {s p : Stream} (hpre : p <+: s) :
    ((readPastSentinel p 0).2 <+: (readPastSentinel s 0).2 ∧
      s.length + (readPastSentinel p 0).2.length =
        p.length + (readPastSentinel s 0).2.length) ∨
    (readPastSentinel p 0).2.length < 4 := by
  cases hp : (scanToSentinel p).1 with
  | some e =>
    right
    have hnil := scanToSentinel_error_nil p.length p (Nat.le_refl _) (by rw [hp]; simp)
    have : readPastSentinel p 0 = (some e, []) := by
      unfold readPastSentinel
      rw [show scanToSentinel p = ((scanToSentinel p).1, (scanToSentinel p).2) from rfl,
        hp, hnil]
    rw [this]; simp
  | none =>
    obtain ⟨hs, hpre1, hlen⟩ := scanToSentinel_prefix p.length s p (Nat.le_refl _) hpre hp
    have ep : readPastSentinel p 0 = skipSentinels 0 1 (scanToSentinel p).2 := by
      unfold readPastSentinel
      rw [show scanToSentinel p = ((scanToSentinel p).1, (scanToSentinel p).2) from rfl, hp]
      simp
    have es : readPastSentinel s 0 = skipSentinels 0 1 (scanToSentinel s).2 := by
      unfold readPastSentinel
      rw [show scanToSentinel s = ((scanToSentinel s).1, (scanToSentinel s).2) from rfl, hs]
      simp
    rw [ep, es]
    rcases skipSentinels_prefix _ 1 _ _ (Nat.le_refl _) hpre1 with ⟨h1, h2⟩ | h
    · left
      exact ⟨h1, by omega⟩
    · right; exact h

theorem readAttrs_prefix (strings : List GoString) (nsmap : NsMap) :
    ∀ (k : Nat) (xmlns : List Attr) (s : Stream) (out : List Attr) (rest p : Stream),
    readAttrs strings nsmap k xmlns s = .ok (out, rest) → p <+: s →
    p.length + rest.length < s.length →
    ∃ e, isEOF e ∧ readAttrs strings nsmap k xmlns p = .error e := by
  intro k
  induction k with
  | zero =>
    intro xmlns s out rest p h _ hlen
    simp only [readAttrs, Result.ok.injEq, Prod.mk.injEq] at h
    rw [h.2] at hlen
    omega
  | succ k ih =>
    intro xmlns s out rest p h hp hlen
    simp only [readAttrs] at h
    split at h <;> try (exact Result.noConfusion h)
    next ns s1 h1 =>
    split at h <;> try (exact Result.noConfusion h)
    next attr s2 h2 =>
    split at h <;> try (exact Result.noConfusion h)
    next value s3 h3 =>
    split at h <;> try (exact Result.noConfusion h)
    next fl s4 h4 =>
    split at h <;> try (exact Result.noConfusion h)
    next nameStr hi1 =>
    split at h <;> try (exact Result.noConfusion h)
    next valueStr hi2 =>
    split at h <;> try (exact Result.noConfusion h)
    next nsStr hi3 =>
    split at h <;> try (exact Result.noConfusion h)
    next pad s5 h5 =>
    have l1 := readU32_length h1
    have l2 := readU32_length h2
    have l3 := readU32_length h3
    have l4 := readU32_length h4
    have l5 := readU32_length h5
    rcases readU32_prefix h1 hp with ⟨p1, hq1, hp1, _⟩ | ⟨_, e, he, hq⟩
    · rcases readU32_prefix h2 hp1 with ⟨p2, hq2, hp2, _⟩ | ⟨_, e, he, hq⟩
      · rcases readU32_prefix h3 hp2 with ⟨p3, hq3, hp3, _⟩ | ⟨_, e, he, hq⟩
        · rcases readU32_prefix h4 hp3 with ⟨p4, hq4, hp4, _⟩ | ⟨_, e, he, hq⟩
          · rcases readU32_prefix h5 hp4 with ⟨p5, hq5, hp5, _⟩ | ⟨_, e, he, hq⟩
            · obtain ⟨e, he, hr⟩ := ih _ _ _ _ p5 h hp5 (by omega)
              refine ⟨e, he, ?_⟩
              simp only [readAttrs, hq1, hq2, hq3, hq4, hi1, hi2, hi3, hq5]
              exact hr
            · refine ⟨e, he, ?_⟩
              simp only [readAttrs, hq1, hq2, hq3, hq4, hi1, hi2, hi3, hq]
          · refine ⟨e, he, ?_⟩
            simp only [readAttrs, hq1, hq2, hq3, hq]
        · refine ⟨e, he, ?_⟩
          simp only [readAttrs, hq1, hq2, hq]
      · refine ⟨e, he, ?_⟩
        simp only [readAttrs, hq1, hq]
    · refine ⟨e, he, ?_⟩
      simp only [readAttrs, hq]

theorem readFixed_prefix {strings : List GoString} {nsmap : NsMap} {xmlns : List Attr}
    {flags : Nat} {s : Stream} {out : List Attr} {rest p : Stream}
    (h : readFixed strings nsmap xmlns flags s = .ok (out, rest)) (hp : p <+: s)
    (hlen : p.length + rest.length < s.length) :
    ∃ e, isEOF e ∧ readFixed strings nsmap xmlns flags p = .error e := by
  unfold readFixed at h ⊢
  split at h
  · next hc =>
    rw [if_pos hc]
    split at h <;> try (exact Result.noConfusion h)
    next k s1 h1 =>
    split at h <;> try (exact Result.noConfusion h)
    next u s2 h2 =>
    have l1 := readU32_length h1
    have l2 := readU32_length h2
    rcases readU32_prefix h1 hp with ⟨p1, hq1, hp1, _⟩ | ⟨_, e, he, hq⟩
    · rcases readU32_prefix h2 hp1 with ⟨p2, hq2, hp2, _⟩ | ⟨_, e, he, hq⟩
      · obtain ⟨e, he, hr⟩ := readAttrs_prefix strings nsmap k xmlns s2 out rest p2 h hp2
          (by omega)
        refine ⟨e, he, ?_⟩
        simp only [hq1, hq2]
        exact hr
      · exact ⟨e, he, by simp only [hq1, hq]⟩
    · exact ⟨e, he, by simp only [hq]⟩
  · next hc =>
    rw [if_neg hc]
    split at h <;> try (exact Result.noConfusion h)
    next k s1 h1 =>
    split at h <;> try (exact Result.noConfusion h)
    next u s2 h2 =>
    simp only [Result.ok.injEq, Prod.mk.injEq] at h
    have l1 := readU32_length h1
    have l2 := readU32_length h2
    have hrest := h.2
    rcases readU32_prefix h1 hp with ⟨p1, hq1, hp1, _⟩ | ⟨_, e, he, hq⟩
    · rcases readU32_prefix h2 hp1 with ⟨p2, hq2, hp2, _⟩ | ⟨_, e, he, hq⟩
      · have := hp2.length_le
        rw [← hrest] at hlen
        omega
      · exact ⟨e, he, by simp only [hq1, hq]⟩
    · exact ⟨e, he, by simp only [hq]⟩

theorem readTagLoop_short (strings : List GoString) (fuel : Nat) (nsmap : NsMap)
    (xmlns : List Attr) {p : Stream} (h : p.length < 4) :
    ∃ e, isEOF e ∧ readTagLoop strings (fuel + 1) nsmap xmlns p = .error e := by
  obtain ⟨e, he, hq⟩ := readU32_short h
  exact ⟨e, he, by simp only [readTagLoop, hq]⟩

theorem readTagLoop_prefix (strings : List GoString) :
    ∀ (fuel : Nat) (nsmap : NsMap) (xmlns : List Attr) (s rest p : Stream) (fuel2 : Nat),
    readTagFixed strings fuel nsmap xmlns s = .ok rest → p <+: s →
    p.length + rest.length < s.length → p.length < 8 * fuel2 →
    ∃ e, isEOF e ∧ readTagLoop strings fuel2 nsmap xmlns p = .error e := by
  intro fuel
  induction fuel with
  | zero =>
    intro nsmap xmlns s rest p fuel2 h
    simp [readTagFixed] at h
  | succ fuel ih =>
    intro nsmap xmlns s rest p fuel2 h hp hlen hfuel
    obtain ⟨f2, rfl⟩ : ∃ f, fuel2 = f + 1 := ⟨fuel2 - 1, by omega⟩
    simp only [readTagFixed] at h
    split at h <;> try (exact Result.noConfusion h)
    next name s1 h1 =>
    split at h <;> try (exact Result.noConfusion h)
    next flags s2 h2 =>
    have l1 := readU32_length h1
    have l2 := readU32_length h2
    rcases readU32_prefix h1 hp with ⟨p1, hq1, hp1, _⟩ | ⟨_, e, he, hq⟩
    · rcases readU32_prefix h2 hp1 with ⟨p2, hq2, hp2, _⟩ | ⟨_, e, he, hq⟩
      · split at h
        · next hdecl =>
          have hstep : readTagLoop strings (f2 + 1) nsmap xmlns p =
              readTagLoop strings f2 (mapInsert nsmap flags name)
                (xmlns ++ [xmlnsAttr strings name flags]) (readPastSentinel p2 0).2 := by
            simp only [readTagLoop, hq1, hq2, hdecl, if_true]
          rw [hstep]
          have lp := readPastSentinel_length p2 0
          rcases readPastSentinel_prefix hp2 with ⟨hpre3, hlen3⟩ | hshort
          · exact ih _ _ _ _ _ f2 h hpre3 (by omega) (by omega)
          · obtain ⟨f3, rfl⟩ : ∃ f, f2 = f + 1 := ⟨f2 - 1, by omega⟩
            exact readTagLoop_short strings f3 _ _ hshort
        · next hdecl =>
          split at h <;> try (exact Result.noConfusion h)
          next out s3 h3 =>
          simp only [Result.ok.injEq] at h
          subst h
          obtain ⟨e, he, hr⟩ := readFixed_prefix h3 hp2 (by omega)
          refine ⟨e, he, ?_⟩
          simp only [readTagLoop, hq1, hq2, hdecl, readRecord, hr]
          simp
      · exact ⟨e, he, by simp only [readTagLoop, hq1, hq]⟩
    · exact ⟨e, he, by simp only [readTagLoop, hq]⟩

/-- C8 (counterexample): a stream that ends after the fixed words of a close
record, before any sentinel word, makes `readPastSentinel` fail with `io.EOF`,
yet `readTag` returns the tag and no error; `c8Input`, whose last record ends
that way, is decoded to text. -/
theorem C8_counterexample_missing_sentinel :
    (readPastSentinel [] 0).1 = some .EOF ∧
    readTag [str "a"] [] (le32 0 ++ le32 0x100000 ++ le32 0 ++ le32 0) =
      .ok (Tag.mk (str "a") 0x100000 [] [], [], []) ∧
    DecompressXML c8Input = .ok (str "<a />\n") := by
  refine ⟨by decide, by rfl, by decide⟩

/-- C8 (amended): when the fixed words of a tag record (the headers of the
namespace declarations and of the record, the two words or the attribute count
and attribute words that follow) end `rest.length` bytes before the end of a
stream `s`, then on every stream `p` that is `s` cut short inside those words
`readTag` returns an end-of-stream error; that error is returned unchanged by
`readChildren`, by `readMeat` and by `DecompressXML`, also when it arises in a
nested or later call of `readChildren`. -/
theorem C8_truncated_record (strings : List GoString) (nsmap : NsMap) (s rest p : Stream)
    (hfix : readTagFixed strings (s.length + 1) nsmap [] s = .ok rest)
    (hpre : p <+: s) (hlen : p.length + rest.length < s.length) :
    ∃ e, isEOF e ∧ readTag strings nsmap p = .error e ∧
      (∀ fuel stoptag, readChildren strings (fuel + 1) nsmap stoptag p = .error e) ∧
      (nsmap = [] → readMeat strings p = .error e ∧
        ∀ r pos s0, readStringPool r = .ok (strings, pos, s0) → skipToMeat pos s0 = .ok p →
          DecompressXML r = .error e) ∧
      (∀ fuel nsmap0 stoptag t tag nsmap1 t1,
        readTag strings nsmap0 t = .ok (tag, nsmap1, t1) →
        hasFlag tag.flags TAG_SUPPORTS_CHILDREN = true → hasFlag tag.flags TAG_OPEN = true →
        (readChildren strings fuel nsmap1 tag.name t1 = .error e →
          readChildren strings (fuel + 1) nsmap0 stoptag t = .error e) ∧
        (∀ kids nsmap2 t2, readChildren strings fuel nsmap1 tag.name t1 = .ok (kids, nsmap2, t2) →
          readChildren strings fuel nsmap2 stoptag t2 = .error e →
          readChildren strings (fuel + 1) nsmap0 stoptag t = .error e)) := by
  obtain ⟨e, he, hr⟩ := readTagLoop_prefix strings (s.length + 1) nsmap [] s rest p
    (p.length + 1) hfix hpre hlen (by omega)
  have hr1 : readTag strings nsmap p = .error e := hr
  refine ⟨e, he, hr1, ?_, ?_, ?_⟩
  · intro fuel stoptag
    simp only [readChildren, hr1]
  · intro hns
    subst hns
    have hm : readMeat strings p = .error e := by simp only [readMeat, readRoot, hr1]
    refine ⟨hm, ?_⟩
    intro r pos s0 h1 h2
    simp only [DecompressXML, h1, h2, hm]
  · intro fuel nsmap0 stoptag t tag nsmap1 t1 ht hsup hopen
    constructor
    · intro hk
      simp only [readChildren, ht, hsup, hopen, if_true, hk]
    · intro kids nsmap2 t2 hk hrest
      simp only [readChildren, ht, hsup, hopen, if_true, hk, hrest]

/-- Witness for C8: a close record cut after its third word. -/
theorem C8_truncated_record_witness :
    ∃ e, isEOF e ∧
      readTag [str "a"] [] (le32 0 ++ le32 0x100000 ++ le32 0) = .error e :=
  (C8_truncated_record [str "a"] [] (record 0 0x100000) (le32 0xFFFFFFFF)
    (le32 0 ++ le32 0x100000 ++ le32 0) (by decide) ⟨le32 0 ++ le32 0xFFFFFFFF, by decide⟩
    (by decide)).imp (fun _ h => ⟨h.1, h.2.1⟩)

/-! ## Pool indices -/

/-- C9 (evaluation of the code at the failing input): with the pool `["a"]`, a
record whose tag name index is 5, an attribute whose name index is 7 and an
attribute whose value index is 9 each end `readTag` in an index-out-of-range
fault, not in a returned error; `DecompressXML` on `c9Input`, whose root record
has the name index 5, ends in the same fault. -/
theorem C9_index_out_of_range_faults :
    readTag [str "a"] [] (record 5 0x100010) = .panic ∧
    readTag [str "a"] [] (attrRecord 0xFFFFFFFF 7 0) = .panic ∧
    readTag [str "a"] [] (attrRecord 0xFFFFFFFF 0 9) = .panic ∧
    DecompressXML c9Input = .panic := by
  refine ⟨by rfl, by rfl, by rfl, by decide⟩

/-! ## Attribute values -/

theorem remapValue_eq (strings : List GoString) (w : Nat) (hne : strings ≠ [])
    (hlen : strings.length ≤ 4294967296) :
    remapValue strings.length w = valueIndex strings w := by
  have hpos : 0 < strings.length := List.length_pos.mpr hne
  unfold remapValue valueIndex
  split
  · omega
  · rfl

theorem index_ok {strings : List GoString} {i : Nat} (h : i < strings.length) :
    index strings i = .ok (strings.getD i []) := by
  unfold index
  rw [List.get?_eq_getElem?, List.getElem?_eq_getElem h, List.getD_eq_getElem _ _ h]

theorem index_ok_inv {strings : List GoString} {i : Nat} {x : GoString}
    (h : index strings i = .ok x) : i < strings.length ∧ x = strings.getD i [] := by
  unfold index at h
  cases hg : strings.get? i with
  | none => rw [hg] at h; simp at h
  | some y =>
    rw [hg] at h
    simp only [Result.ok.injEq] at h
    have hi : i < strings.length := by
      by_contra hc
      rw [List.get?_eq_none.mpr (by omega)] at hg
      simp at hg
    refine ⟨hi, ?_⟩
    rw [← h, List.getD_eq_getElem _ _ hi]
    rw [List.get?_eq_getElem?, List.getElem?_eq_getElem hi] at hg
    exact (Option.some.inj hg).symm

theorem readU32_drop {s : Stream} {v : Nat} {s1 : Stream} (h : readU32 s = .ok (v, s1)) :
    s1 = s.drop 4 := by
  obtain ⟨b0, b1, b2, b3, hs, _⟩ := readU32_ok h
  rw [hs]; rfl

/-- The attributes decoded by the loop of lines 279-311 are appended to
`xmlns`, one per iteration, and the value of the `i`-th comes from the word at
byte `20 * i + 8` of the stream. -/
theorem readAttrs_values (strings : List GoString) (nsmap : NsMap) (hne : strings ≠ [])
    (hlen : strings.length ≤ 4294967296) :
    ∀ (k : Nat) (xmlns : List Attr) (s : Stream) (out : List Attr) (rest : Stream),
    readAttrs strings nsmap k xmlns s = .ok (out, rest) →
    ∃ dec, out = xmlns ++ dec ∧ dec.length = k ∧
      ∀ i, i < k → ∃ w, readU32 (s.drop (20 * i + 8)) = .ok (w, s.drop (20 * i + 12)) ∧
        valueIndex strings w < strings.length ∧
        (dec.get? i).map Attr.value = some (strings.getD (valueIndex strings w) []) := by
  intro k
  induction k with
  | zero =>
    intro xmlns s out rest h
    simp only [readAttrs, Result.ok.injEq, Prod.mk.injEq] at h
    exact ⟨[], by simp [h.1], rfl, fun i hi => absurd hi (Nat.not_lt_zero i)⟩
  | succ k ih =>
    intro xmlns s out rest h
    simp only [readAttrs] at h
    split at h <;> try (exact Result.noConfusion h)
    next ns s1 h1 =>
    split at h <;> try (exact Result.noConfusion h)
    next attr s2 h2 =>
    split at h <;> try (exact Result.noConfusion h)
    next value s3 h3 =>
    split at h <;> try (exact Result.noConfusion h)
    next fl s4 h4 =>
    split at h <;> try (exact Result.noConfusion h)
    next nameStr hi1 =>
    split at h <;> try (exact Result.noConfusion h)
    next valueStr hi2 =>
    split at h <;> try (exact Result.noConfusion h)
    next nsStr hi3 =>
    split at h <;> try (exact Result.noConfusion h)
    next pad s5 h5 =>
    obtain ⟨dec, hout, hdlen, hvals⟩ := ih _ _ _ _ h
    have d1 := readU32_drop h1
    have d2 := readU32_drop h2
    have d3 := readU32_drop h3
    have d4 := readU32_drop h4
    have d5 := readU32_drop h5
    rw [remapValue_eq strings value hne hlen] at hi2
    obtain ⟨hv1, hv2⟩ := index_ok_inv hi2
    refine ⟨{ ns := nsStr, name := nameStr, value := valueStr } :: dec, ?_, ?_, ?_⟩
    · rw [hout]; simp
    · simp [hdlen]
    · intro i hi
      cases i with
      | zero =>
        refine ⟨value, ?_, hv1, ?_⟩
        · have e2 : s2 = s.drop 8 := by rw [d2, d1, List.drop_drop]
          have e3 : s3 = s.drop 12 := by rw [d3, e2, List.drop_drop]
          rw [← e2, ← e3] at *
          simpa using h3
        · simp [hv2]
      | succ j =>
        obtain ⟨w, hw1, hw2, hw3⟩ := hvals j (by omega)
        have e5 : s5 = s.drop 20 := by
          rw [d5, d4, d3, d2, d1]
          simp only [List.drop_drop]
        rw [e5, List.drop_drop, List.drop_drop] at hw1
        refine ⟨w, ?_, hw2, ?_⟩
        · have a1 : 20 + (20 * j + 8) = 20 * (j + 1) + 8 := by omega
          have a2 : 20 + (20 * j + 12) = 20 * (j + 1) + 12 := by omega
          rw [a1, a2] at hw1
          exact hw1
        · simpa using hw3

/-- The attributes of the tag of a container-open record are the result of the
attribute loop run after the attribute count and the word that follows it. -/
theorem readRecord_container_attrs {strings : List GoString} {nsmap : NsMap}
    {xmlns : List Attr} {name flags : Nat} {s : Stream} {tag : Tag} {nsmap1 : NsMap}
    {rest : Stream} (hsup : hasFlag flags TAG_SUPPORTS_CHILDREN = true)
    (hopen : hasFlag flags TAG_OPEN = true)
    (h : readRecord strings nsmap xmlns name flags s = .ok (tag, nsmap1, rest)) :
    ∃ k u s1 s2 s3, readU32 s = .ok (k, s1) ∧ readU32 s1 = .ok (u, s2) ∧
      readAttrs strings nsmap k xmlns s2 = .ok (tag.attrs, s3) := by
  unfold readRecord at h
  split at h <;> try (exact Result.noConfusion h)
  next attrs s3 hfix =>
  split at h <;> try (exact Result.noConfusion h)
  next tag1 s4 hfin =>
  simp only [Result.ok.injEq, Prod.mk.injEq] at h
  obtain ⟨ht, _, _⟩ := h
  subst ht
  obtain ⟨_, _, hattrs, _, _⟩ := finishTag_ok hfin
  unfold readFixed at hfix
  simp only [hsup, hopen, Bool.and_self, if_true] at hfix
  split at hfix <;> try (exact Result.noConfusion hfix)
  next k s1 h1 =>
  split at hfix <;> try (exact Result.noConfusion hfix)
  next u s2 h2 =>
  exact ⟨k, u, s1, s2, s3, h1, h2, by rw [hattrs]; exact hfix⟩

/-- C10: for a non-empty pool (of at most `2^32` strings, as every pool built
by `DecompressXML` is), an attribute record of a container-open tag whose name
index is valid, whose namespace word is `0xFFFFFFFF` or resolves to a valid
index, and whose value word is `0xFFFFFFFF` or a valid index, is decoded
without error into an attribute whose value is `pool[len - 1]`, the last
string, for the word `0xFFFFFFFF` and `pool[v]` for any other value word `v`;
and whenever the attribute loop succeeds, the value of its `i`-th attribute is
that string for the value word at byte `20 * i + 8`; the attributes of the tag
of a container-open record are the result of that loop. -/
theorem C10_value_sentinel_remap (strings : List GoString) (nsmap : NsMap)
    (hne : strings ≠ []) (hlen : strings.length ≤ 4294967296) :
    (∀ (k : Nat) (xmlns : List Attr) (s s1 s2 s3 s4 s5 : Stream) (ns attr value fl pad : Nat),
      readU32 s = .ok (ns, s1) → readU32 s1 = .ok (attr, s2) →
      readU32 s2 = .ok (value, s3) → readU32 s3 = .ok (fl, s4) →
      readU32 s4 = .ok (pad, s5) →
      attr < strings.length → (ns = 0xFFFFFFFF ∨ nsLookup nsmap ns < strings.length) →
      (value = 0xFFFFFFFF ∨ value < strings.length) →
      ∃ nsStr, readAttrs strings nsmap (k + 1) xmlns s =
        readAttrs strings nsmap k
          (xmlns ++ [{ ns := nsStr, name := strings.getD attr [],
                       value := if value = 0xFFFFFFFF
                                then strings.getD (strings.length - 1) []
                                else strings.getD value [] }]) s5) ∧
    (∀ (k : Nat) (xmlns : List Attr) (s : Stream) (out : List Attr) (rest : Stream),
      readAttrs strings nsmap k xmlns s = .ok (out, rest) →
      ∃ dec, out = xmlns ++ dec ∧ dec.length = k ∧
        ∀ i, i < k → ∃ w, readU32 (s.drop (20 * i + 8)) = .ok (w, s.drop (20 * i + 12)) ∧
          (dec.get? i).map Attr.value =
            some (if w = 0xFFFFFFFF then strings.getD (strings.length - 1) []
                  else strings.getD w [])) ∧
    (∀ (xmlns : List Attr) (name flags : Nat) (s : Stream) (tag : Tag) (nsmap1 : NsMap)
      (rest : Stream),
      hasFlag flags TAG_SUPPORTS_CHILDREN = true → hasFlag flags TAG_OPEN = true →
      readRecord strings nsmap xmlns name flags s = .ok (tag, nsmap1, rest) →
      ∃ k u s1 s2 s3, readU32 s = .ok (k, s1) ∧ readU32 s1 = .ok (u, s2) ∧
        readAttrs strings nsmap k xmlns s2 = .ok (tag.attrs, s3)) ∧
    strings.getD (strings.length - 1) [] = strings.getLast hne := by
  have hpos : 0 < strings.length := List.length_pos.mpr hne
  refine ⟨?_, ?_, fun _ _ _ _ _ _ _ hsup hopen h => readRecord_container_attrs hsup hopen h,
    ?_⟩
  · intro k xmlns s s1 s2 s3 s4 s5 ns attr value fl pad h1 h2 h3 h4 h5 hattr hns hval
    have hvi : valueIndex strings value < strings.length := by
      unfold valueIndex
      split
      · omega
      · rcases hval with h | h
        · contradiction
        · exact h
    have hv : (if value = 0xFFFFFFFF then strings.getD (strings.length - 1) []
        else strings.getD value []) = strings.getD (valueIndex strings value) [] := by
      unfold valueIndex
      split <;> rfl
    rw [hv]
    by_cases hn : ns = 0xFFFFFFFF
    · refine ⟨none, ?_⟩
      simp [readAttrs, h1, h2, h3, h4, h5, index_ok hattr, remapValue_eq strings value hne hlen,
        index_ok hvi, hn]
    · have hl : nsLookup nsmap ns < strings.length := by
        rcases hns with h | h
        · exact absurd h hn
        · exact h
      refine ⟨some (strings.getD (nsLookup nsmap ns) []), ?_⟩
      simp [readAttrs, h1, h2, h3, h4, h5, index_ok hattr, remapValue_eq strings value hne hlen,
        index_ok hvi, hn, index_ok hl, Result.map, Result.bind]
  · intro k xmlns s out rest h
    obtain ⟨dec, h1, h2, h3⟩ := readAttrs_values strings nsmap hne hlen k xmlns s out rest h
    refine ⟨dec, h1, h2, ?_⟩
    intro i hi
    obtain ⟨w, hw1, _, hw3⟩ := h3 i hi
    refine ⟨w, hw1, ?_⟩
    rw [hw3]
    unfold valueIndex
    split <;> rfl
  · rw [List.getLast_eq_getElem, List.getD_eq_getElem]

/-- Witness for C10: with the pool `["a", "b", "c"]`, two attributes whose
value words are `0xFFFFFFFF` and 1 get the values `"c"` and `"b"`. -/
theorem C10_value_sentinel_remap_witness :
    readAttrs [str "a", str "b", str "c"] [] 2 []
        (le32 0xFFFFFFFF ++ le32 0 ++ le32 0xFFFFFFFF ++ le32 0 ++ le32 0 ++
         (le32 0xFFFFFFFF ++ le32 0 ++ le32 1 ++ le32 0 ++ le32 0)) =
      .ok ([{ ns := none, name := str "a", value := str "c" },
            { ns := none, name := str "a", value := str "b" }], []) ∧
    ∃ dec, [{ ns := none, name := str "a", value := str "c" },
            { ns := none, name := str "a", value := str "b" }] = [] ++ dec ∧ dec.length = 2 ∧
      ∀ i, i < 2 → ∃ w,
        readU32 ((le32 0xFFFFFFFF ++ le32 0 ++ le32 0xFFFFFFFF ++ le32 0 ++ le32 0 ++
          (le32 0xFFFFFFFF ++ le32 0 ++ le32 1 ++ le32 0 ++ le32 0)).drop (20 * i + 8)) =
          .ok (w, (le32 0xFFFFFFFF ++ le32 0 ++ le32 0xFFFFFFFF ++ le32 0 ++ le32 0 ++
            (le32 0xFFFFFFFF ++ le32 0 ++ le32 1 ++ le32 0 ++ le32 0)).drop (20 * i + 12)) ∧
        (dec.get? i).map Attr.value =
          some (if w = 0xFFFFFFFF then
                  [str "a", str "b", str "c"].getD ([str "a", str "b", str "c"].length - 1) []
                else [str "a", str "b", str "c"].getD w []) :=
  ⟨by decide,
   (C10_value_sentinel_remap [str "a", str "b", str "c"] [] (by decide) (by decide)).2.1
     2 [] _ _ [] (by decide)⟩

/-! ## readPastSentinel -/

theorem u32_eq_sentinel (b0 b1 b2 b3 : Byte) :
    u32 b0 b1 b2 b3 = SENTINEL ↔
      (b0.val = 0xFF ∧ b1.val = 0xFF ∧ b2.val = 0xFF ∧ b3.val = 0xFF) := by
  have h0 := b0.isLt
  have h1 := b1.isLt
  have h2 := b2.isLt
  have h3 := b3.isLt
  unfold u32 SENTINEL
  constructor
  · intro h; omega
  · intro h; omega

theorem byte_eq_255 {b : Byte} (h : b.val = 0xFF) : b = 255 := by
  apply Fin.ext
  rw [h]; rfl

theorem scanToSentinel_run : ∀ (n : Nat) (pre t : Stream), pre.length ≤ n →
    noSentinel pre = true → scanToSentinel (pre ++ sentinelWord ++ t) = (none, t) := by
  intro n
  induction n with
  | zero =>
    intro pre t hn _
    match pre, hn with
    | [], _ =>
      have hs : u32 (255 : Byte) 255 255 255 = SENTINEL := by decide
      simp [sentinelWord, scanToSentinel, hs]
  | succ n ih =>
    intro pre t hn hpre
    match pre, hn, hpre with
    | [], _, _ =>
      have hs : u32 (255 : Byte) 255 255 255 = SENTINEL := by decide
      simp [sentinelWord, scanToSentinel, hs]
    | [_], _, hpre => simp [noSentinel] at hpre
    | [_, _], _, hpre => simp [noSentinel] at hpre
    | [_, _, _], _, hpre => simp [noSentinel] at hpre
    | b0 :: b1 :: b2 :: b3 :: rest, hn, hpre =>
      simp only [noSentinel, Bool.and_eq_true, decide_eq_true_eq] at hpre
      have hl : rest.length ≤ n := by simp only [List.length_cons] at hn; omega
      have := ih rest t hl hpre.2
      simp only [List.cons_append, List.append_assoc, List.append_eq, scanToSentinel, hpre.1,
        if_false] at this ⊢
      exact this

theorem scanToSentinel_inv : ∀ (n : Nat) (s rest : Stream), s.length ≤ n →
    scanToSentinel s = (none, rest) →
    ∃ pre, noSentinel pre = true ∧ s = pre ++ sentinelWord ++ rest := by
  intro n
  induction n with
  | zero =>
    intro s rest hn h
    match s, hn with
    | [], _ => simp [scanToSentinel] at h
  | succ n ih =>
    intro s rest hn h
    match s, hn, h with
    | [], _, h => simp [scanToSentinel] at h
    | [_], _, h => simp [scanToSentinel] at h
    | [_, _], _, h => simp [scanToSentinel] at h
    | [_, _, _], _, h => simp [scanToSentinel] at h
    | b0 :: b1 :: b2 :: b3 :: t, hn, h =>
      simp only [scanToSentinel] at h
      by_cases hs : u32 b0 b1 b2 b3 = SENTINEL
      · simp only [hs, if_true, Prod.mk.injEq, true_and] at h
        obtain ⟨e0, e1, e2, e3⟩ := (u32_eq_sentinel b0 b1 b2 b3).mp hs
        refine ⟨[], rfl, ?_⟩
        rw [byte_eq_255 e0, byte_eq_255 e1, byte_eq_255 e2, byte_eq_255 e3, h]
        rfl
      · simp only [hs, if_false] at h
        have hl : t.length ≤ n := by simp only [List.length_cons] at hn; omega
        obtain ⟨pre, hp, ht⟩ := ih t rest hl h
        refine ⟨b0 :: b1 :: b2 :: b3 :: pre, ?_, ?_⟩
        · simp [noSentinel, hs, hp]
        · rw [ht]; simp

theorem scanToSentinel_none_found : ∀ (n : Nat) (pre tail : Stream), pre.length ≤ n →
    noSentinel pre = true → tail.length < 4 →
    ∃ e, isEOF e ∧ scanToSentinel (pre ++ tail) = (some e, []) := by
  intro n
  induction n with
  | zero =>
    intro pre tail hn _ ht
    match pre, hn with
    | [], _ =>
      rcases tail with _ | ⟨x0, _ | ⟨x1, _ | ⟨x2, _ | ⟨x3, p1⟩⟩⟩⟩
      · exact ⟨.EOF, Or.inl rfl, rfl⟩
      · exact ⟨.ErrUnexpectedEOF, Or.inr rfl, rfl⟩
      · exact ⟨.ErrUnexpectedEOF, Or.inr rfl, rfl⟩
      · exact ⟨.ErrUnexpectedEOF, Or.inr rfl, rfl⟩
      · simp only [List.length_cons] at ht; omega
  | succ n ih =>
    intro pre tail hn hpre ht
    match pre, hn, hpre with
    | [], _, _ =>
      rcases tail with _ | ⟨x0, _ | ⟨x1, _ | ⟨x2, _ | ⟨x3, p1⟩⟩⟩⟩
      · exact ⟨.EOF, Or.inl rfl, rfl⟩
      · exact ⟨.ErrUnexpectedEOF, Or.inr rfl, rfl⟩
      · exact ⟨.ErrUnexpectedEOF, Or.inr rfl, rfl⟩
      · exact ⟨.ErrUnexpectedEOF, Or.inr rfl, rfl⟩
      · simp only [List.length_cons] at ht; omega
    | [_], _, hpre => simp [noSentinel] at hpre
    | [_, _], _, hpre => simp [noSentinel] at hpre
    | [_, _, _], _, hpre => simp [noSentinel] at hpre
    | b0 :: b1 :: b2 :: b3 :: rest, hn, hpre =>
      simp only [noSentinel, Bool.and_eq_true, decide_eq_true_eq] at hpre
      have hl : rest.length ≤ n := by simp only [List.length_cons] at hn; omega
      obtain ⟨e, he, hr⟩ := ih rest tail hl hpre.2 ht
      refine ⟨e, he, ?_⟩
      simp only [List.cons_append, List.append_eq, scanToSentinel, hpre.1, if_false]
      exact hr

theorem skipSentinels_run (t : Stream) : ∀ (m n : Nat),
    skipSentinels 0 n (sentinelRun m ++ t) = skipSentinels 0 (n + m) t := by
  intro m
  induction m with
  | zero => intro n; simp [sentinelRun]
  | succ m ih =>
    intro n
    have hn : ¬ ((0 : Int) ≥ ((n + 1 : Nat) : Int)) := by omega
    have := ih (n + 1)
    simp only [sentinelRun, sentinelWord, List.cons_append, List.nil_append, skipSentinels,
      hn, if_false] at this ⊢
    rw [show n + (m + 1) = n + 1 + m by omega]
    simpa using this

theorem skipSentinels_other {t : Stream} (n : Nat) (h : startsWithOther t = true) :
    skipSentinels 0 n t = (none, t) := by
  rcases t with _ | ⟨x0, _ | ⟨x1, _ | ⟨x2, _ | ⟨x3, p1⟩⟩⟩⟩
  · simp [startsWithOther] at h
  · simp [startsWithOther] at h
  · simp [startsWithOther] at h
  · simp [startsWithOther] at h
  · simp only [startsWithOther, Bool.not_eq_true', decide_eq_false_iff_not] at h
    simp only [skipSentinels, h, if_false]

theorem skipSentinels_short {t : Stream} (n : Nat) (h : t.length < 4) :
    skipSentinels 0 n t = (some .EOF, t) := by
  rcases t with _ | ⟨x0, _ | ⟨x1, _ | ⟨x2, _ | ⟨x3, p1⟩⟩⟩⟩
  · rfl
  · rfl
  · rfl
  · rfl
  · simp only [List.length_cons] at h; omega

theorem skipSentinels_inv : ∀ (k : Nat) (n : Nat) (s rest : Stream), s.length ≤ k →
    skipSentinels 0 n s = (none, rest) →
    ∃ m, s = sentinelRun m ++ rest ∧ startsWithOther rest = true := by
  intro k
  induction k with
  | zero =>
    intro n s rest hk h
    match s, hk with
    | [], _ => simp [skipSentinels] at h
  | succ k ih =>
    intro n s rest hk h
    match s, hk, h with
    | [], _, h => simp [skipSentinels] at h
    | [_], _, h => simp [skipSentinels] at h
    | [_, _], _, h => simp [skipSentinels] at h
    | [_, _, _], _, h => simp [skipSentinels] at h
    | b0 :: b1 :: b2 :: b3 :: t, hk, h =>
      have hn : ¬ ((0 : Int) ≥ ((n + 1 : Nat) : Int)) := by omega
      simp only [skipSentinels, hn, if_false] at h
      by_cases hff : b0.val = 0xFF ∧ b1.val = 0xFF ∧ b2.val = 0xFF ∧ b3.val = 0xFF
      · simp only [hff, and_self, if_true] at h
        have hl : t.length ≤ k := by simp only [List.length_cons] at hk; omega
        obtain ⟨m, hm, ho⟩ := ih (n + 1) t rest hl h
        refine ⟨m + 1, ?_, ho⟩
        rw [byte_eq_255 hff.1, byte_eq_255 hff.2.1, byte_eq_255 hff.2.2.1,
          byte_eq_255 hff.2.2.2, hm]
        rfl
      · simp only [hff, if_false, Prod.mk.injEq, true_and] at h
        refine ⟨0, by simp [sentinelRun, h], ?_⟩
        rw [← h]
        simp [startsWithOther, hff]

theorem readPastSentinel_run (pre t : Stream) (m : Nat) (hpre : noSentinel pre = true) :
    readPastSentinel (pre ++ sentinelRun (m + 1) ++ t) 0 = skipSentinels 0 (m + 1) t := by
  have h1 : pre ++ sentinelRun (m + 1) ++ t = pre ++ sentinelWord ++ (sentinelRun m ++ t) := by
    simp [sentinelRun, List.append_assoc]
  rw [h1]
  unfold readPastSentinel
  rw [scanToSentinel_run pre.length pre _ (Nat.le_refl _) hpre]
  simp only [if_true]
  rw [skipSentinels_run t m 1, Nat.add_comm]

/-- C13: `readPastSentinel` with count 0 succeeds, leaving the stream `rest`,
exactly when the stream is a sequence of whole words none of which is
`0xFFFFFFFF`, followed by one or more words `0xFFFFFFFF`, followed by `rest`,
and `rest` holds at least four bytes that are not `FF FF FF FF`: it consumes
the words up to and including the first sentinel and every directly following
sentinel, and nothing else. When the stream ends before a word `0xFFFFFFFF`
has been read, it returns an end-of-stream error. -/
theorem C13_readPastSentinel_count_zero (s rest : Stream) :
    (readPastSentinel s 0 = (none, rest) ↔
      ∃ pre m, noSentinel pre = true ∧ s = pre ++ sentinelRun (m + 1) ++ rest ∧
        startsWithOther rest = true) ∧
    (∀ pre tail, noSentinel pre = true → tail.length < 4 →
      ∃ e, isEOF e ∧ readPastSentinel (pre ++ tail) 0 = (some e, [])) := by
  refine ⟨⟨?_, ?_⟩, ?_⟩
  · intro h
    unfold readPastSentinel at h
    cases hs : scanToSentinel s with
    | mk e s1 =>
      rw [hs] at h
      cases e with
      | some e => simp at h
      | none =>
        simp only [if_true] at h
        obtain ⟨pre, hpre, hs1⟩ := scanToSentinel_inv s.length s s1 (Nat.le_refl _) hs
        obtain ⟨m, hm, ho⟩ := skipSentinels_inv s1.length 1 s1 rest (Nat.le_refl _) h
        refine ⟨pre, m, hpre, ?_, ho⟩
        rw [hs1, hm]
        simp [sentinelRun, List.append_assoc]
  · rintro ⟨pre, m, hpre, hs, ho⟩
    rw [hs, readPastSentinel_run pre rest m hpre, skipSentinels_other _ ho]
  · intro pre tail hpre ht
    obtain ⟨e, he, hr⟩ := scanToSentinel_none_found pre.length pre tail (Nat.le_refl _) hpre ht
    refine ⟨e, he, ?_⟩
    unfold readPastSentinel
    rw [hr]

/-- Witness for C13: one other word, two sentinels, and a following word that
is left in the stream. -/
theorem C13_readPastSentinel_count_zero_witness :
    readPastSentinel (le32 7 ++ sentinelRun 2 ++ le32 5) 0 = (none, le32 5) :=
  (C13_readPastSentinel_count_zero (le32 7 ++ sentinelRun 2 ++ le32 5) (le32 5)).1.mpr
    ⟨le32 7, 1, by decide, by decide, by decide⟩

/-! ## The error of readPastSentinel at the end of the stream -/

/-- C20: when fewer than four bytes are left after the run of `0xFFFFFFFF`
words, `readPastSentinel` with count 0 returns `io.EOF` although it has found
and consumed the sentinels. `readTag` does not look at that error: after a
namespace declaration it goes on to read the next header, and after the fixed
words of a record it returns the tag whenever the name index is valid.
`DecompressXML` returns the error of the call that follows the string pool, so
an input that ends right after that sentinel run is not decoded. -/
theorem C20_sentinel_run_at_end :
    (∀ (pre tail : Stream) (m : Nat), noSentinel pre = true → tail.length < 4 →
      readPastSentinel (pre ++ sentinelRun (m + 1) ++ tail) 0 = (some .EOF, tail)) ∧
    (∀ (strings : List GoString) (fuel : Nat) (nsmap : NsMap) (xmlns : List Attr)
      (s s1 s2 : Stream) (name flags : Nat),
      readU32 s = .ok (name, s1) → readU32 s1 = .ok (flags, s2) →
      isNsDecl strings name flags = true →
      readTagLoop strings (fuel + 1) nsmap xmlns s =
        readTagLoop strings fuel (mapInsert nsmap flags name)
          (xmlns ++ [xmlnsAttr strings name flags]) (readPastSentinel s2 0).2) ∧
    (∀ (strings : List GoString) (nsmap : NsMap) (xmlns : List Attr) (name flags : Nat)
      (s s1 : Stream) (attrs : List Attr) (nameStr : GoString),
      readFixed strings nsmap xmlns flags s = .ok (attrs, s1) →
      index strings name = .ok nameStr →
      readRecord strings nsmap xmlns name flags s =
        .ok (Tag.mk nameStr flags attrs [], nsmap, (readPastSentinel s1 0).2)) ∧
    (∀ (r : Stream) (strings : List GoString) (pos : Nat) (s1 s2 : Stream) (e : GoError),
      readStringPool r = .ok (strings, pos, s1) → skipBytes (pos % 4) s1 = .ok s2 →
      (readPastSentinel s2 0).1 = some e → DecompressXML r = .error e) ∧
    (∀ (r : Stream) (strings : List GoString) (pos : Nat) (s1 pre tail : Stream) (m : Nat),
      readStringPool r = .ok (strings, pos, s1) →
      skipBytes (pos % 4) s1 = .ok (pre ++ sentinelRun (m + 1) ++ tail) →
      noSentinel pre = true → tail.length < 4 → DecompressXML r = .error .EOF) := by
  have h1 : ∀ (pre tail : Stream) (m : Nat), noSentinel pre = true → tail.length < 4 →
      readPastSentinel (pre ++ sentinelRun (m + 1) ++ tail) 0 = (some .EOF, tail) := by
    intro pre tail m hpre ht
    rw [readPastSentinel_run pre tail m hpre, skipSentinels_short _ ht]
  have h4 : ∀ (r : Stream) (strings : List GoString) (pos : Nat) (s1 s2 : Stream)
      (e : GoError),
      readStringPool r = .ok (strings, pos, s1) → skipBytes (pos % 4) s1 = .ok s2 →
      (readPastSentinel s2 0).1 = some e → DecompressXML r = .error e := by
    intro r strings pos s1 s2 e hp hs he
    have hsk : skipToMeat pos s1 = .error e := by
      unfold skipToMeat
      rw [hs]
      cases hr : readPastSentinel s2 0 with
      | mk a b =>
        rw [hr] at he
        simp only at he
        subst he
        simp only [hr]
    simp only [DecompressXML, hp, hsk]
  refine ⟨h1, ?_, ?_, h4, ?_⟩
  · intro strings fuel nsmap xmlns s s1 s2 name flags hn hf hd
    simp only [readTagLoop, hn, hf, hd, if_true]
  · intro strings nsmap xmlns name flags s s1 attrs nameStr hfix hidx
    simp only [readRecord, hfix, finishTag, hidx]
  · intro r strings pos s1 pre tail m hp hs hpre ht
    exact h4 r strings pos s1 _ .EOF hp hs (by rw [h1 pre tail m hpre ht])

/-- Witness for C20: `c20Input` ends right after the sentinel that follows the
string pool and is not decoded. -/
theorem C20_sentinel_run_at_end_witness : DecompressXML c20Input = .error .EOF :=
  C20_sentinel_run_at_end.2.2.2.2 c20Input [str "a"] 46 ([0, 0] ++ le32 0xFFFFFFFF)
    [] [] 0 (by decide) (by decide) (by decide) (by decide)

/-! ## The attribute list of a tag -/

/-- The attributes decoded by the loop of lines 279-311 are appended to
`xmlns`, one per iteration; the `i`-th is decoded from the words at bytes
`20 * i`, `20 * i + 4` and `20 * i + 8` of the stream. -/
theorem readAttrs_entries (strings : List GoString) (nsmap : NsMap) :
    ∀ (k : Nat) (xmlns : List Attr) (s : Stream) (out : List Attr) (rest : Stream),
    readAttrs strings nsmap k xmlns s = .ok (out, rest) →
    ∃ dec, out = xmlns ++ dec ∧ dec.length = k ∧
      ∀ i, i < k → ∃ wns wname wvalue,
        readU32 (s.drop (20 * i)) = .ok (wns, s.drop (20 * i + 4)) ∧
        readU32 (s.drop (20 * i + 4)) = .ok (wname, s.drop (20 * i + 8)) ∧
        readU32 (s.drop (20 * i + 8)) = .ok (wvalue, s.drop (20 * i + 12)) ∧
        wname < strings.length ∧ remapValue strings.length wvalue < strings.length ∧
        (wns ≠ 0xFFFFFFFF → nsLookup nsmap wns < strings.length) ∧
        dec.get? i = some (decodeAttr strings nsmap wns wname wvalue) := by
  intro k
  induction k with
  | zero =>
    intro xmlns s out rest h
    simp only [readAttrs, Result.ok.injEq, Prod.mk.injEq] at h
    exact ⟨[], by simp [h.1], rfl, fun i hi => absurd hi (Nat.not_lt_zero i)⟩
  | succ k ih =>
    intro xmlns s out rest h
    simp only [readAttrs] at h
    split at h <;> try (exact Result.noConfusion h)
    next ns s1 h1 =>
    split at h <;> try (exact Result.noConfusion h)
    next attr s2 h2 =>
    split at h <;> try (exact Result.noConfusion h)
    next value s3 h3 =>
    split at h <;> try (exact Result.noConfusion h)
    next fl s4 h4 =>
    split at h <;> try (exact Result.noConfusion h)
    next nameStr hi1 =>
    split at h <;> try (exact Result.noConfusion h)
    next valueStr hi2 =>
    split at h <;> try (exact Result.noConfusion h)
    next nsStr hi3 =>
    split at h <;> try (exact Result.noConfusion h)
    next pad s5 h5 =>
    obtain ⟨dec, hout, hdlen, hvals⟩ := ih _ _ _ _ h
    have d1 := readU32_drop h1
    have d2 := readU32_drop h2
    have d3 := readU32_drop h3
    have d4 := readU32_drop h4
    have d5 := readU32_drop h5
    obtain ⟨hn1, hn2⟩ := index_ok_inv hi1
    obtain ⟨hv1, hv2⟩ := index_ok_inv hi2
    have hnsA : (ns ≠ 0xFFFFFFFF → nsLookup nsmap ns < strings.length) ∧
        nsStr = (if ns = 0xFFFFFFFF then none
                 else some (strings.getD (nsLookup nsmap ns) [])) := by
      by_cases hne : ns = 0xFFFFFFFF
      · simp only [hne, ne_eq, not_true_eq_false, if_false, Result.ok.injEq] at hi3
        simp [hne, hi3]
      · simp only [ne_eq, hne, not_false_eq_true, if_true] at hi3
        cases hx : index strings (nsLookup nsmap ns) with
        | ok x =>
          rw [hx] at hi3
          simp only [Result.map, Result.bind, Result.ok.injEq] at hi3
          obtain ⟨hl1, hl2⟩ := index_ok_inv hx
          simp [hne, hl1, ← hi3, hl2]
        | error e => rw [hx] at hi3; simp [Result.map, Result.bind] at hi3
        | panic => rw [hx] at hi3; simp [Result.map, Result.bind] at hi3
        | outOfFuel => rw [hx] at hi3; simp [Result.map, Result.bind] at hi3
    refine ⟨{ ns := nsStr, name := nameStr, value := valueStr } :: dec, ?_, ?_, ?_⟩
    · rw [hout]; simp
    · simp [hdlen]
    · intro i hi
      cases i with
      | zero =>
        have e1 : s1 = s.drop 4 := d1
        have e2 : s2 = s.drop 8 := by rw [d2, d1, List.drop_drop]
        have e3 : s3 = s.drop 12 := by rw [d3, e2, List.drop_drop]
        refine ⟨ns, attr, value, ?_, ?_, ?_, hn1, hv1, hnsA.1, ?_⟩
        · rw [← e1]; simpa using h1
        · rw [← e1, ← e2]; simpa using h2
        · rw [← e2, ← e3]; simpa using h3
        · simp [decodeAttr, hn2, hv2, hnsA.2]
      | succ j =>
        obtain ⟨wns, wname, wvalue, hw1, hw2, hw3, hw4, hw5, hw6, hw7⟩ := hvals j (by omega)
        have e5 : s5 = s.drop 20 := by
          rw [d5, d4, d3, d2, d1]
          simp only [List.drop_drop]
        rw [e5] at hw1 hw2 hw3
        simp only [List.drop_drop] at hw1 hw2 hw3
        have a0 : 20 + 20 * j = 20 * (j + 1) := by omega
        have a1 : 20 + (20 * j + 4) = 20 * (j + 1) + 4 := by omega
        have a2 : 20 + (20 * j + 8) = 20 * (j + 1) + 8 := by omega
        have a3 : 20 + (20 * j + 12) = 20 * (j + 1) + 12 := by omega
        rw [a0, a1] at hw1
        rw [a1, a2] at hw2
        rw [a2, a3] at hw3
        exact ⟨wns, wname, wvalue, hw1, hw2, hw3, hw4, hw5, hw6, by simpa using hw7⟩

/-- A successful run of `readTagLoop` is the registration of the declarations
found by `readDecls`, followed by the record read under the grown map and
attribute list. -/
theorem readTagLoop_decls (strings : List GoString) :
    ∀ (fuel : Nat) (nsmap : NsMap) (xmlns : List Attr) (s : Stream)
      (tag : Tag) (nsmap1 : NsMap) (rest : Stream),
    readTagLoop strings fuel nsmap xmlns s = .ok (tag, nsmap1, rest) →
    nsmap1 = register nsmap (readDecls strings fuel s).1 ∧
    ∃ name flags t1 t2,
      readU32 (readDecls strings fuel s).2 = .ok (name, t1) ∧
      readU32 t1 = .ok (flags, t2) ∧ isNsDecl strings name flags = false ∧
      readRecord strings nsmap1
        (xmlns ++ (readDecls strings fuel s).1.map (fun d => xmlnsAttr strings d.1 d.2))
        name flags t2 = .ok (tag, nsmap1, rest) := by
  intro fuel
  induction fuel with
  | zero =>
    intro nsmap xmlns s tag nsmap1 rest h
    simp [readTagLoop] at h
  | succ fuel ih =>
    intro nsmap xmlns s tag nsmap1 rest h
    simp only [readTagLoop] at h
    split at h <;> try (exact Result.noConfusion h)
    next name s1 h1 =>
    split at h <;> try (exact Result.noConfusion h)
    next flags s2 h2 =>
    by_cases hd : isNsDecl strings name flags = true
    · simp only [hd, if_true] at h
      obtain ⟨hm, nm, fl, t1, t2, hr1, hr2, hnd, hrec⟩ := ih _ _ _ _ _ _ h
      simp only [readDecls, h1, h2, hd, if_true, register, List.map_cons]
      refine ⟨hm, nm, fl, t1, t2, hr1, hr2, hnd, ?_⟩
      simpa [List.append_assoc] using hrec
    · have hd1 : isNsDecl strings name flags = false := by simpa using hd
      simp only [hd1, Bool.false_eq_true, if_false] at h
      have hm : nsmap1 = nsmap := (readRecord_ok h).2.2.2
      subst hm
      simp only [readDecls, h1, h2, hd1, Bool.false_eq_true, if_false, register, List.map_nil,
        List.append_nil]
      exact ⟨trivial, name, flags, s1, s2, rfl, by rw [h2], hd1, h⟩

theorem readRecord_inv {strings : List GoString} {nsmap : NsMap} {xmlns : List Attr}
    {name flags : Nat} {s : Stream} {tag : Tag} {nsmap1 : NsMap} {rest : Stream}
    (h : readRecord strings nsmap xmlns name flags s = .ok (tag, nsmap1, rest)) :
    ∃ s1, readFixed strings nsmap xmlns flags s = .ok (tag.attrs, s1) ∧
      tag.flags = flags ∧ index strings name = .ok tag.name ∧
      rest = (readPastSentinel s1 0).2 := by
  unfold readRecord at h
  split at h <;> try (exact Result.noConfusion h)
  next attrs s1 hfix =>
  split at h <;> try (exact Result.noConfusion h)
  next tag1 s2 hfin =>
  simp only [Result.ok.injEq, Prod.mk.injEq] at h
  obtain ⟨ht, _, hs⟩ := h
  subst ht; subst hs
  obtain ⟨hr, hf, hattrs, _, hidx⟩ := finishTag_ok hfin
  exact ⟨s1, by rw [hattrs]; exact hfix, hf, hidx, hr⟩

/-- C11: the attribute list of the tag returned by `readTag` is the `xmlns:`
attributes of the namespace declarations recognised while reading the record,
in the order in which they were read, followed by the ordinary attributes;
for a record with OPEN and SUPPORTS_CHILDREN set and attribute count `k` the
ordinary part has `k` entries, the `i`-th decoded from the namespace, name and
value words of the five words that start at byte `20 * i` after the count and
the word that follows it, and for any other record the ordinary part is
empty. -/
theorem C11_attribute_list (strings : List GoString) (nsmap : NsMap) (s : Stream)
    (tag : Tag) (nsmap1 : NsMap) (rest : Stream)
    (h : readTag strings nsmap s = .ok (tag, nsmap1, rest)) :
    ∃ ordinary name t1 t2,
      tag.attrs =
        (readDecls strings (s.length + 1) s).1.map (fun d => xmlnsAttr strings d.1 d.2) ++
          ordinary ∧
      readU32 (readDecls strings (s.length + 1) s).2 = .ok (name, t1) ∧
      readU32 t1 = .ok (tag.flags, t2) ∧ isNsDecl strings name tag.flags = false ∧
      ((hasFlag tag.flags TAG_SUPPORTS_CHILDREN && hasFlag tag.flags TAG_OPEN) = true →
        ∃ k t3 u t4, readU32 t2 = .ok (k, t3) ∧ readU32 t3 = .ok (u, t4) ∧
          ordinary.length = k ∧
          ∀ i, i < k → ∃ wns wname wvalue,
            readU32 (t4.drop (20 * i)) = .ok (wns, t4.drop (20 * i + 4)) ∧
            readU32 (t4.drop (20 * i + 4)) = .ok (wname, t4.drop (20 * i + 8)) ∧
            readU32 (t4.drop (20 * i + 8)) = .ok (wvalue, t4.drop (20 * i + 12)) ∧
            ordinary.get? i = some (decodeAttr strings nsmap1 wns wname wvalue)) ∧
      ((hasFlag tag.flags TAG_SUPPORTS_CHILDREN && hasFlag tag.flags TAG_OPEN) = false →
        ordinary = []) := by
  obtain ⟨_, name, flags, t1, t2, hr1, hr2, hnd, hrec⟩ :=
    readTagLoop_decls strings (s.length + 1) nsmap [] s tag nsmap1 rest h
  obtain ⟨s1, hfix, hflags, _, _⟩ := readRecord_inv hrec
  subst hflags
  simp only [List.nil_append] at hfix
  by_cases hc : (hasFlag tag.flags TAG_SUPPORTS_CHILDREN && hasFlag tag.flags TAG_OPEN) = true
  · unfold readFixed at hfix
    rw [if_pos hc] at hfix
    split at hfix <;> try (exact Result.noConfusion hfix)
    next k t3 h3 =>
    split at hfix <;> try (exact Result.noConfusion hfix)
    next u t4 h4 =>
    obtain ⟨dec, hout, hlen, hent⟩ := readAttrs_entries strings nsmap1 k _ t4 _ s1 hfix
    refine ⟨dec, name, t1, t2, hout, hr1, hr2, hnd, ?_, ?_⟩
    · intro _
      refine ⟨k, t3, u, t4, h3, h4, hlen, ?_⟩
      intro i hi
      obtain ⟨wns, wname, wvalue, a1, a2, a3, _, _, _, a7⟩ := hent i hi
      exact ⟨wns, wname, wvalue, a1, a2, a3, a7⟩
    · intro hf
      rw [hc] at hf
      exact Bool.noConfusion hf
  · have hc1 : (hasFlag tag.flags TAG_SUPPORTS_CHILDREN && hasFlag tag.flags TAG_OPEN) = false := by
      simpa using hc
    unfold readFixed at hfix
    rw [if_neg hc] at hfix
    split at hfix <;> try (exact Result.noConfusion hfix)
    next k t3 h3 =>
    split at hfix <;> try (exact Result.noConfusion hfix)
    next u t4 h4 =>
    simp only [Result.ok.injEq, Prod.mk.injEq] at hfix
    refine ⟨[], name, t1, t2, by rw [List.append_nil]; exact hfix.1.symm, hr1, hr2, hnd, ?_, ?_⟩
    · intro ht
      rw [hc1] at ht
      exact Bool.noConfusion ht
    · intro _; rfl

/-- Witness for C11: one declaration and two ordinary attributes. -/
theorem C11_attribute_list_witness :
    ∃ ordinary,
      [{ ns := none, name := str "xmlns:android",
         value := str "http://schemas.android.com/apk/res/android" },
       { ns := some (str "android"), name := str "versionCode", value := str "1" },
       { ns := none, name := str "versionCode", value := str "1" }] =
        (readDecls nsPool (c11Stream.length + 1) c11Stream).1.map
          (fun d => xmlnsAttr nsPool d.1 d.2) ++ ordinary ∧
      ordinary.length = 2 := by
  obtain ⟨ordinary, _, _, t2, h1, _, hf, _, h2, _⟩ :=
    C11_attribute_list nsPool [] c11Stream
      (Tag.mk (str "manifest") 0x100010
        [{ ns := none, name := str "xmlns:android",
           value := str "http://schemas.android.com/apk/res/android" },
         { ns := some (str "android"), name := str "versionCode", value := str "1" },
         { ns := none, name := str "versionCode", value := str "1" }] [])
      [(1, 0)] [] (by rfl)
  obtain ⟨k, _, _, _, hk, _, hlen, _⟩ := h2 (by decide)
  have hd : (readDecls nsPool (c11Stream.length + 1) c11Stream).2 =
      (le32 2 ++ le32 0x100010 ++ le32 2 ++ le32 0 ++
        (le32 1 ++ le32 3 ++ le32 4 ++ le32 0 ++ le32 0) ++
        (le32 0xFFFFFFFF ++ le32 3 ++ le32 0xFFFFFFFF ++ le32 0 ++ le32 0) ++
        le32 0xFFFFFFFF) := by decide
  refine ⟨ordinary, h1, ?_⟩
  have h1len := congrArg List.length h1
  have hdl : ((readDecls nsPool (c11Stream.length + 1) c11Stream).1.map
      (fun d => xmlnsAttr nsPool d.1 d.2)).length = 1 := by decide
  simp only [Tag.attrs, List.length_cons, List.length_nil, List.length_append, hdl] at h1len
  omega

/-! ## The namespace map -/

theorem mapLookup_mapInsert_self {β : Type} (m : List (Nat × β)) (k : Nat) (v : β) :
    mapLookup (mapInsert m k v) k = some v := by
  simp [mapLookup, mapInsert]

theorem mapLookup_mapInsert_ne {β : Type} (m : List (Nat × β)) (k u : Nat) (v : β)
    (h : k ≠ u) : mapLookup (mapInsert m k v) u = mapLookup m u := by
  have hku : (k == u) = false := by simpa using h
  simp only [mapLookup, mapInsert, List.find?_cons, hku, List.find?_filter]
  congr 1
  congr 1
  funext a
  by_cases ha : a.1 = u
  · have : a.1 ≠ k := by rw [ha]; exact fun hh => h hh.symm
    simp [ha, h, this]
    rw [← ha]; exact this
  · simp [ha]

theorem mapLookup_register : ∀ (ds : List (Nat × Nat)) (nsmap : NsMap) (u : Nat),
    mapLookup (register nsmap ds) u =
      match lastDecl ds u with
      | some p => some p
      | none => mapLookup nsmap u := by
  intro ds
  induction ds with
  | nil => intro nsmap u; rfl
  | cons d ds ih =>
    intro nsmap u
    simp only [register, lastDecl]
    rw [ih]
    cases hl : lastDecl ds u with
    | some p => rfl
    | none =>
      simp only
      by_cases hd : d.2 = u
      · rw [if_pos hd, ← hd, mapLookup_mapInsert_self]
      · rw [if_neg hd, mapLookup_mapInsert_ne _ _ _ _ hd]

theorem register_append : ∀ (a b : List (Nat × Nat)) (nsmap : NsMap),
    register nsmap (a ++ b) = register (register nsmap a) b := by
  intro a
  induction a with
  | nil => intro b nsmap; rfl
  | cons d a ih => intro b nsmap; simp only [List.cons_append, List.append_eq, register, ih]

theorem register_keeps_keys (nsmap : NsMap) (ds : List (Nat × Nat)) (u : Nat)
    (h : (mapLookup nsmap u).isSome = true) :
    (mapLookup (register nsmap ds) u).isSome = true := by
  rw [mapLookup_register]
  cases lastDecl ds u with
  | some p => rfl
  | none => exact h

theorem readChildren_registers {strings : List GoString} {stoptag : GoString}
    {nsmap : NsMap} {s : Stream} {children : List Tag} {nsmap1 : NsMap} {s1 : Stream}
    (h : LevelRecords strings stoptag nsmap s children nsmap1 s1) :
    ∃ ds, nsmap1 = register nsmap ds := by
  induction h with
  | close htag _ _ _ =>
    exact ⟨_, (readTagLoop_decls strings _ _ _ _ _ _ _ htag).1⟩
  | container htag _ _ _ _ ih1 ih2 =>
    obtain ⟨d1, h1⟩ := ih1
    obtain ⟨d2, h2⟩ := ih2
    have h0 := (readTagLoop_decls strings _ _ _ _ _ _ _ htag).1
    exact ⟨_ ++ d1 ++ d2, by rw [register_append, register_append, ← h0, ← h1, ← h2]⟩
  | leaf htag _ _ ih =>
    obtain ⟨d1, h1⟩ := ih
    have h0 := (readTagLoop_decls strings _ _ _ _ _ _ _ htag).1
    exact ⟨_ ++ d1, by rw [register_append, ← h0, ← h1]⟩

/-- C12: an attribute of a container-open record whose namespace word is
`0xFFFFFFFF` has no prefix, and one whose namespace word `u` is a key of the
namespace map with value `p` has the prefix `pool[p]`. The map under which the
attributes of a record are decoded is the map handed to `readTag` with the
declarations of this record registered in order, so that the value for `u` is
the prefix index of the most recent declaration for `u`, or the earlier value
when there is none. The map that `readTag` and `readChildren` hand on is the
map they were given with declarations registered: no key is ever removed, and
a declaration made in any earlier record, at any depth, is in force. -/
theorem C12_namespace_prefix (strings : List GoString) :
    (∀ (nsmap : NsMap) (k : Nat) (xmlns : List Attr) (s : Stream) (out : List Attr)
      (rest : Stream),
      readAttrs strings nsmap k xmlns s = .ok (out, rest) →
      ∃ dec, out = xmlns ++ dec ∧ dec.length = k ∧
        ∀ i, i < k → ∃ wns, readU32 (s.drop (20 * i)) = .ok (wns, s.drop (20 * i + 4)) ∧
          (wns = 0xFFFFFFFF → (dec.get? i).map Attr.ns = some none) ∧
          (∀ p, wns ≠ 0xFFFFFFFF → mapLookup nsmap wns = some p →
            p < strings.length ∧
            (dec.get? i).map Attr.ns = some (some (strings.getD p [])))) ∧
    (∀ (nsmap : NsMap) (s : Stream) (tag : Tag) (nsmap1 : NsMap) (rest : Stream),
      readTag strings nsmap s = .ok (tag, nsmap1, rest) →
      nsmap1 = register nsmap (readDecls strings (s.length + 1) s).1 ∧
      (∀ u, (mapLookup nsmap u).isSome = true → (mapLookup nsmap1 u).isSome = true) ∧
      ∃ name flags t1 t2,
        readU32 (readDecls strings (s.length + 1) s).2 = .ok (name, t1) ∧
        readU32 t1 = .ok (flags, t2) ∧
        readRecord strings nsmap1
          ((readDecls strings (s.length + 1) s).1.map (fun d => xmlnsAttr strings d.1 d.2))
          name flags t2 = .ok (tag, nsmap1, rest)) ∧
    (∀ (fuel : Nat) (nsmap : NsMap) (stoptag : GoString) (s : Stream) (children : List Tag)
      (nsmap1 : NsMap) (s1 : Stream),
      readChildren strings fuel nsmap stoptag s = .ok (children, nsmap1, s1) →
      (∃ ds, nsmap1 = register nsmap ds) ∧
      ∀ u, (mapLookup nsmap u).isSome = true → (mapLookup nsmap1 u).isSome = true) ∧
    (∀ (nsmap : NsMap) (ds : List (Nat × Nat)) (u : Nat),
      mapLookup (register nsmap ds) u =
        match lastDecl ds u with
        | some p => some p
        | none => mapLookup nsmap u) := by
  refine ⟨?_, ?_, ?_, fun nsmap ds u => mapLookup_register ds nsmap u⟩
  · intro nsmap k xmlns s out rest h
    obtain ⟨dec, h1, h2, h3⟩ := readAttrs_entries strings nsmap k xmlns s out rest h
    refine ⟨dec, h1, h2, ?_⟩
    intro i hi
    obtain ⟨wns, wname, wvalue, a1, _, _, _, _, a6, a7⟩ := h3 i hi
    refine ⟨wns, a1, ?_, ?_⟩
    · intro hw
      rw [a7]
      simp [decodeAttr, hw]
    · intro p hne hp
      have hl : nsLookup nsmap wns = p := by simp [nsLookup, hp]
      have := a6 hne
      rw [hl] at this
      refine ⟨this, ?_⟩
      rw [a7]
      simp [decodeAttr, hne, hl]
  · intro nsmap s tag nsmap1 rest h
    obtain ⟨hm, name, flags, t1, t2, hr1, hr2, _, hrec⟩ :=
      readTagLoop_decls strings (s.length + 1) nsmap [] s tag nsmap1 rest h
    refine ⟨hm, ?_, name, flags, t1, t2, hr1, hr2, by simpa using hrec⟩
    intro u hu
    rw [hm]
    exact register_keeps_keys nsmap _ u hu
  · intro fuel nsmap stoptag s children nsmap1 s1 h
    obtain ⟨ds, hds⟩ := readChildren_registers (readChildren_sound strings fuel _ _ _ _ _ _ h)
    refine ⟨⟨ds, hds⟩, ?_⟩
    intro u hu
    rw [hds]
    exact register_keeps_keys nsmap ds u hu

/-- Witness for C12: the declaration made in front of the child `b` gives the
prefix `android` to an attribute of a later record that lies outside of that
child. -/
theorem C12_namespace_prefix_witness :
    readRoot c12Pool c12Stream =
      .ok (Tag.mk (str "manifest") 0x100010 []
        [Tag.mk (str "b") 0x100010
           [{ ns := none, name := str "xmlns:android",
              value := str "http://schemas.android.com/apk/res/android" }] [],
         Tag.mk (str "b") 0x100010
           [{ ns := some (str "android"), name := str "versionCode", value := str "1" }] []]) ∧
    mapLookup (register [] [(0, 1)]) 1 = some 0 :=
  ⟨by rfl, by rw [( C12_namespace_prefix c12Pool).2.2.2 [] [(0, 1)] 1]; rfl⟩

/-! ## Attributes in an unregistered namespace -/

/-- C19: for a non-empty pool, an attribute record whose namespace word `u` is
not `0xFFFFFFFF` and is no key of the namespace map is decoded, when its name
and value indices are valid, without error and with the prefix `pool[0]`,
whatever the value of `u`; and whenever the attribute loop succeeds, every
attribute with such a namespace word has the prefix `pool[0]`. -/
theorem C19_unregistered_namespace (strings : List GoString) (nsmap : NsMap)
    (hne : strings ≠ []) :
    (∀ (k : Nat) (xmlns : List Attr) (s s1 s2 s3 s4 s5 : Stream) (u attr value fl pad : Nat),
      readU32 s = .ok (u, s1) → readU32 s1 = .ok (attr, s2) →
      readU32 s2 = .ok (value, s3) → readU32 s3 = .ok (fl, s4) →
      readU32 s4 = .ok (pad, s5) →
      u ≠ 0xFFFFFFFF → mapLookup nsmap u = none →
      attr < strings.length → remapValue strings.length value < strings.length →
      readAttrs strings nsmap (k + 1) xmlns s =
        readAttrs strings nsmap k
          (xmlns ++ [{ ns := some (strings.getD 0 []), name := strings.getD attr [],
                       value := strings.getD (remapValue strings.length value) [] }]) s5) ∧
    (∀ (k : Nat) (xmlns : List Attr) (s : Stream) (out : List Attr) (rest : Stream),
      readAttrs strings nsmap k xmlns s = .ok (out, rest) →
      ∃ dec, out = xmlns ++ dec ∧ dec.length = k ∧
        ∀ i, i < k → ∃ u, readU32 (s.drop (20 * i)) = .ok (u, s.drop (20 * i + 4)) ∧
          (u ≠ 0xFFFFFFFF → mapLookup nsmap u = none →
            (dec.get? i).map Attr.ns = some (some (strings.getD 0 [])))) := by
  have hpos : 0 < strings.length := List.length_pos.mpr hne
  constructor
  · intro k xmlns s s1 s2 s3 s4 s5 u attr value fl pad h1 h2 h3 h4 h5 hu hmiss hattr hval
    have hl : nsLookup nsmap u = 0 := by simp [nsLookup, hmiss]
    simp [readAttrs, h1, h2, h3, h4, h5, index_ok hattr, index_ok hval, hu, hl, index_ok hpos,
      Result.map, Result.bind]
  · intro k xmlns s out rest h
    obtain ⟨dec, h1, h2, h3⟩ := readAttrs_entries strings nsmap k xmlns s out rest h
    refine ⟨dec, h1, h2, ?_⟩
    intro i hi
    obtain ⟨wns, wname, wvalue, a1, _, _, _, _, _, a7⟩ := h3 i hi
    refine ⟨wns, a1, ?_⟩
    intro hu hmiss
    have hl : nsLookup nsmap wns = 0 := by simp [nsLookup, hmiss]
    rw [a7]
    simp [decodeAttr, hu, hl]

/-- Witness for C19: with the pool `["a", "b"]` and an empty namespace map, an
attribute whose namespace word is 7, outside the pool, gets the prefix `"a"`. -/
theorem C19_unregistered_namespace_witness :
    readAttrs [str "a", str "b"] [] 1 []
        (le32 7 ++ le32 1 ++ le32 1 ++ le32 0 ++ le32 0) =
      readAttrs [str "a", str "b"] [] 0
        ([] ++ [{ ns := some ([str "a", str "b"].getD 0 []),
                  name := [str "a", str "b"].getD 1 [],
                  value := [str "a", str "b"].getD (remapValue [str "a", str "b"].length 1) [] }])
        [] :=
  (C19_unregistered_namespace [str "a", str "b"] [] (by decide)).1 0 []
    (le32 7 ++ le32 1 ++ le32 1 ++ le32 0 ++ le32 0) (le32 1 ++ le32 1 ++ le32 0 ++ le32 0)
    (le32 1 ++ le32 0 ++ le32 0) (le32 0 ++ le32 0) (le32 0) [] 7 1 1 0 0
    (by decide) (by decide) (by decide) (by decide) (by decide) (by decide) (by decide)
    (by decide) (by decide)

/-! ## Bytes consumed by the string pool -/

theorem readWords_consumed : ∀ (n : Nat) (s : Stream) (ws : List Nat) (rest : Stream),
    readWords n s = .ok (ws, rest) → s.length = rest.length + 4 * n := by
  intro n
  induction n with
  | zero =>
    intro s ws rest h
    simp only [readWords, Result.ok.injEq, Prod.mk.injEq] at h
    rw [h.2]; rfl
  | succ n ih =>
    intro s ws rest h
    simp only [readWords] at h
    split at h <;> try (exact Result.noConfusion h)
    next v s1 h1 =>
    split at h <;> try (exact Result.noConfusion h)
    next vs s2 h2 =>
    simp only [Result.ok.injEq, Prod.mk.injEq] at h
    have l1 := readU32_length h1
    have l2 := ih _ _ _ h2
    rw [← h.2]
    omega

theorem readU16_length {s : Stream} {v : Nat} {rest : Stream} (h : readU16 s = .ok (v, rest)) :
    s.length = rest.length + 2 ∧ v < 65536 := by
  rcases s with _ | ⟨b0, _ | ⟨b1, t⟩⟩
  · simp [readU16] at h
  · simp [readU16] at h
  · simp only [readU16, Result.ok.injEq, Prod.mk.injEq] at h
    have h0 := b0.isLt
    have h1 := b1.isLt
    obtain ⟨hv, hr⟩ := h
    subst hv; subst hr
    refine ⟨by simp only [List.length_cons], ?_⟩
    unfold u16
    omega

theorem readFull_length {n : Nat} {s : Stream} {buf : List Byte} {rest : Stream}
    (h : readFull n s = .ok (buf, rest)) : s.length = rest.length + n ∧ rest = s.drop n := by
  unfold readFull at h
  split at h
  · next hn =>
    simp only [Result.ok.injEq, Prod.mk.injEq] at h
    rw [← h.2]
    simp only [List.length_drop, and_true]
    omega
  · split at h <;> exact Result.noConfusion h

/-- The loop of lines 88-106 consumes, modulo 4, as many bytes as the tracked
offset advances, and the tracked offset keeps its parity. -/
theorem readStrs_consumed : ∀ (offs : List Nat) (cur : Nat) (strs : List (Nat × GoString))
    (s : Stream) (strs1 : List (Nat × GoString)) (cur1 : Nat) (rest : Stream),
    readStrs offs cur strs s = .ok (strs1, cur1, rest) →
    rest.length ≤ s.length ∧ (cur + (s.length - rest.length)) % 4 = cur1 % 4 ∧
      cur1 % 2 = cur % 2 := by
  intro offs
  induction offs with
  | nil =>
    intro cur strs s strs1 cur1 rest h
    simp only [readStrs, Result.ok.injEq, Prod.mk.injEq] at h
    obtain ⟨_, h2, h3⟩ := h
    subst h2; subst h3
    simp
  | cons o offs ih =>
    intro cur strs s strs1 cur1 rest h
    simp only [readStrs] at h
    split at h
    · exact Result.noConfusion h
    · split at h <;> try (exact Result.noConfusion h)
      next l s1 h1 =>
      split at h <;> try (exact Result.noConfusion h)
      next buf s2 h2 =>
      split at h <;> try (exact Result.noConfusion h)
      next t s3 h3 =>
      obtain ⟨a1, a2, a3⟩ := ih _ _ _ _ _ _ h
      have l1 := (readU16_length h1).1
      have l2 := (readFull_length h2).1
      have l3 := (readU16_length h3).1
      unfold bufLen at l2
      refine ⟨by omega, ?_, by omega⟩
      omega

theorem skipBytes_length : ∀ (n : Nat) (s rest : Stream),
    skipBytes n s = .ok rest → s.length = rest.length + n := by
  intro n
  induction n with
  | zero =>
    intro s rest h
    simp only [skipBytes, Result.ok.injEq] at h
    rw [h]; rfl
  | succ n ih =>
    intro s rest h
    rcases s with _ | ⟨b, t⟩
    · simp [skipBytes, readByte] at h
    · simp only [skipBytes, readByte] at h
      have := ih t rest h
      simp only [List.length_cons]
      omega

theorem readStringPool_inv {r : Stream} {strings : List GoString} {pos : Nat} {rest : Stream}
    (h : readStringPool r = .ok (strings, pos, rest)) :
    ∃ ws s0 stroffs s2 strs curroffs,
      readWords 9 r = .ok (ws, s0) ∧ readWords (ws.getD 4 0) s0 = .ok (stroffs, s2) ∧
      readStrs (sortInts stroffs) 0 [] s2 = .ok (strs, curroffs, rest) ∧
      buildStrings (sortInts stroffs) strs = .ok strings ∧
      pos = 9 * 4 + 4 * (ws.getD 4 0) + curroffs := by
  unfold readStringPool readPreamble at h
  cases hw : readWords 9 r with
  | ok p =>
    obtain ⟨ws, s0⟩ := p
    rw [hw] at h
    simp only at h
    split at h <;> try (exact Result.noConfusion h)
    next stroffs s2 h2 =>
    split at h <;> try (exact Result.noConfusion h)
    next strs curroffs s3 h3 =>
    split at h <;> try (exact Result.noConfusion h)
    next strings1 h4 =>
    simp only [Result.ok.injEq, Prod.mk.injEq] at h
    obtain ⟨e1, e2, e3⟩ := h
    subst e1; subst e3
    exact ⟨ws, s0, stroffs, s2, strs, curroffs, rfl, h2, h3, h4, e2.symm⟩
  | error e => rw [hw] at h; simp at h
  | panic => rw [hw] at h; simp at h
  | outOfFuel => rw [hw] at h; simp at h

/-- C15: when the string pool decodes, the number `pos % 4` of filler bytes
dropped after it is 0 or 2, the number of bytes consumed up to that point is
congruent to it modulo 4, and once the filler bytes are dropped the number of
bytes consumed from the start of the stream is a multiple of 4: the sentinel
scan that follows starts on a 4-byte boundary. -/
theorem C15_pool_alignment (r : Stream) (strings : List GoString) (pos : Nat) (s1 : Stream)
    (h : readStringPool r = .ok (strings, pos, s1)) :
    (pos % 4 = 0 ∨ pos % 4 = 2) ∧ s1.length ≤ r.length ∧
    (r.length - s1.length) % 4 = pos % 4 ∧
    ∀ s2, skipBytes (pos % 4) s1 = .ok s2 →
      s2.length ≤ r.length ∧ r.length - s2.length = (r.length - s1.length) + pos % 4 ∧
      (r.length - s2.length) % 4 = 0 := by
  obtain ⟨ws, s0, stroffs, t2, strs, curroffs, h1, h2, h3, _, hpos⟩ := readStringPool_inv h
  have l1 := readWords_consumed _ _ _ _ h1
  have l2 := readWords_consumed _ _ _ _ h2
  obtain ⟨a1, a2, a3⟩ := readStrs_consumed _ _ _ _ _ _ _ h3
  refine ⟨by omega, by omega, by omega, ?_⟩
  intro s2 hs
  have l4 := skipBytes_length _ _ _ hs
  refine ⟨by omega, by omega, by omega⟩

/-- Witness for C15 at `c1Input`, where two filler bytes are dropped. -/
theorem C15_pool_alignment_witness :
    (58 % 4 = 0 ∨ 58 % 4 = 2) ∧
    ([0, 0] ++ le32 0xFFFFFFFF ++ record 0 0x100010 ++ record 0 0x100000 : Stream).length
      ≤ c1Input.length ∧
    (c1Input.length -
      ([0, 0] ++ le32 0xFFFFFFFF ++ record 0 0x100010 ++ record 0 0x100000 : Stream).length)
      % 4 = 58 % 4 :=
  ⟨(C15_pool_alignment c1Input [str "ab", str "c"] 58
      ([0, 0] ++ le32 0xFFFFFFFF ++ record 0 0x100010 ++ record 0 0x100000) (by decide)).1,
   (C15_pool_alignment c1Input [str "ab", str "c"] 58
      ([0, 0] ++ le32 0xFFFFFFFF ++ record 0 0x100010 ++ record 0 0x100000) (by decide)).2.1,
   (C15_pool_alignment c1Input [str "ab", str "c"] 58
      ([0, 0] ++ le32 0xFFFFFFFF ++ record 0 0x100010 ++ record 0 0x100000) (by decide)).2.2.1⟩

/-! ## Truncated string pool -/

theorem readWords_short : ∀ (n : Nat) (s : Stream), s.length < 4 * n →
    ∃ e, isEOF e ∧ readWords n s = .error e := by
  intro n
  induction n with
  | zero => intro s h; omega
  | succ n ih =>
    intro s h
    by_cases hs : s.length < 4
    · obtain ⟨e, he, hr⟩ := readU32_short hs
      exact ⟨e, he, by simp only [readWords, hr]⟩
    · rcases s with _ | ⟨b0, _ | ⟨b1, _ | ⟨b2, _ | ⟨b3, t⟩⟩⟩⟩
      · simp at hs
      · simp at hs
      · simp at hs
      · simp at hs
      · have ht : t.length < 4 * n := by simp only [List.length_cons] at h; omega
        obtain ⟨e, he, hr⟩ := ih t ht
        exact ⟨e, he, by simp only [readWords, readU32, hr]⟩

/-- Reading words from a prefix of a stream: the same words when the prefix is
long enough, an end-of-stream error otherwise. -/
theorem readWords_prefix : ∀ (n : Nat) (s p : Stream) (ws : List Nat) (rest : Stream),
    readWords n s = .ok (ws, rest) → p <+: s →
    (∃ p1, readWords n p = .ok (ws, p1) ∧ p1 <+: rest ∧
      s.length + p1.length = p.length + rest.length) ∨
    (p.length + rest.length < s.length ∧ ∃ e, isEOF e ∧ readWords n p = .error e) := by
  intro n
  induction n with
  | zero =>
    intro s p ws rest h hp
    simp only [readWords, Result.ok.injEq, Prod.mk.injEq] at h
    obtain ⟨h1, h2⟩ := h
    subst h1; subst h2
    exact Or.inl ⟨p, rfl, hp, by omega⟩
  | succ n ih =>
    intro s p ws rest h hp
    simp only [readWords] at h
    split at h <;> try (exact Result.noConfusion h)
    next v s1 h1 =>
    split at h <;> try (exact Result.noConfusion h)
    next vs s2 h2 =>
    simp only [Result.ok.injEq, Prod.mk.injEq] at h
    obtain ⟨e1, e2⟩ := h
    subst e1; subst e2
    have l1 := readU32_length h1
    have l2 := readWords_consumed _ _ _ _ h2
    rcases readU32_prefix h1 hp with ⟨p1, hq1, hp1, hl1⟩ | ⟨hshort, e, he, hq⟩
    · rcases ih s1 p1 vs s2 h2 hp1 with ⟨p2, hq2, hp2, hl2⟩ | ⟨hlt, e, he, hq⟩
      · exact Or.inl ⟨p2, by simp only [readWords, hq1, hq2], hp2, by omega⟩
      · exact Or.inr ⟨by omega, e, he, by simp only [readWords, hq1, hq]⟩
    · exact Or.inr ⟨by omega, e, he, by simp only [readWords, hq]⟩

theorem readU16_prefix {s p : Stream} {v : Nat} {s1 : Stream}
    (h : readU16 s = .ok (v, s1)) (hp : p <+: s) :
    (∃ p1, readU16 p = .ok (v, p1) ∧ p1 <+: s1 ∧ p.length = p1.length + 2) ∨
    (p.length < 2 ∧ ∃ e, isEOF e ∧ readU16 p = .error e) := by
  rcases s with _ | ⟨b0, _ | ⟨b1, t⟩⟩
  · simp [readU16] at h
  · simp [readU16] at h
  · simp only [readU16, Result.ok.injEq, Prod.mk.injEq] at h
    obtain ⟨hv, ht⟩ := h
    subst hv; subst ht
    rcases p with _ | ⟨x0, _ | ⟨x1, p1⟩⟩
    · exact Or.inr ⟨by simp, .EOF, Or.inl rfl, rfl⟩
    · exact Or.inr ⟨by simp, .ErrUnexpectedEOF, Or.inr rfl, rfl⟩
    · rw [List.cons_prefix_cons] at hp
      obtain ⟨h0, hp⟩ := hp
      rw [List.cons_prefix_cons] at hp
      obtain ⟨h1, hp⟩ := hp
      subst h0; subst h1
      exact Or.inl ⟨p1, rfl, hp, by simp⟩

theorem readFull_prefix {n : Nat} {s p : Stream} {buf : List Byte} {s1 : Stream}
    (h : readFull n s = .ok (buf, s1)) (hp : p <+: s) :
    (∃ p1, readFull n p = .ok (buf, p1) ∧ p1 <+: s1 ∧ p.length = p1.length + n) ∨
    (p.length < n ∧ ∃ e, isEOF e ∧ readFull n p = .error e) := by
  obtain ⟨t, ht⟩ := hp
  subst ht
  unfold readFull at h ⊢
  split at h
  · next hn =>
    simp only [Result.ok.injEq, Prod.mk.injEq] at h
    obtain ⟨hb, hs⟩ := h
    by_cases hpn : n ≤ p.length
    · left
      refine ⟨p.drop n, ?_, ?_, ?_⟩
      · rw [if_pos hpn, ← hb]
        rw [List.take_append_of_le_length hpn]
      · rw [← hs, List.drop_append_of_le_length hpn]
        exact ⟨t, rfl⟩
      · simp only [List.length_drop]; omega
    · right
      refine ⟨by omega, ?_⟩
      rw [if_neg hpn]
      by_cases hz : p.length = 0
      · exact ⟨.EOF, Or.inl rfl, by rw [if_pos hz]⟩
      · exact ⟨.ErrUnexpectedEOF, Or.inr rfl, by rw [if_neg hz]⟩
  · split at h <;> exact Result.noConfusion h

/-- The loop of lines 88-106 on a prefix of a stream: the same result when the
prefix holds all the bytes that were read, an end-of-stream error otherwise. -/
theorem readStrs_prefix : ∀ (offs : List Nat) (cur : Nat) (strs : List (Nat × GoString))
    (s p : Stream) (strs1 : List (Nat × GoString)) (cur1 : Nat) (rest : Stream),
    readStrs offs cur strs s = .ok (strs1, cur1, rest) → p <+: s →
    (∃ p1, readStrs offs cur strs p = .ok (strs1, cur1, p1) ∧ p1 <+: rest ∧
      s.length + p1.length = p.length + rest.length) ∨
    (p.length + rest.length < s.length ∧
      ∃ e, isEOF e ∧ readStrs offs cur strs p = .error e) := by
  intro offs
  induction offs with
  | nil =>
    intro cur strs s p strs1 cur1 rest h hp
    simp only [readStrs, Result.ok.injEq, Prod.mk.injEq] at h
    obtain ⟨h1, h2, h3⟩ := h
    subst h1; subst h2; subst h3
    exact Or.inl ⟨p, rfl, hp, by omega⟩
  | cons o offs ih =>
    intro cur strs s p strs1 cur1 rest h hp
    simp only [readStrs] at h
    split at h
    · exact Result.noConfusion h
    · next hoc =>
      split at h <;> try (exact Result.noConfusion h)
      next l s1 h1 =>
      split at h <;> try (exact Result.noConfusion h)
      next buf s2 h2 =>
      split at h <;> try (exact Result.noConfusion h)
      next t s3 h3 =>
      have l1 := (readU16_length h1).1
      have l2 := (readFull_length h2).1
      have l3 := (readU16_length h3).1
      have l4 := (readStrs_consumed _ _ _ _ _ _ _ h).1
      rcases readU16_prefix h1 hp with ⟨p1, hq1, hp1, hl1⟩ | ⟨_, e, he, hq⟩
      · rcases readFull_prefix h2 hp1 with ⟨p2, hq2, hp2, hl2⟩ | ⟨_, e, he, hq⟩
        · rcases readU16_prefix h3 hp2 with ⟨p3, hq3, hp3, hl3⟩ | ⟨_, e, he, hq⟩
          · rcases ih _ _ s3 p3 _ _ _ h hp3 with ⟨p4, hq4, hp4, hl4⟩ | ⟨hlt, e, he, hq⟩
            · exact Or.inl ⟨p4, by simp only [readStrs, hoc, if_false, hq1, hq2, hq3, hq4],
                hp4, by omega⟩
            · exact Or.inr ⟨by omega, e, he,
                by simp only [readStrs, hoc, if_false, hq1, hq2, hq3, hq]⟩
          · exact Or.inr ⟨by omega, e, he, by simp only [readStrs, hoc, if_false, hq1, hq2, hq]⟩
        · exact Or.inr ⟨by omega, e, he, by simp only [readStrs, hoc, if_false, hq1, hq]⟩
      · exact Or.inr ⟨by omega, e, he, by simp only [readStrs, hoc, if_false, hq]⟩

theorem readStringPool_prefix {r p : Stream} {strings : List GoString} {pos : Nat}
    {rest : Stream} (h : readStringPool r = .ok (strings, pos, rest)) (hp : p <+: r)
    (hlen : p.length + rest.length < r.length) :
    ∃ e, isEOF e ∧ readStringPool p = .error e := by
  obtain ⟨ws, s0, stroffs, s2, strs, curroffs, h1, h2, h3, _, _⟩ := readStringPool_inv h
  rcases readWords_prefix 9 r p ws s0 h1 hp with ⟨p1, hq1, hp1, hl1⟩ | ⟨_, e, he, hq⟩
  · rcases readWords_prefix _ s0 p1 stroffs s2 h2 hp1 with ⟨p2, hq2, hp2, hl2⟩ | ⟨_, e, he, hq⟩
    · rcases readStrs_prefix _ _ _ s2 p2 _ _ _ h3 hp2 with ⟨p3, hq3, hp3, hl3⟩ | ⟨_, e, he, hq⟩
      · omega
      · exact ⟨e, he, by simp only [readStringPool, readPreamble, hq1, hq2, hq]⟩
    · exact ⟨e, he, by simp only [readStringPool, readPreamble, hq1, hq]⟩
  · exact ⟨e, he, by simp only [readStringPool, readPreamble, hq]⟩

theorem readU16_result (s : Stream) :
    (∃ v s1, readU16 s = .ok (v, s1)) ∨ ∃ e, isEOF e ∧ readU16 s = .error e := by
  rcases s with _ | ⟨b0, _ | ⟨b1, t⟩⟩
  · exact Or.inr ⟨.EOF, Or.inl rfl, rfl⟩
  · exact Or.inr ⟨.ErrUnexpectedEOF, Or.inr rfl, rfl⟩
  · exact Or.inl ⟨_, _, rfl⟩

theorem readFull_result (n : Nat) (s : Stream) :
    (∃ b s1, readFull n s = .ok (b, s1)) ∨ ∃ e, isEOF e ∧ readFull n s = .error e := by
  unfold readFull
  by_cases h : n ≤ s.length
  · exact Or.inl ⟨_, _, by rw [if_pos h]⟩
  · right
    rw [if_neg h]
    by_cases hz : s.length = 0
    · exact ⟨.EOF, Or.inl rfl, by rw [if_pos hz]⟩
    · exact ⟨.ErrUnexpectedEOF, Or.inr rfl, by rw [if_neg hz]⟩

/-- When the string data is not fully present, the loop of lines 88-106
returns an error. -/
theorem readStrs_incomplete : ∀ (offs : List Nat) (cur : Nat) (strs : List (Nat × GoString))
    (s : Stream), readEntries offs.length s = none →
    ∃ e, readStrs offs cur strs s = .error e := by
  intro offs
  induction offs with
  | nil =>
    intro cur strs s h
    simp [readEntries] at h
  | cons o offs ih =>
    intro cur strs s h
    by_cases hoc : o = cur
    · subst hoc
      simp only [List.length_cons, readEntries] at h
      rcases readU16_result s with ⟨l, s1, h1⟩ | ⟨e, _, h1⟩
      · rw [h1] at h
        simp only at h
        rcases readFull_result (bufLen l) s1 with ⟨buf, s2, h2⟩ | ⟨e, _, h2⟩
        · rw [h2] at h
          simp only at h
          rcases readU16_result s2 with ⟨t, s3, h3⟩ | ⟨e, _, h3⟩
          · rw [h3] at h
            simp only at h
            have h4 : readEntries offs.length s3 = none := by
              cases hr : readEntries offs.length s3 with
              | none => rfl
              | some q => rw [hr] at h; simp at h
            obtain ⟨e, he⟩ := ih (o + ((l + 1) * 2 + 2))
              (mapInsert strs o (utf16BytesToString buf)) s3 h4
            exact ⟨e, by simp only [readStrs, ne_eq, not_true_eq_false, if_false, h1, h2,
              h3, he]⟩
          · exact ⟨e, by simp only [readStrs, ne_eq, not_true_eq_false, if_false, h1, h2,
              h3]⟩
        · exact ⟨e, by simp only [readStrs, ne_eq, not_true_eq_false, if_false, h1, h2]⟩
      · exact ⟨e, by simp only [readStrs, ne_eq, not_true_eq_false, if_false, h1]⟩
    · exact ⟨.InvalidStringOffset o, by simp only [readStrs, ne_eq, hoc, not_false_eq_true,
        if_true]⟩

/-- C14: an input of fewer than 36 bytes, an input that ends inside the offset
table, and an input whose string data is not fully present each make
`DecompressXML` return an error; and when the pool phase succeeds on an input,
leaving the stream `rest`, it fails with an end-of-stream error, as does
`DecompressXML`, on every prefix of that input that is shorter than the bytes
consumed. -/
theorem C14_truncated_pool :
    (∀ r : Stream, r.length < 36 →
      ∃ e, isEOF e ∧ readStringPool r = .error e ∧ DecompressXML r = .error e) ∧
    (∀ (r : Stream) (strnum : Nat) (s1 : Stream),
      readPreamble r = .ok (strnum, s1) → s1.length < 4 * strnum →
      ∃ e, isEOF e ∧ readStringPool r = .error e ∧ DecompressXML r = .error e) ∧
    (∀ (r : Stream) (strnum : Nat) (s1 : Stream) (stroffs : List Nat) (s2 : Stream),
      readPreamble r = .ok (strnum, s1) → readWords strnum s1 = .ok (stroffs, s2) →
      readEntries strnum s2 = none →
      ∃ e, readStringPool r = .error e ∧ DecompressXML r = .error e) ∧
    (∀ (r p : Stream) (strings : List GoString) (pos : Nat) (rest : Stream),
      readStringPool r = .ok (strings, pos, rest) → p <+: r →
      p.length + rest.length < r.length →
      ∃ e, isEOF e ∧ readStringPool p = .error e ∧ DecompressXML p = .error e) := by
  refine ⟨?_, ?_, ?_, ?_⟩
  · intro r hr
    obtain ⟨e, he, hw⟩ := readWords_short 9 r (by omega)
    have hp : readStringPool r = .error e := by
      simp only [readStringPool, readPreamble, hw]
    exact ⟨e, he, hp, by simp only [DecompressXML, hp]⟩
  · intro r strnum s1 hpre hlen
    obtain ⟨e, he, hw⟩ := readWords_short strnum s1 hlen
    have hp : readStringPool r = .error e := by
      simp only [readStringPool, hpre, hw]
    exact ⟨e, he, hp, by simp only [DecompressXML, hp]⟩
  · intro r strnum s1 stroffs s2 hpre hoffs hdata
    have hl : (sortInts stroffs).length = strnum := by
      rw [sortInts, List.length_insertionSort]
      exact readWords_length strnum s1 stroffs s2 hoffs
    obtain ⟨e, he⟩ := readStrs_incomplete (sortInts stroffs) 0 [] s2 (by rw [hl]; exact hdata)
    have hp : readStringPool r = .error e := by
      simp only [readStringPool, hpre, hoffs, he]
    exact ⟨e, hp, by simp only [DecompressXML, hp]⟩
  · intro r p strings pos rest h hp hlen
    obtain ⟨e, he, hr⟩ := readStringPool_prefix h hp hlen
    exact ⟨e, he, hr, by simp only [DecompressXML, hr]⟩

/-- Witness for C14: `c1Input` cut inside its second string entry. -/
theorem C14_truncated_pool_witness :
    ∃ e, isEOF e ∧ readStringPool (c1Input.take 55) = .error e ∧
      DecompressXML (c1Input.take 55) = .error e :=
  C14_truncated_pool.2.2.2 c1Input (c1Input.take 55) [str "ab", str "c"] 58
    ([0, 0] ++ le32 0xFFFFFFFF ++ record 0 0x100010 ++ record 0 0x100000)
    (by decide) (List.take_prefix 55 c1Input) (by decide)

/-! ## printTree against the reference rendering -/

theorem printAttr_eq_refAttr (a : Attr) : printAttr a = refAttr a := by
  unfold printAttr refAttr
  cases a.ns <;> simp [List.append_assoc]

theorem printAttrs_eq_refAttrs : ∀ attrs : List Attr, printAttrs attrs = refAttrs attrs := by
  intro attrs
  induction attrs with
  | nil => rfl
  | cons a rest ih => simp [printAttrs, refAttrs, printAttr_eq_refAttr] at ih ⊢; exact ih

mutual
theorem printTree_eq_ref : ∀ (t : Tag) (d : Nat) (x : GoString),
    refRender t d = some x → printTree t d = x
  | .mk name flags attrs children, d, x, h => by
    have e1 : str " /" ++ str ">\n" = str " />" ++ str "\n" := by decide
    have e2 : str ">\n" = str ">" ++ str "\n" := by decide
    simp only [refRender] at h
    by_cases htext : hasFlag flags TAG_TEXT = true
    · simp only [htext, if_true, Option.some.injEq] at h
      simp [printTree, htext, h]
    · simp only [htext, Bool.false_eq_true, if_false] at h
      by_cases hopen : hasFlag flags TAG_OPEN = true
      · simp only [hopen, if_true] at h
        cases children with
        | nil =>
          simp only [List.isEmpty_nil, if_true, Option.some.injEq] at h
          rw [← h]
          simp [printTree, htext, hopen, printAttrs_eq_refAttrs, List.append_assoc, e1]
        | cons c cs =>
          simp only [List.isEmpty_cons, Bool.false_eq_true, if_false] at h
          cases hb : refRenderList (c :: cs) (d + 1) with
          | none => rw [hb] at h; simp at h
          | some body =>
            rw [hb] at h
            simp only [Option.some.injEq] at h
            have hk := printChildren_eq_ref (c :: cs) (d + 1) body hb
            rw [← h]
            simp [printTree, htext, hopen, printAttrs_eq_refAttrs, List.append_assoc, hk, e2]
      · simp only [hopen, Bool.false_eq_true, if_false] at h
        exact Option.noConfusion h
theorem printChildren_eq_ref : ∀ (cs : List Tag) (d : Nat) (x : GoString),
    refRenderList cs d = some x → printChildren cs d = x
  | [], d, x, h => by
    simp only [refRenderList, Option.some.injEq] at h
    simp [printChildren, h]
  | c :: cs, d, x, h => by
    simp only [refRenderList] at h
    cases ha : refRender c d with
    | none => rw [ha] at h; simp at h
    | some a =>
      cases hb : refRenderList cs d with
      | none => rw [ha, hb] at h; simp at h
      | some b =>
        rw [ha, hb] at h
        simp only [Option.some.injEq] at h
        rw [← h]
        simp only [printChildren]
        rw [printTree_eq_ref c d a ha, printChildren_eq_ref cs d b hb]
end

mutual
theorem refRender_defined : ∀ (t : Tag) (d : Nat),
    allOpen t = true → (refRender t d).isSome = true
  | .mk name flags attrs children, d, h => by
    simp only [refRender]
    by_cases htext : hasFlag flags TAG_TEXT = true
    · simp [htext]
    · have h2 : hasFlag flags TAG_OPEN = true ∧ allOpenList children = true := by
        simpa [allOpen, htext] using h
      simp only [htext, Bool.false_eq_true, if_false, h2.1, if_true]
      by_cases hc : children.isEmpty = true
      · simp [hc]
      · have hk := refRenderList_defined children (d + 1) h2.2
        simp only [hc, Bool.false_eq_true, if_false]
        cases hb : refRenderList children (d + 1) with
        | none => rw [hb] at hk; simp at hk
        | some body => simp
theorem refRenderList_defined : ∀ (cs : List Tag) (d : Nat),
    allOpenList cs = true → (refRenderList cs d).isSome = true
  | [], d, _ => by simp [refRenderList]
  | c :: cs, d, h => by
    simp only [allOpenList, Bool.and_eq_true] at h
    have h1 := refRender_defined c d h.1
    have h2 := refRenderList_defined cs d h.2
    simp only [refRenderList]
    cases ha : refRender c d with
    | none => rw [ha] at h1; simp at h1
    | some a =>
      cases hb : refRenderList cs d with
      | none => rw [hb] at h2; simp at h2
      | some b => simp
end

/-- C16: for every tag tree and depth, `printTree` equals the reference
rendering wherever that rendering is defined, and it is defined for every tree
whose nodes are text nodes (TEXT set) or element nodes with OPEN set: a text
node is the tabs and its name; a childless element is the tabs, `<`, name,
attributes, ` />` and a newline; an element with children is the tabs,
`<name attributes>`, a newline, the children one level deeper, the tabs,
`</name>` and a newline; an attribute is a space, `prefix:` if it has a
namespace, and `name="value"` with the value copied as it is. -/
theorem C16_printTree_reference (t : Tag) (d : Nat) :
    (∀ x, refRender t d = some x → printTree t d = x) ∧
    (allOpen t = true → refRender t d = some (printTree t d)) := by
  refine ⟨printTree_eq_ref t d, ?_⟩
  intro h
  have hd := refRender_defined t d h
  cases hx : refRender t d with
  | none => rw [hx] at hd; simp at hd
  | some x => rw [printTree_eq_ref t d x hx]

/-- Witness for C16: the rendering of `c16Tree`, where the attribute value is
copied with its `<`, `&` and quotes. -/
theorem C16_printTree_reference_witness :
    printTree c16Tree 0 =
      str ("<manifest xmlns:android=\"http://x\">\n\thello\t<b android:label=\"a<b&\"c\"\" />\n" ++
           "\t<c>\n\t\t<d />\n\t</c>\n</manifest>\n") ∧
    refRender c16Tree 0 = some (printTree c16Tree 0) :=
  ⟨by decide, (C16_printTree_reference c16Tree 0).2 (by decide)⟩

/-! ## utf16BytesToString -/

theorem le16_u16 (b0 b1 : Byte) : le16 (u16 b0 b1) = [b0, b1] := by
  have h0 := b0.isLt
  have h1 := b1.isLt
  unfold le16 u16
  have e0 : (Fin.ofNat (b0.val + 256 * b1.val) : Fin 256) = b0 := by
    apply Fin.ext
    show (b0.val + 256 * b1.val) % 256 = b0.val
    omega
  have e1 : (Fin.ofNat ((b0.val + 256 * b1.val) / 256) : Fin 256) = b1 := by
    apply Fin.ext
    show ((b0.val + 256 * b1.val) / 256) % 256 = b1.val
    omega
  rw [e0, e1]

theorem u16_le16 (n : Nat) (h : n < 65536) :
    u16 (Fin.ofNat n : Fin 256) (Fin.ofNat (n / 256) : Fin 256) = n := by
  unfold u16
  show n % 256 + 256 * ((n / 256) % 256) = n
  omega

theorem utf16Units_lt : ∀ (n : Nat) (b : List Byte), b.length ≤ n →
    ∀ u ∈ utf16Units b, u < 65536 := by
  intro n
  induction n with
  | zero =>
    intro b hb
    match b, hb with
    | [], _ => simp [utf16Units]
  | succ n ih =>
    intro b hb
    match b, hb with
    | [], _ => simp [utf16Units]
    | [_], _ => simp [utf16Units]
    | b0 :: b1 :: rest, hb =>
      intro u hu
      simp only [utf16Units, List.mem_cons] at hu
      rcases hu with rfl | hu
      · have h0 := b0.isLt
        have h1 := b1.isLt
        unfold u16
        omega
      · exact ih rest (by simp only [List.length_cons] at hb; omega) u hu

theorem utf16Units_even : ∀ (n : Nat) (b : List Byte), b.length ≤ n → b.length % 2 = 0 →
    unitsLE (utf16Units b) = b ∧ (utf16Units b).length * 2 = b.length := by
  intro n
  induction n with
  | zero =>
    intro b hb _
    match b, hb with
    | [], _ => simp [utf16Units, unitsLE]
  | succ n ih =>
    intro b hb he
    match b, hb, he with
    | [], _, _ => simp [utf16Units, unitsLE]
    | [_], _, he => simp at he
    | b0 :: b1 :: rest, hb, he =>
      have hl : rest.length ≤ n := by simp only [List.length_cons] at hb; omega
      have he1 : rest.length % 2 = 0 := by simp only [List.length_cons] at he; omega
      obtain ⟨i1, i2⟩ := ih rest hl he1
      constructor
      · simp only [utf16Units, unitsLE, List.map_cons, List.flatten_cons, le16_u16]
        simp only [unitsLE] at i1
        rw [i1]
        rfl
      · simp only [utf16Units, List.length_cons]
        omega

theorem utf16Units_unitsLE : ∀ us : List Nat, (∀ u ∈ us, u < 65536) →
    utf16Units (unitsLE us) = us := by
  intro us
  induction us with
  | nil => intro _; rfl
  | cons u us ih =>
    intro h
    have hu := h u (List.mem_cons_self _ _)
    have ih1 := ih (fun v hv => h v (List.mem_cons_of_mem _ hv))
    simp only [unitsLE, List.map_cons, List.flatten_cons, le16, List.cons_append,
      List.nil_append, List.append_eq, utf16Units]
    simp only [unitsLE] at ih1
    rw [ih1, u16_le16 u hu]

theorem isScalar_iff (r : Nat) :
    isScalar r = true ↔ (r < 0xd800 ∨ (0xe000 ≤ r ∧ r < 0x110000)) := by
  simp only [isScalar, Bool.or_eq_true, decide_eq_true_eq, Bool.and_eq_true]

theorem utf16Decode_bmp (u : Nat) (rest : List Nat) (h : u < 0xd800 ∨ 0xe000 ≤ u) :
    utf16Decode (u :: rest) = u :: utf16Decode rest := by
  cases rest <;> simp only [utf16Decode, h, if_true]

theorem utf16Decode_pair (hi lo : Nat) (rest : List Nat) (h1 : 0xd800 ≤ hi) (h2 : hi < 0xdc00)
    (h3 : 0xdc00 ≤ lo) (h4 : lo < 0xe000) :
    utf16Decode (hi :: lo :: rest) = decodeSurrogates hi lo :: utf16Decode rest := by
  have hn : ¬ (hi < 0xd800 ∨ 0xe000 ≤ hi) := by omega
  have hp : hi < 0xdc00 ∧ 0xdc00 ≤ lo ∧ lo < 0xe000 := ⟨h2, h3, h4⟩
  simp only [utf16Decode, hn, if_false, hp, and_self, if_true]

theorem utf16Decode_lone (u : Nat) (rest : List Nat) (h1 : 0xd800 ≤ u) (h2 : u < 0xe000)
    (hnp : ¬ (u < 0xdc00 ∧ ∃ lo rest1, rest = lo :: rest1 ∧ 0xdc00 ≤ lo ∧ lo < 0xe000)) :
    utf16Decode (u :: rest) = 0xFFFD :: utf16Decode rest := by
  have hn : ¬ (u < 0xd800 ∨ 0xe000 ≤ u) := by omega
  cases rest with
  | nil => simp only [utf16Decode, hn, if_false]
  | cons lo rest1 =>
    have hp : ¬ (u < 0xdc00 ∧ 0xdc00 ≤ lo ∧ lo < 0xe000) := by
      rintro ⟨a, b, c⟩
      exact hnp ⟨a, lo, rest1, rfl, b, c⟩
    simp only [utf16Decode, hn, if_false, hp]

theorem utf16Decode_scalar : ∀ (n : Nat) (us : List Nat), us.length ≤ n →
    (∀ u ∈ us, u < 65536) → ∀ r ∈ utf16Decode us, isScalar r = true := by
  intro n
  induction n with
  | zero =>
    intro us hn _
    match us, hn with
    | [], _ => simp [utf16Decode]
  | succ n ih =>
    intro us hn hlt
    match us, hn, hlt with
    | [], _, _ => simp [utf16Decode]
    | u :: rest, hn, hlt =>
      have hu : u < 65536 := hlt u (List.mem_cons_self _ _)
      have hrest : ∀ v ∈ rest, v < 65536 := fun v hv => hlt v (List.mem_cons_of_mem _ hv)
      have hl : rest.length ≤ n := by simp only [List.length_cons] at hn; omega
      intro r hr
      by_cases hb : u < 0xd800 ∨ 0xe000 ≤ u
      · rw [utf16Decode_bmp u rest hb] at hr
        rcases List.mem_cons.mp hr with hr | hr
        · rw [hr, isScalar_iff]; omega
        · exact ih rest hl hrest r hr
      · by_cases hp : u < 0xdc00 ∧ ∃ lo rest1, rest = lo :: rest1 ∧ 0xdc00 ≤ lo ∧ lo < 0xe000
        · obtain ⟨hu2, lo, rest1, hrest1, hlo1, hlo2⟩ := hp
          subst hrest1
          rw [utf16Decode_pair u lo rest1 (by omega) hu2 hlo1 hlo2] at hr
          rcases List.mem_cons.mp hr with hr | hr
          · rw [hr, isScalar_iff]
            unfold decodeSurrogates
            omega
          · exact ih rest1 (by simp only [List.length_cons] at hl; omega)
              (fun v hv => hrest v (List.mem_cons_of_mem _ hv)) r hr
        · rw [utf16Decode_lone u rest (by omega) (by omega) hp] at hr
          rcases List.mem_cons.mp hr with hr | hr
          · rw [hr]; decide
          · exact ih rest hl hrest r hr

theorem runesToString_scalar : ∀ rs : List Nat, (∀ r ∈ rs, isScalar r = true) →
    runesToString rs = rs := by
  intro rs
  induction rs with
  | nil => intro _; rfl
  | cons r rs ih =>
    intro h
    have hr := h r (List.mem_cons_self _ _)
    have ih1 := ih (fun v hv => h v (List.mem_cons_of_mem _ hv))
    simp only [runesToString, List.map_cons, hr, if_true] at ih1 ⊢
    rw [ih1]

theorem encodeUTF16_cons (c : Nat) (s : List Nat) :
    encodeUTF16 (c :: s) = encodeRune c ++ encodeUTF16 s := by
  simp only [encodeUTF16, List.map_cons, List.flatten_cons]

theorem encodeUTF16_lt : ∀ s : List Nat, (∀ c ∈ s, isScalar c = true) →
    ∀ u ∈ encodeUTF16 s, u < 65536 := by
  intro s
  induction s with
  | nil => intro _ u hu; simp [encodeUTF16] at hu
  | cons c s ih =>
    intro h u hu
    have hc := (isScalar_iff c).mp (h c (List.mem_cons_self _ _))
    rw [encodeUTF16_cons, List.mem_append] at hu
    rcases hu with hu | hu
    · unfold encodeRune at hu
      by_cases hlt : c < 0x10000
      · rw [if_pos hlt, List.mem_singleton] at hu
        omega
      · rw [if_neg hlt] at hu
        simp only [List.mem_cons, List.mem_singleton, List.not_mem_nil, or_false] at hu
        omega
    · exact ih (fun v hv => h v (List.mem_cons_of_mem _ hv)) u hu

theorem utf16Decode_encode : ∀ s : List Nat, (∀ c ∈ s, isScalar c = true) →
    utf16Decode (encodeUTF16 s) = s := by
  intro s
  induction s with
  | nil => intro _; rfl
  | cons c s ih =>
    intro h
    have hc := (isScalar_iff c).mp (h c (List.mem_cons_self _ _))
    have ih1 := ih (fun v hv => h v (List.mem_cons_of_mem _ hv))
    rw [encodeUTF16_cons]
    unfold encodeRune
    by_cases hlt : c < 0x10000
    · rw [if_pos hlt, List.singleton_append, utf16Decode_bmp c _ (by omega), ih1]
    · rw [if_neg hlt]
      have h3 : decodeSurrogates (0xD800 + (c - 0x10000) / 1024)
          (0xDC00 + (c - 0x10000) % 1024) = c := by
        unfold decodeSurrogates
        show (_ : Nat) = _
        omega
      rw [List.cons_append, List.cons_append, List.nil_append,
        utf16Decode_pair _ _ _ (by omega) (by omega) (by omega) (by omega), h3, ih1]

/-- C18: for every byte slice `b` of even length the units decoded are the
little-endian units of `b` (no replacement slot is added), and
`utf16BytesToString` is the UTF-16 decoding of those units: a unit outside the
surrogate range is its own code point, a high surrogate directly followed by
a low surrogate is the supplementary code point of the pair, and any other
surrogate unit is U+FFFD; on the UTF-16LE encoding of a string of Unicode
scalar values it returns that string. -/
theorem C18_utf16_decoding :
    (∀ b : List Byte, b.length % 2 = 0 →
      unitsLE (utf16Units b) = b ∧ (utf16Units b).length * 2 = b.length ∧
      utf16BytesToString b = utf16Decode (utf16Units b)) ∧
    (∀ (u : Nat) (rest : List Nat), (u < 0xD800 ∨ 0xE000 ≤ u) →
      utf16Decode (u :: rest) = u :: utf16Decode rest) ∧
    (∀ (hi lo : Nat) (rest : List Nat), 0xD800 ≤ hi → hi < 0xDC00 → 0xDC00 ≤ lo →
      lo < 0xE000 →
      utf16Decode (hi :: lo :: rest) =
        (0x10000 + (hi - 0xD800) * 1024 + (lo - 0xDC00)) :: utf16Decode rest) ∧
    (∀ (u : Nat) (rest : List Nat), 0xD800 ≤ u → u < 0xE000 →
      ¬ (u < 0xDC00 ∧ ∃ lo rest1, rest = lo :: rest1 ∧ 0xDC00 ≤ lo ∧ lo < 0xE000) →
      utf16Decode (u :: rest) = 0xFFFD :: utf16Decode rest) ∧
    (∀ s : List Nat, (∀ c ∈ s, isScalar c = true) →
      utf16BytesToString (unitsLE (encodeUTF16 s)) = s) := by
  refine ⟨?_, ?_, ?_, ?_, ?_⟩
  · intro b hb
    obtain ⟨h1, h2⟩ := utf16Units_even b.length b (Nat.le_refl _) hb
    refine ⟨h1, h2, ?_⟩
    unfold utf16BytesToString
    exact runesToString_scalar _
      (utf16Decode_scalar _ _ (Nat.le_refl _) (utf16Units_lt b.length b (Nat.le_refl _)))
  · intro u rest hu
    exact utf16Decode_bmp u rest hu
  · intro hi lo rest h1 h2 h3 h4
    rw [utf16Decode_pair hi lo rest h1 h2 h3 h4]
    have e : decodeSurrogates hi lo = 0x10000 + (hi - 0xD800) * 1024 + (lo - 0xDC00) := by
      unfold decodeSurrogates
      show (_ : Nat) = _
      omega
    rw [e]
  · intro u rest h1 h2 hnp
    exact utf16Decode_lone u rest h1 h2 hnp
  · intro s hs
    unfold utf16BytesToString
    rw [utf16Units_unitsLE _ (encodeUTF16_lt s hs), utf16Decode_encode s hs]
    exact runesToString_scalar s hs

/-- Witness for C18: a string with an ASCII letter, a BMP character and a
supplementary character, and a lone high surrogate. -/
theorem C18_utf16_decoding_witness :
    utf16BytesToString (unitsLE (encodeUTF16 [0x61, 0x20AC, 0x1F600])) =
      [0x61, 0x20AC, 0x1F600] ∧
    utf16BytesToString (unitsLE [0xD83D, 0x61]) = [0xFFFD, 0x61] :=
  ⟨C18_utf16_decoding.2.2.2.2 [0x61, 0x20AC, 0x1F600] (by decide), by decide⟩

/-! ## Termination -/

theorem readU32_cases (s : Stream) :
    (∃ v s1, readU32 s = .ok (v, s1)) ∨ ∃ e, isEOF e ∧ readU32 s = .error e := by
  by_cases h : s.length < 4
  · exact Or.inr (readU32_short h)
  · rcases s with _ | ⟨b0, _ | ⟨b1, _ | ⟨b2, _ | ⟨b3, t⟩⟩⟩⟩
    · simp at h
    · simp at h
    · simp at h
    · simp at h
    · exact Or.inl ⟨_, _, rfl⟩

theorem index_cases (strings : List GoString) (i : Nat) :
    (∃ x, index strings i = .ok x) ∨ index strings i = .panic := by
  unfold index
  cases strings.get? i with
  | some x => exact Or.inl ⟨x, rfl⟩
  | none => exact Or.inr rfl

theorem readAttrs_ends (strings : List GoString) (nsmap : NsMap) :
    ∀ (k : Nat) (xmlns : List Attr) (s : Stream),
    (readAttrs strings nsmap k xmlns s).endsEOF := by
  intro k
  induction k with
  | zero => intro xmlns s; simp only [readAttrs, Result.endsEOF]
  | succ k ih =>
    intro xmlns s
    rcases readU32_cases s with ⟨ns, s1, h1⟩ | ⟨e, he, h1⟩
    · rcases readU32_cases s1 with ⟨attr, s2, h2⟩ | ⟨e, he, h2⟩
      · rcases readU32_cases s2 with ⟨value, s3, h3⟩ | ⟨e, he, h3⟩
        · rcases readU32_cases s3 with ⟨fl, s4, h4⟩ | ⟨e, he, h4⟩
          · rcases index_cases strings attr with ⟨nameStr, hi1⟩ | hi1
            · rcases index_cases strings (remapValue strings.length value) with
                ⟨valueStr, hi2⟩ | hi2
              · have hns : (∃ x, (if ns ≠ 0xffffffff then
                      (index strings (nsLookup nsmap ns)).map some else .ok none) = .ok x) ∨
                    (if ns ≠ 0xffffffff then
                      (index strings (nsLookup nsmap ns)).map some else .ok none) = .panic := by
                  by_cases hn : ns ≠ 0xffffffff
                  · rw [if_pos hn]
                    rcases index_cases strings (nsLookup nsmap ns) with ⟨x, hx⟩ | hx
                    · exact Or.inl ⟨some x, by rw [hx]; rfl⟩
                    · exact Or.inr (by rw [hx]; rfl)
                  · rw [if_neg hn]
                    exact Or.inl ⟨none, rfl⟩
                rcases hns with ⟨nsStr, hi3⟩ | hi3
                · rcases readU32_cases s4 with ⟨pad, s5, h5⟩ | ⟨e, he, h5⟩
                  · simp only [readAttrs, h1, h2, h3, h4, hi1, hi2, hi3, h5]
                    exact ih _ _
                  · simp only [readAttrs, h1, h2, h3, h4, hi1, hi2, hi3, h5]
                    exact he
                · simp only [readAttrs, h1, h2, h3, h4, hi1, hi2, hi3, Result.endsEOF]
              · simp only [readAttrs, h1, h2, h3, h4, hi1, hi2, Result.endsEOF]
            · simp only [readAttrs, h1, h2, h3, h4, hi1, Result.endsEOF]
          · simp only [readAttrs, h1, h2, h3, h4]
            exact he
        · simp only [readAttrs, h1, h2, h3]
          exact he
      · simp only [readAttrs, h1, h2]
        exact he
    · simp only [readAttrs, h1]
      exact he

theorem readRecord_ends (strings : List GoString) (nsmap : NsMap) (xmlns : List Attr)
    (name flags : Nat) (s : Stream) :
    (readRecord strings nsmap xmlns name flags s).endsEOF := by
  have hfix : (readFixed strings nsmap xmlns flags s).endsEOF := by
    unfold readFixed
    rcases readU32_cases s with ⟨k, s1, h1⟩ | ⟨e, he, h1⟩
    · rcases readU32_cases s1 with ⟨u, s2, h2⟩ | ⟨e, he, h2⟩
      · simp only [h1, h2]
        split
        · exact readAttrs_ends strings nsmap k xmlns s2
        · trivial
      · simp only [h1, h2]
        split <;> exact he
    · simp only [h1]
      split <;> exact he
  unfold readRecord
  cases hf : readFixed strings nsmap xmlns flags s with
  | ok p =>
    obtain ⟨attrs, s1⟩ := p
    simp only [finishTag]
    rcases index_cases strings name with ⟨x, hx⟩ | hx
    · simp only [hx, Result.endsEOF]
    · simp only [hx, Result.endsEOF]
  | error e => rw [hf] at hfix; exact hfix
  | panic => trivial
  | outOfFuel => rw [hf] at hfix; exact hfix

theorem readTagLoop_ends (strings : List GoString) :
    ∀ (fuel : Nat) (nsmap : NsMap) (xmlns : List Attr) (s : Stream), s.length < 8 * fuel →
    (readTagLoop strings fuel nsmap xmlns s).endsEOF := by
  intro fuel
  induction fuel with
  | zero => intro nsmap xmlns s h; omega
  | succ fuel ih =>
    intro nsmap xmlns s h
    rcases readU32_cases s with ⟨name, s1, h1⟩ | ⟨e, he, h1⟩
    · rcases readU32_cases s1 with ⟨flags, s2, h2⟩ | ⟨e, he, h2⟩
      · have l1 := readU32_length h1
        have l2 := readU32_length h2
        have l3 := readPastSentinel_length s2 0
        simp only [readTagLoop, h1, h2]
        split
        · exact ih _ _ _ (by omega)
        · exact readRecord_ends strings nsmap xmlns name flags s2
      · simp only [readTagLoop, h1, h2]
        exact he
    · simp only [readTagLoop, h1]
      exact he

theorem readTag_ends (strings : List GoString) (nsmap : NsMap) (s : Stream) :
    (readTag strings nsmap s).endsEOF :=
  readTagLoop_ends strings (s.length + 1) nsmap [] s (by omega)

theorem readChildren_length {strings : List GoString} {fuel : Nat} {nsmap : NsMap}
    {stoptag : GoString} {s : Stream} {children : List Tag} {nsmap1 : NsMap} {s1 : Stream}
    (h : readChildren strings fuel nsmap stoptag s = .ok (children, nsmap1, s1)) :
    s1.length + 16 ≤ s.length :=
  (readChildren_sound strings fuel _ _ _ _ _ _ h).length_le

theorem readChildren_ends (strings : List GoString) :
    ∀ (fuel : Nat) (nsmap : NsMap) (stoptag : GoString) (s : Stream), s.length < 16 * fuel →
    (readChildren strings fuel nsmap stoptag s).endsEOF := by
  intro fuel
  induction fuel with
  | zero => intro nsmap stoptag s h; omega
  | succ fuel ih =>
    intro nsmap stoptag s h
    have ht := readTag_ends strings nsmap s
    simp only [readChildren]
    cases hr : readTag strings nsmap s with
    | ok p =>
      obtain ⟨tag, nsmap1, s1⟩ := p
      have l1 := (readTag_ok hr).1
      simp only
      split
      · split
        · have hk := ih nsmap1 tag.name s1 (by omega)
          cases hkr : readChildren strings fuel nsmap1 tag.name s1 with
          | ok q =>
            obtain ⟨kids, nsmap2, s2⟩ := q
            have l2 := readChildren_length hkr
            simp only
            have hrest := ih nsmap2 stoptag s2 (by omega)
            cases hrr : readChildren strings fuel nsmap2 stoptag s2 with
            | ok q2 => trivial
            | error e => rw [hrr] at hrest; exact hrest
            | panic => trivial
            | outOfFuel => rw [hrr] at hrest; exact hrest
          | error e => rw [hkr] at hk; exact hk
          | panic => trivial
          | outOfFuel => rw [hkr] at hk; exact hk
        · split
          · trivial
          · have hrest := ih nsmap1 stoptag s1 (by omega)
            cases hrr : readChildren strings fuel nsmap1 stoptag s1 with
            | ok q2 => trivial
            | error e => rw [hrr] at hrest; exact hrest
            | panic => trivial
            | outOfFuel => rw [hrr] at hrest; exact hrest
      · have hrest := ih nsmap1 stoptag s1 (by omega)
        cases hrr : readChildren strings fuel nsmap1 stoptag s1 with
        | ok q2 => trivial
        | error e => rw [hrr] at hrest; exact hrest
        | panic => trivial
        | outOfFuel => rw [hrr] at hrest; exact hrest
    | error e => rw [hr] at ht; exact ht
    | panic => trivial
    | outOfFuel => rw [hr] at ht; exact ht

theorem readMeat_ends (strings : List GoString) (s : Stream) :
    (readMeat strings s).endsEOF := by
  have ht := readTag_ends strings [] s
  unfold readMeat readRoot
  cases hr : readTag strings [] s with
  | ok p =>
    obtain ⟨root, nsmap, s1⟩ := p
    have hk := readChildren_ends strings (s1.length + 1) nsmap root.name s1 (by omega)
    simp only
    cases hkr : readChildren strings (s1.length + 1) nsmap root.name s1 with
    | ok q => trivial
    | error e => rw [hkr] at hk; exact hk
    | panic => trivial
    | outOfFuel => rw [hkr] at hk; exact hk
  | error e => rw [hr] at ht; exact ht
  | panic => trivial
  | outOfFuel => rw [hr] at ht; exact ht

theorem readWords_cases : ∀ (n : Nat) (s : Stream),
    (∃ ws s1, readWords n s = .ok (ws, s1)) ∨ ∃ e, isEOF e ∧ readWords n s = .error e := by
  intro n
  induction n with
  | zero => intro s; exact Or.inl ⟨[], s, rfl⟩
  | succ n ih =>
    intro s
    rcases readU32_cases s with ⟨v, s1, h1⟩ | ⟨e, he, h1⟩
    · rcases ih s1 with ⟨ws, s2, h2⟩ | ⟨e, he, h2⟩
      · exact Or.inl ⟨v :: ws, s2, by simp only [readWords, h1, h2]⟩
      · exact Or.inr ⟨e, he, by simp only [readWords, h1, h2]⟩
    · exact Or.inr ⟨e, he, by simp only [readWords, h1]⟩

theorem readStrs_cases : ∀ (offs : List Nat) (cur : Nat) (strs : List (Nat × GoString))
    (s : Stream),
    (∃ q, readStrs offs cur strs s = .ok q) ∨ ∃ e, readStrs offs cur strs s = .error e := by
  intro offs
  induction offs with
  | nil => intro cur strs s; exact Or.inl ⟨_, rfl⟩
  | cons o offs ih =>
    intro cur strs s
    by_cases hoc : o ≠ cur
    · exact Or.inr ⟨.InvalidStringOffset o, by rw [readStrs, if_pos hoc]⟩
    · rcases readU16_result s with ⟨l, s1, h1⟩ | ⟨e, _, h1⟩
      · rcases readFull_result (bufLen l) s1 with ⟨buf, s2, h2⟩ | ⟨e, _, h2⟩
        · rcases readU16_result s2 with ⟨t, s3, h3⟩ | ⟨e, _, h3⟩
          · rcases ih (cur + ((l + 1) * 2 + 2)) (mapInsert strs o (utf16BytesToString buf)) s3
              with ⟨q, h4⟩ | ⟨e, h4⟩
            · exact Or.inl ⟨q, by simp only [readStrs, hoc, if_false, h1, h2, h3, h4]⟩
            · exact Or.inr ⟨e, by simp only [readStrs, hoc, if_false, h1, h2, h3, h4]⟩
          · exact Or.inr ⟨e, by simp only [readStrs, hoc, if_false, h1, h2, h3]⟩
        · exact Or.inr ⟨e, by simp only [readStrs, hoc, if_false, h1, h2]⟩
      · exact Or.inr ⟨e, by simp only [readStrs, hoc, if_false, h1]⟩

theorem readStringPool_ends (r : Stream) : readStringPool r ≠ .outOfFuel := by
  unfold readStringPool readPreamble
  rcases readWords_cases 9 r with ⟨ws, s0, h1⟩ | ⟨e, _, h1⟩
  · simp only [h1]
    rcases readWords_cases (ws.getD 4 0) s0 with ⟨stroffs, s2, h2⟩ | ⟨e, _, h2⟩
    · simp only [h2]
      rcases readStrs_cases (sortInts stroffs) 0 [] s2 with ⟨⟨strs, curroffs, s3⟩, h3⟩ | ⟨e, h3⟩
      · simp only [h3, buildStrings]
        by_cases hb : strs.length < (sortInts stroffs).length
        · simp only [hb, if_true]
          exact fun h => Result.noConfusion h
        · simp only [hb, if_false]
          exact fun h => Result.noConfusion h
      · simp only [h3]
        exact fun h => Result.noConfusion h
    · simp only [h2]
      exact fun h => Result.noConfusion h
  · simp only [h1]
    exact fun h => Result.noConfusion h

theorem skipBytes_cases : ∀ (n : Nat) (s : Stream),
    (∃ s1, skipBytes n s = .ok s1) ∨ ∃ e, skipBytes n s = .error e := by
  intro n
  induction n with
  | zero => intro s; exact Or.inl ⟨s, rfl⟩
  | succ n ih =>
    intro s
    rcases s with _ | ⟨b, t⟩
    · exact Or.inr ⟨.EOF, rfl⟩
    · rcases ih t with ⟨s1, h⟩ | ⟨e, h⟩
      · exact Or.inl ⟨s1, by simp only [skipBytes, readByte, h]⟩
      · exact Or.inr ⟨e, by simp only [skipBytes, readByte, h]⟩

theorem skipToMeat_cases (pos : Nat) (s : Stream) :
    (∃ s1, skipToMeat pos s = .ok s1) ∨ ∃ e, skipToMeat pos s = .error e := by
  unfold skipToMeat
  rcases skipBytes_cases (pos % 4) s with ⟨s1, h⟩ | ⟨e, h⟩
  · simp only [h]
    cases hr : readPastSentinel s1 0 with
    | mk a b =>
      cases a with
      | some e => exact Or.inr ⟨e, rfl⟩
      | none => exact Or.inl ⟨b, rfl⟩
  · exact Or.inr ⟨e, by simp only [h]⟩

theorem DecompressXML_ends (r : Stream) : DecompressXML r ≠ .outOfFuel := by
  have hp := readStringPool_ends r
  unfold DecompressXML
  cases h1 : readStringPool r with
  | ok p =>
    obtain ⟨strings, pos, s1⟩ := p
    simp only
    rcases skipToMeat_cases pos s1 with ⟨s2, h2⟩ | ⟨e, h2⟩
    · simp only [h2]
      have hm := readMeat_ends strings s2
      intro hc
      rw [hc] at hm
      exact hm
    · simp only [h2]
      exact fun h => Result.noConfusion h
  | error e => exact fun h => Result.noConfusion h
  | panic => exact fun h => Result.noConfusion h
  | outOfFuel => exact absurd h1 hp

/-! ## The close record that ends a level -/

theorem readU32_suffix {s : Stream} {v : Nat} {s1 : Stream} (h : readU32 s = .ok (v, s1)) :
    s1 <:+ s := by
  rw [readU32_drop h]
  exact List.drop_suffix 4 s

theorem scanToSentinel_suffix : ∀ (n : Nat) (s : Stream), s.length ≤ n →
    (scanToSentinel s).2 <:+ s := by
  intro n
  induction n with
  | zero =>
    intro s hs
    match s, hs with
    | [], _ => simp [scanToSentinel]
  | succ n ih =>
    intro s hs
    match s, hs with
    | [], _ => simp [scanToSentinel]
    | [_], _ => simp [scanToSentinel]
    | [_, _], _ => simp [scanToSentinel]
    | [_, _, _], _ => simp [scanToSentinel]
    | b0 :: b1 :: b2 :: b3 :: rest, hs =>
      have hsuf : rest <:+ b0 :: b1 :: b2 :: b3 :: rest := ⟨[b0, b1, b2, b3], rfl⟩
      simp only [scanToSentinel]
      split
      · exact hsuf
      · exact (ih rest (by simp only [List.length_cons] at hs; omega)).trans hsuf

theorem skipSentinels_suffix (count : Int) : ∀ (k : Nat) (n : Nat) (s : Stream), s.length ≤ k →
    (skipSentinels count n s).2 <:+ s := by
  intro k
  induction k with
  | zero =>
    intro n s hs
    match s, hs with
    | [], _ => simp [skipSentinels]
  | succ k ih =>
    intro n s hs
    match s, hs with
    | [], _ => simp [skipSentinels]
    | [_], _ => simp [skipSentinels]
    | [_, _], _ => simp [skipSentinels]
    | [_, _, _], _ => simp [skipSentinels]
    | b0 :: b1 :: b2 :: b3 :: rest, hs =>
      have hsuf : rest <:+ b0 :: b1 :: b2 :: b3 :: rest := ⟨[b0, b1, b2, b3], rfl⟩
      simp only [skipSentinels]
      split
      · split
        · exact hsuf
        · exact (ih (n + 1) rest (by simp only [List.length_cons] at hs; omega)).trans hsuf
      · exact List.suffix_refl _

theorem readPastSentinel_suffix (s : Stream) (count : Int) :
    (readPastSentinel s count).2 <:+ s := by
  have h1 := scanToSentinel_suffix s.length s (Nat.le_refl _)
  unfold readPastSentinel
  split
  · next e s1 heq => rw [heq] at h1; exact h1
  · next s1 heq =>
    rw [heq] at h1
    split
    · exact (skipSentinels_suffix count s1.length 1 s1 (Nat.le_refl _)).trans h1
    · exact h1

theorem readAttrs_suffix (strings : List GoString) (nsmap : NsMap) :
    ∀ (k : Nat) (xmlns : List Attr) (s : Stream) (out : List Attr) (rest : Stream),
    readAttrs strings nsmap k xmlns s = .ok (out, rest) → rest <:+ s := by
  intro k
  induction k with
  | zero =>
    intro xmlns s out rest h
    simp only [readAttrs, Result.ok.injEq, Prod.mk.injEq] at h
    rw [h.2]
  | succ k ih =>
    intro xmlns s out rest h
    simp only [readAttrs] at h
    split at h <;> try (exact Result.noConfusion h)
    next ns s1 h1 =>
    split at h <;> try (exact Result.noConfusion h)
    next attr s2 h2 =>
    split at h <;> try (exact Result.noConfusion h)
    next value s3 h3 =>
    split at h <;> try (exact Result.noConfusion h)
    next fl s4 h4 =>
    split at h <;> try (exact Result.noConfusion h)
    next nameStr hi1 =>
    split at h <;> try (exact Result.noConfusion h)
    next valueStr hi2 =>
    split at h <;> try (exact Result.noConfusion h)
    next nsStr hi3 =>
    split at h <;> try (exact Result.noConfusion h)
    next pad s5 h5 =>
    exact (ih _ _ _ _ h).trans ((readU32_suffix h5).trans ((readU32_suffix h4).trans
      ((readU32_suffix h3).trans ((readU32_suffix h2).trans (readU32_suffix h1)))))

theorem readFixed_suffix {strings : List GoString} {nsmap : NsMap} {xmlns : List Attr}
    {flags : Nat} {s : Stream} {out : List Attr} {rest : Stream}
    (h : readFixed strings nsmap xmlns flags s = .ok (out, rest)) : rest <:+ s := by
  unfold readFixed at h
  split at h
  · split at h <;> try (exact Result.noConfusion h)
    next k s1 h1 =>
    split at h <;> try (exact Result.noConfusion h)
    next u s2 h2 =>
    exact (readAttrs_suffix strings nsmap k xmlns s2 out rest h).trans
      ((readU32_suffix h2).trans (readU32_suffix h1))
  · split at h <;> try (exact Result.noConfusion h)
    next k s1 h1 =>
    split at h <;> try (exact Result.noConfusion h)
    next u s2 h2 =>
    simp only [Result.ok.injEq, Prod.mk.injEq] at h
    rw [← h.2]
    exact (readU32_suffix h2).trans (readU32_suffix h1)

theorem readTagLoop_suffix (strings : List GoString) :
    ∀ (fuel : Nat) (nsmap : NsMap) (xmlns : List Attr) (s : Stream)
      (tag : Tag) (nsmap1 : NsMap) (rest : Stream),
    readTagLoop strings fuel nsmap xmlns s = .ok (tag, nsmap1, rest) → rest <:+ s := by
  intro fuel
  induction fuel with
  | zero =>
    intro nsmap xmlns s tag nsmap1 rest h
    simp [readTagLoop] at h
  | succ fuel ih =>
    intro nsmap xmlns s tag nsmap1 rest h
    simp only [readTagLoop] at h
    split at h <;> try (exact Result.noConfusion h)
    next name s1 h1 =>
    split at h <;> try (exact Result.noConfusion h)
    next flags s2 h2 =>
    have hs2 : s2 <:+ s := (readU32_suffix h2).trans (readU32_suffix h1)
    split at h
    · exact (ih _ _ _ _ _ _ h).trans ((readPastSentinel_suffix s2 0).trans hs2)
    · obtain ⟨s3, hfix, _, _, hrest⟩ := readRecord_inv h
      rw [hrest]
      exact (readPastSentinel_suffix s3 0).trans ((readFixed_suffix hfix).trans hs2)

theorem LevelRecords.suffix {strings : List GoString} {stoptag : GoString} {nsmap : NsMap}
    {s : Stream} {children : List Tag} {nsmap1 : NsMap} {s1 : Stream}
    (h : LevelRecords strings stoptag nsmap s children nsmap1 s1) : s1 <:+ s := by
  induction h with
  | close htag _ _ _ => exact readTagLoop_suffix strings _ _ _ _ _ _ _ htag
  | container htag _ _ _ _ ih1 ih2 =>
    exact ih2.trans (ih1.trans (readTagLoop_suffix strings _ _ _ _ _ _ _ htag))
  | leaf htag _ _ ih =>
    exact ih.trans (readTagLoop_suffix strings _ _ _ _ _ _ _ htag)

/-- A level that is read to its end ends with a close record named as the
stop name, read somewhere in the stream. -/
theorem LevelRecords.has_close {strings : List GoString} {stoptag : GoString} {nsmap : NsMap}
    {s : Stream} {children : List Tag} {nsmap1 : NsMap} {s1 : Stream}
    (h : LevelRecords strings stoptag nsmap s children nsmap1 s1) :
    ∃ m t tag m1, t <:+ s ∧ readTag strings m t = .ok (tag, m1, s1) ∧
      hasFlag tag.flags TAG_SUPPORTS_CHILDREN = true ∧ hasFlag tag.flags TAG_OPEN = false ∧
      tag.name = stoptag := by
  induction h with
  | close htag hsup hopen hname =>
    exact ⟨_, _, _, _, List.suffix_refl _, htag, hsup, hopen, hname⟩
  | container htag _ _ hk _ _ ih2 =>
    obtain ⟨m, t, tag, m1, ht, hr, h1, h2, h3⟩ := ih2
    exact ⟨m, t, tag, m1,
      ht.trans (hk.suffix.trans (readTagLoop_suffix strings _ _ _ _ _ _ _ htag)),
      hr, h1, h2, h3⟩
  | leaf htag _ _ ih =>
    obtain ⟨m, t, tag, m1, ht, hr, h1, h2, h3⟩ := ih
    exact ⟨m, t, tag, m1, ht.trans (readTagLoop_suffix strings _ _ _ _ _ _ _ htag),
      hr, h1, h2, h3⟩

/-- Without a close record named as the root, `readMeat` ends in an
end-of-stream error or in a run-time fault. -/
theorem readMeat_no_close (strings : List GoString) (s : Stream) (root : Tag)
    (nsmap1 : NsMap) (s1 : Stream)
    (hroot : readTag strings [] s = .ok (root, nsmap1, s1))
    (hno : ∀ m t tag m1 t1, t <:+ s1 → readTag strings m t = .ok (tag, m1, t1) →
      ¬ (hasFlag tag.flags TAG_SUPPORTS_CHILDREN = true ∧ hasFlag tag.flags TAG_OPEN = false ∧
        tag.name = root.name)) :
    readMeat strings s = .panic ∨ ∃ e, isEOF e ∧ readMeat strings s = .error e := by
  have hk := readChildren_ends strings (s1.length + 1) nsmap1 root.name s1 (by omega)
  cases hkr : readChildren strings (s1.length + 1) nsmap1 root.name s1 with
  | ok q =>
    obtain ⟨kids, m2, s2⟩ := q
    obtain ⟨m, t, tag, m1, ht, hr, h1, h2, h3⟩ :=
      (readChildren_sound strings _ _ _ _ _ _ _ hkr).has_close
    exact absurd ⟨h1, h2, h3⟩ (hno m t tag m1 s2 ht hr)
  | error e =>
    rw [hkr] at hk
    exact Or.inr ⟨e, hk, by simp only [readMeat, readRoot, hroot, hkr]⟩
  | panic => exact Or.inl (by simp only [readMeat, readRoot, hroot, hkr])
  | outOfFuel => rw [hkr] at hk; exact absurd hk (fun h => h)

/-- C17 (evaluation of the code at the failing input, and what holds on every
input): `DecompressXML` on `c9Input` ends in a run-time fault, which is
neither text nor an error. On every input `DecompressXML` ends: the fuel of
the model is never used up, because a successful `readTag` consumes at least
16 bytes and every pass through the namespace-declaration retry at least 8,
so that `readTag` ends with fuel above an eighth of the stream length and
`readChildren` with fuel above a sixteenth; every error they return is an
end-of-stream error. When no close record named as the root can be read
anywhere in the stream after the root record, the decode ends in an
end-of-stream error or in the fault, never in text, as on `c17Input`. -/
theorem C17_termination :
    DecompressXML c9Input = .panic ∧
    (∀ r : Stream, DecompressXML r ≠ .outOfFuel) ∧
    (∀ (strings : List GoString) (nsmap : NsMap) (s : Stream) (tag : Tag) (nsmap1 : NsMap)
      (rest : Stream),
      readTag strings nsmap s = .ok (tag, nsmap1, rest) → rest.length + 16 ≤ s.length) ∧
    (∀ (s s1 s2 : Stream) (name flags : Nat),
      readU32 s = .ok (name, s1) → readU32 s1 = .ok (flags, s2) →
      (readPastSentinel s2 0).2.length + 8 ≤ s.length) ∧
    (∀ (strings : List GoString) (fuel : Nat) (nsmap : NsMap) (xmlns : List Attr) (s : Stream),
      s.length < 8 * fuel → (readTagLoop strings fuel nsmap xmlns s).endsEOF) ∧
    (∀ (strings : List GoString) (fuel : Nat) (nsmap : NsMap) (stoptag : GoString)
      (s : Stream),
      s.length < 16 * fuel → (readChildren strings fuel nsmap stoptag s).endsEOF) ∧
    (∀ (strings : List GoString) (s : Stream), (readMeat strings s).endsEOF) ∧
    (∀ (r : Stream) (strings : List GoString) (pos : Nat) (s0 s : Stream) (root : Tag)
      (nsmap1 : NsMap) (s1 : Stream),
      readStringPool r = .ok (strings, pos, s0) → skipToMeat pos s0 = .ok s →
      readTag strings [] s = .ok (root, nsmap1, s1) →
      (∀ m t tag m1 t1, t <:+ s1 → readTag strings m t = .ok (tag, m1, t1) →
        ¬ (hasFlag tag.flags TAG_SUPPORTS_CHILDREN = true ∧
          hasFlag tag.flags TAG_OPEN = false ∧ tag.name = root.name)) →
      DecompressXML r = .panic ∨ ∃ e, isEOF e ∧ DecompressXML r = .error e) ∧
    DecompressXML c17Input = .error .EOF := by
  refine ⟨by decide, DecompressXML_ends, ?_, ?_, readTagLoop_ends, readChildren_ends,
    readMeat_ends, ?_, by decide⟩
  · intro strings nsmap s tag nsmap1 rest h
    exact (readTag_ok h).1
  · intro s s1 s2 name flags h1 h2
    have l1 := readU32_length h1
    have l2 := readU32_length h2
    have l3 := readPastSentinel_length s2 0
    omega
  · intro r strings pos s0 s root nsmap1 s1 hp hs hroot hno
    rcases readMeat_no_close strings s root nsmap1 s1 hroot hno with h | ⟨e, he, h⟩
    · exact Or.inl (by simp only [DecompressXML, hp, hs, h])
    · exact Or.inr ⟨e, he, by simp only [DecompressXML, hp, hs, h]⟩

end Axml2xml
